import Mathlib

/-!
Shallow embedding of the aws-cost-slack pipeline (main.go).

The program fetches the current month's AWS cost groups, parses every
group's "UnblendedCost" amount string with strconv.ParseFloat, sorts the
entries by amount descending with sort.Slice, prepends a synthetic
"Total" row, and renders the entries as fixed-width lines posted to a
Slack webhook.

Modelling conventions:
* Go float64 amounts are modelled as exact rationals (ℚ).  The spec's
  "within floating-point tolerance" phrasing corresponds to exact
  equality in this model.
* The Cost Explorer call, the HTTP transport and logging are external
  I/O: their results (the ResultsByTime payload, the webhook response)
  are inputs of the embedded functions.
* sort.Slice is embedded as the sorting algorithm of the Go standard
  library version this repository pins (go 1.14.2 in
  .github/workflows/deploy.yml): quicksort with median-of-three /
  Tukey-ninther pivoting, heap-sort depth fallback, and, for segments of
  at most 12 elements, a gap-6 shell pass followed by insertion sort.
  Loops are written as structurally recursive functions on an explicit
  fuel argument that is at least the loop's iteration count, so every
  definition evaluates by kernel reduction.
-/

namespace AwsCostSlack

/-! ### Strings: unicode.IsSpace, strings.TrimSpace, the label Replacer -/

/-- Go `unicode.IsSpace`: '\t', '\n', '\v', '\f', '\r', ' ', U+0085, U+00A0,
and the Unicode White_Space code points above Latin-1. -/
def goIsSpace (c : Char) : Bool :=
  c == ' ' || c == '\t' || c == '\n' || c == Char.ofNat 11 || c == Char.ofNat 12 ||
  c == '\r' || c == Char.ofNat 0x85 || c == Char.ofNat 0xA0 ||
  c == Char.ofNat 0x1680 || (Char.ofNat 0x2000 ≤ c && c ≤ Char.ofNat 0x200A) ||
  c == Char.ofNat 0x2028 || c == Char.ofNat 0x2029 || c == Char.ofNat 0x202F ||
  c == Char.ofNat 0x205F || c == Char.ofNat 0x3000

def trimLeftL (l : List Char) : List Char := l.dropWhile goIsSpace

def trimRightL (l : List Char) : List Char := (l.reverse.dropWhile goIsSpace).reverse

/-- Go `strings.TrimSpace` on the character list of a string. -/
def goTrimSpace (l : List Char) : List Char := trimRightL (trimLeftL l)

/-- Go `strings.NewReplacer("AWS", "", "Amazon", "").Replace`: a single
left-to-right pass; at each position the first matching pattern is removed
and scanning resumes after the removed occurrence (the replacement, here
empty, is never rescanned). -/
def goReplaceAWSAmazon : List Char → List Char
  | 'A' :: 'W' :: 'S' :: rest => goReplaceAWSAmazon rest
  | 'A' :: 'm' :: 'a' :: 'z' :: 'o' :: 'n' :: rest => goReplaceAWSAmazon rest
  | c :: rest => c :: goReplaceAWSAmazon rest
  | [] => []

/-- The label cleaning applied by postSlack to each entry's key. -/
def cleanKeyL (l : List Char) : List Char := goTrimSpace (goReplaceAWSAmazon l)

/-- String-level label cleaning. -/
def cleanKey (s : String) : String := String.mk (cleanKeyL s.data)

/-! ### strconv.ParseFloat (decimal forms) -/

def isDigitC (c : Char) : Bool := '0' ≤ c && c ≤ '9'

def digitVal (c : Char) : Nat := c.toNat - 48

/-- Read a maximal run of decimal digits: accumulated value, digit count,
remaining characters. -/
def readDigits : List Char → Nat → Nat → Nat × Nat × List Char
  | [], acc, cnt => (acc, cnt, [])
  | c :: cs, acc, cnt =>
    if isDigitC c then readDigits cs (acc * 10 + digitVal c) (cnt + 1)
    else (acc, cnt, c :: cs)

/-- Leading-sign handling of ParseFloat: strip one optional '+' or '-'. -/
def goParseSign : List Char → Bool × List Char
  | '+' :: r => (false, r)
  | '-' :: r => (true, r)
  | r => (false, r)

/-- Fraction-part handling of ParseFloat: digits after an optional '.'. -/
def goParseFrac : List Char → Nat × Nat × List Char
  | '.' :: r => readDigits r 0 0
  | r => (0, 0, r)

/-- Go `strconv.ParseFloat(s, 64)` on ordinary decimal numerals (on the
character list): optional sign, digits with optional fraction part (at
least one digit overall), optional decimal exponent; the whole string
must be consumed.  The Inf/NaN, hexadecimal-float and digit-underscore
forms accepted by Go lie outside the exact-rational value domain of this
model and are not represented; every amount string exercised below
(plain decimal numerals and non-numeric strings) behaves exactly as in
Go. -/
def parseGoFloatL (l : List Char) : Option ℚ :=
  let p1 := goParseSign l
  let ipart := readDigits p1.2 0 0
  let fpart := goParseFrac ipart.2.2
  if ipart.2.1 + fpart.2.1 = 0 then none
  else
    let mant : ℚ := (ipart.1 : ℚ) + (fpart.1 : ℚ) / (10 : ℚ) ^ fpart.2.1
    let signed : ℚ := if p1.1 then -mant else mant
    match fpart.2.2 with
    | [] => some signed
    | e :: r =>
      if e = 'e' ∨ e = 'E' then
        let e1 := goParseSign r
        let epart := readDigits e1.2 0 0
        if epart.2.1 = 0 then none
        else
          match epart.2.2 with
          | [] => some (if e1.1 then signed / (10 : ℚ) ^ epart.1 else signed * (10 : ℚ) ^ epart.1)
          | _ => none
      else none

/-- `strconv.ParseFloat` on a string. -/
def parseGoFloat (s : String) : Option ℚ := parseGoFloatL s.data

/-! ### fmt formatting: "%-40s : %10.3f %s" -/

/-- Reversed decimal digits of `n`, with fuel (`fuel ≥` digit count). -/
def natDigitsAux : Nat → Nat → List Char
  | 0, _ => []
  | fuel + 1, n => if n = 0 then [] else Char.ofNat (48 + n % 10) :: natDigitsAux fuel (n / 10)

/-- Decimal digit string of a natural number. -/
def natToDecString (n : Nat) : List Char :=
  if n = 0 then ['0'] else (natDigitsAux (n + 1) n).reverse

/-- Left-pad with '0' to length at least `k`. -/
def padZeros (k : Nat) (l : List Char) : List Char :=
  List.replicate (k - l.length) '0' ++ l

/-- Go fmt `%.3f` on the exact rational value: round to an integer number
of thousandths (ties round half up on the rational; fmt rounds the binary
float64, whose representation error is outside this model) and print with
exactly three fraction digits. -/
def formatF3 (q : ℚ) : List Char :=
  let n : ℤ := round (q * 1000)
  let ds := padZeros 4 (natToDecString n.natAbs)
  let ip := ds.take (ds.length - 3)
  let fp := ds.drop (ds.length - 3)
  (if n < 0 then ['-'] else []) ++ ip ++ '.' :: fp

/-- fmt width padding for `%-40s`: left-justify, pad right with spaces. -/
def padSpacesRight (w : Nat) (l : List Char) : List Char :=
  l ++ List.replicate (w - l.length) ' '

/-- fmt width padding for `%10.3f`: right-justify, pad left with spaces. -/
def padSpacesLeft (w : Nat) (l : List Char) : List Char :=
  List.replicate (w - l.length) ' ' ++ l

/-- `fmt.Sprintf("%-40s : %10.3f %s", key, amount, unit)`. -/
def sprintfLine (key : List Char) (amount : ℚ) (unit : List Char) : List Char :=
  padSpacesRight 40 key ++ [' ', ':', ' '] ++ padSpacesLeft 10 (formatF3 amount) ++ ' ' :: unit

/-! ### Data model -/

/-- The `cost` struct of main.go (`amount`, a Go float64, modelled as ℚ). -/
structure cost where
  key : String
  amount : ℚ
  unit : String
deriving DecidableEq, Inhabited

/-- Cost Explorer MetricValue: `Amount` and `Unit` are string pointers
(nil modelled as `none`). -/
structure MetricValue where
  amount : Option String
  unit : Option String

/-- One result group: `Keys` and the `Metrics["UnblendedCost"]` entry
(a missing map entry is `none`). -/
structure Group where
  keys : List String
  unblendedCost : Option MetricValue

/-- One element of the response's `ResultsByTime`. -/
structure ResultByTime where
  groups : List Group

/-- Key extraction in getCosts: `Keys[0]` if `len(Keys) >= 1`, else `""`. -/
def groupKey (g : Group) : String :=
  match g.keys with
  | [] => ""
  | k :: _ => k

/-- Amount string: the zero value `""` when the metric or its Amount field is nil. -/
def groupAmountStr (g : Group) : String :=
  match g.unblendedCost with
  | none => ""
  | some m => m.amount.getD ""

/-- Unit string: the zero value `""` when the metric or its Unit field is nil. -/
def groupUnitStr (g : Group) : String :=
  match g.unblendedCost with
  | none => ""
  | some m => m.unit.getD ""

/-- The parse loop of getCosts: builds a `cost` per group in order, aborting
with the wrapped strconv error at the first non-numeric amount. -/
def parseGroups : List Group → Except String (List cost)
  | [] => .ok []
  | g :: gs =>
    match parseGoFloat (groupAmountStr g) with
    | none => .error "failed to parse amount"
    | some v =>
      match parseGroups gs with
      | .error e => .error e
      | .ok rest => .ok ({ key := groupKey g, amount := v, unit := groupUnitStr g } :: rest)

/-! ### sort.Slice, Go 1.14 algorithm -/

section GoSort

variable {α : Type} [Inhabited α]

/-- Indexed read (indices used by the sort are always in bounds). -/
def getL (l : List α) (i : Nat) : α := l.getD i default

/-- `data.Swap(i, j)`. -/
def swapL (l : List α) (i j : Nat) : List α :=
  if hi : i < l.length then
    if hj : j < l.length then (l.set i (l.get ⟨j, hj⟩)).set j (l.get ⟨i, hi⟩)
    else l
  else l

/-- `data.Less(i, j)`. -/
def lessAt (less : α → α → Bool) (l : List α) (i j : Nat) : Bool :=
  less (getL l i) (getL l j)

/-- Inner loop of sort.insertionSort: `for j := i; j > a && Less(j, j-1); j--`. -/
def insInner (less : α → α → Bool) : Nat → List α → Nat → Nat → List α
  | 0, l, _, _ => l
  | fuel + 1, l, a, j =>
    if a < j then
      if lessAt less l j (j - 1) then insInner less fuel (swapL l j (j - 1)) a (j - 1)
      else l
    else l

/-- Outer loop of sort.insertionSort: `for i := a+1; i < b; i++`. -/
def insOuter (less : α → α → Bool) (b : Nat) : Nat → List α → Nat → Nat → List α
  | 0, l, _, _ => l
  | fuel + 1, l, a, i =>
    if i < b then insOuter less b fuel (insInner less i l a i) a (i + 1) else l

/-- Go `sort.insertionSort(data, a, b)`. -/
def insertionSortGo (less : α → α → Bool) (l : List α) (a b : Nat) : List α :=
  insOuter less b (b - a) l a (a + 1)

/-- The gap-6 shell pass quickSort applies to segments of at most 12
elements: `for i := a+6; i < b; i++ { if Less(i, i-6) { Swap(i, i-6) } }`. -/
def shellPass (less : α → α → Bool) (b : Nat) : Nat → List α → Nat → List α
  | 0, l, _ => l
  | fuel + 1, l, i =>
    if i < b then
      shellPass less b fuel (if lessAt less l i (i - 6) then swapL l i (i - 6) else l) (i + 1)
    else l

/-- Go `sort.siftDown(data, root, hi, first)` (the loop on `root`). -/
def siftDownGo (less : α → α → Bool) (hi first : Nat) : Nat → List α → Nat → List α
  | 0, l, _ => l
  | fuel + 1, l, root =>
    let child := 2 * root + 1
    if child ≥ hi then l
    else
      let child' :=
        if child + 1 < hi then
          if lessAt less l (first + child) (first + child + 1) then child + 1 else child
        else child
      if lessAt less l (first + root) (first + child') then
        siftDownGo less hi first fuel (swapL l (first + root) (first + child')) child'
      else l

/-- First loop of sort.heapSort: build the heap, `i` from `(hi-1)/2` down to 0. -/
def heapInit (less : α → α → Bool) (hi first : Nat) : Nat → List α → List α
  | 0, l => siftDownGo less hi first hi l 0
  | i + 1, l => heapInit less hi first i (siftDownGo less hi first hi l (i + 1))

/-- Second loop of sort.heapSort: pop the maximum, `i` from `hi-1` down to 0. -/
def heapExtract (less : α → α → Bool) (first : Nat) : Nat → List α → List α
  | 0, l => siftDownGo less 0 first 1 (swapL l first first) 0
  | i + 1, l =>
    heapExtract less first i
      (siftDownGo less (i + 1) first (i + 2) (swapL l first (first + (i + 1))) 0)

/-- Go `sort.heapSort(data, a, b)` (only invoked with `b - a > 12`). -/
def heapSortGo (less : α → α → Bool) (l : List α) (a b : Nat) : List α :=
  let first := a
  let hi := b - a
  let l1 := heapInit less hi first ((hi - 1) / 2) l
  if hi = 0 then l1 else heapExtract less first (hi - 1) l1

/-- Go `sort.medianOfThree(data, m1, m0, m2)`. -/
def medianOfThree (less : α → α → Bool) (l : List α) (m1 m0 m2 : Nat) : List α :=
  let l1 := if lessAt less l m1 m0 then swapL l m1 m0 else l
  if lessAt less l1 m2 m1 then
    let l2 := swapL l1 m2 m1
    if lessAt less l2 m1 m0 then swapL l2 m1 m0 else l2
  else l1

/-- doPivot phase: `for ; a < c && data.Less(a, pivot); a++`. -/
def scanLessFwd (less : α → α → Bool) (l : List α) (pivot c : Nat) : Nat → Nat → Nat
  | 0, a => a
  | fuel + 1, a =>
    if a < c then
      if lessAt less l a pivot then scanLessFwd less l pivot c fuel (a + 1) else a
    else a

/-- doPivot phase: `for ; b < c && !data.Less(pivot, b); b++`. -/
def scanNotLessFwd (less : α → α → Bool) (l : List α) (pivot c : Nat) : Nat → Nat → Nat
  | 0, b => b
  | fuel + 1, b =>
    if b < c then
      if lessAt less l pivot b then b else scanNotLessFwd less l pivot c fuel (b + 1)
    else b

/-- doPivot phase: `for ; b < c && data.Less(pivot, c-1); c--`. -/
def scanGtBack (less : α → α → Bool) (l : List α) (pivot b : Nat) : Nat → Nat → Nat
  | 0, c => c
  | fuel + 1, c =>
    if b < c then
      if lessAt less l pivot (c - 1) then scanGtBack less l pivot b fuel (c - 1) else c
    else c

/-- Main partition loop of doPivot (scan, scan, swap, repeat). -/
def dpLoopBC (less : α → α → Bool) (pivot : Nat) : Nat → List α → Nat → Nat → List α × Nat × Nat
  | 0, l, b, c => (l, b, c)
  | fuel + 1, l, b, c =>
    let b1 := scanNotLessFwd less l pivot c c b
    let c1 := scanGtBack less l pivot b1 c c
    if b1 ≥ c1 then (l, b1, c1)
    else dpLoopBC less pivot fuel (swapL l b1 (c1 - 1)) (b1 + 1) (c1 - 1)

/-- protect phase: `for ; a < b && !data.Less(b-1, pivot); b--`. -/
def scanEqBack (less : α → α → Bool) (l : List α) (pivot a : Nat) : Nat → Nat → Nat
  | 0, b => b
  | fuel + 1, b =>
    if a < b then
      if lessAt less l (b - 1) pivot then b else scanEqBack less l pivot a fuel (b - 1)
    else b

/-- protect phase: `for ; a < b && data.Less(a, pivot); a++`. -/
def scanLtFwd (less : α → α → Bool) (l : List α) (pivot b : Nat) : Nat → Nat → Nat
  | 0, a => a
  | fuel + 1, a =>
    if a < b then
      if lessAt less l a pivot then scanLtFwd less l pivot b fuel (a + 1) else a
    else a

/-- Duplicate-protection loop of doPivot. -/
def dpLoopProt (less : α → α → Bool) (pivot : Nat) : Nat → List α → Nat → Nat → List α × Nat × Nat
  | 0, l, a, b => (l, a, b)
  | fuel + 1, l, a, b =>
    let b1 := scanEqBack less l pivot a b b
    let a1 := scanLtFwd less l pivot b1 b1 a
    if a1 ≥ b1 then (l, a1, b1)
    else dpLoopProt less pivot fuel (swapL l a1 (b1 - 1)) (a1 + 1) (b1 - 1)

/-- Pivot choice of doPivot: optional Tukey-ninther (for `hi - lo > 40`)
followed by the final median-of-three on `(lo, m, hi-1)`. -/
def dpMedians (less : α → α → Bool) (l : List α) (lo hi m : Nat) : List α :=
  let la :=
    if hi - lo > 40 then
      let s := (hi - lo) / 8
      let l1 := medianOfThree less l lo (lo + s) (lo + 2 * s)
      let l2 := medianOfThree less l1 m (m - s) (m + s)
      medianOfThree less l2 (hi - 1) (hi - 1 - s) (hi - 1 - 2 * s)
    else l
  medianOfThree less la lo m (hi - 1)

/-- The duplicate-detection block of doPivot (the `dups` counting), given
the state after the main partition loop; returns the new data, `b`, `c`,
and the final `protect` flag. -/
def dpDups (less : α → α → Bool) (l : List α) (pivot m hi lo : Nat) (b c : Nat) :
    List α × Nat × Nat × Bool :=
  if ¬ hi - c < 5 ∧ hi - c < (hi - lo) / 4 then
    let s1 : List α × Nat × Nat :=
      if ¬ lessAt less l pivot (hi - 1) then (swapL l c (hi - 1), c + 1, 1)
      else (l, c, 0)
    let s2 : Nat × Nat :=
      if ¬ lessAt less s1.1 (b - 1) pivot then (b - 1, 1) else (b, 0)
    let s3 : List α × Nat × Nat :=
      if ¬ lessAt less s1.1 m pivot then (swapL s1.1 m (s2.1 - 1), s2.1 - 1, 1)
      else (s1.1, s2.1, 0)
    (s3.1, s3.2.1, s1.2.1, decide (s1.2.2 + s2.2 + s3.2.2 > 1))
  else (l, b, c, decide (hi - c < 5))

/-- The optional protect loop of doPivot, returning the new data and `b`. -/
def dpProt (less : α → α → Bool) (pivot : Nat) (protect : Bool) (l : List α) (a b : Nat) :
    List α × Nat :=
  if protect then
    let r := dpLoopProt less pivot b l a b
    (r.1, r.2.2)
  else (l, b)

/-- Go `sort.doPivot(data, lo, hi)`, returning the permuted data and
`(midlo, midhi)`. -/
def doPivotGo (less : α → α → Bool) (l : List α) (lo hi : Nat) : List α × Nat × Nat :=
  let m := (lo + hi) / 2
  let lb := dpMedians less l lo hi m
  let pivot := lo
  let a := scanLessFwd less lb pivot (hi - 1) (hi - 1) (lo + 1)
  let r1 := dpLoopBC less pivot (hi - 1) lb a (hi - 1)
  let r2 := dpDups less r1.1 pivot m hi lo r1.2.1 r1.2.2
  let r3 := dpProt less pivot r2.2.2.2 r2.1 a r2.2.1
  let le := swapL r3.1 pivot (r3.2 - 1)
  (le, r3.2 - 1, r2.2.2.1)

/-- Go `sort.quickSort(data, a, b, maxDepth)`; the outer loop's tail
iteration on the remaining half is the second recursive call. -/
def quickSortGo (less : α → α → Bool) : Nat → List α → Nat → Nat → Nat → List α
  | 0, l, _, _, _ => l
  | fuel + 1, l, a, b, maxDepth =>
    if b - a > 12 then
      if maxDepth = 0 then heapSortGo less l a b
      else
        let r := doPivotGo less l a b
        let mlo := r.2.1
        let mhi := r.2.2
        if mlo - a < b - mhi then
          quickSortGo less fuel (quickSortGo less fuel r.1 a mlo (maxDepth - 1)) mhi b (maxDepth - 1)
        else
          quickSortGo less fuel (quickSortGo less fuel r.1 mhi b (maxDepth - 1)) a mlo (maxDepth - 1)
    else
      if b - a > 1 then insertionSortGo less (shellPass less b (b - a) l (a + 6)) a b
      else l

/-- Go `sort.maxDepth(n)`: twice the number of binary digits of n. -/
def bitLenAux : Nat → Nat → Nat
  | 0, _ => 0
  | fuel + 1, n => if n = 0 then 0 else bitLenAux fuel (n / 2) + 1

def maxDepthGo (n : Nat) : Nat := 2 * bitLenAux n n

/-- Go `sort.Slice(l, less)` over the whole slice. -/
def goSortSlice (less : α → α → Bool) (l : List α) : List α :=
  quickSortGo less (l.length + 1) l 0 l.length (maxDepthGo l.length)

end GoSort

/-- The closure passed to sort.Slice in getCosts:
`costs[i].amount > costs[j].amount`. -/
def costLess (x y : cost) : Bool := decide (y.amount < x.amount)

/-- getCosts after the Cost Explorer response: flatten the groups of all
result periods in order, parse them (aborting on the first bad amount),
sort by amount descending with sort.Slice, sum the amounts, and prepend
the synthetic Total row.  The time-window computation and the API call
are external I/O; the response's ResultsByTime is the input. -/
def getCosts (rbt : List ResultByTime) : Except String (List cost) :=
  match parseGroups ((rbt.map ResultByTime.groups).flatten) with
  | .error e => .error e
  | .ok parsed =>
    let sorted := goSortSlice costLess parsed
    let total := sorted.foldl (fun acc c => acc + c.amount) 0
    .ok ({ key := "Total", amount := total, unit := "*" } :: sorted)

/-! ### postSlack -/

/-- One rendered text line of postSlack for a cost entry. -/
def formatLine (d : cost) : String :=
  String.mk (sprintfLine (cleanKeyL d.key.data) d.amount (goTrimSpace d.unit.data))

/-- Go `strings.Join(texts, "\n")`. -/
def goJoinNl : List String → String
  | [] => ""
  | s :: ss => ss.foldl (fun acc t => acc ++ "\n" ++ t) s

structure SlackAttachment where
  text : String
deriving DecidableEq

structure SlackRequest where
  text : String
  channelName : String
  attachments : List SlackAttachment
deriving DecidableEq

/-- postSlack's request payload: the per-entry loop, the fenced code
block, the fixed title, the channel name and the single attachment. -/
def buildSlackRequest (channelName : String) (details : List cost) : SlackRequest :=
  let texts := details.foldl (fun acc d => acc ++ [formatLine d]) []
  let text := "```\n" ++ goJoinNl texts ++ "\n```"
  { text := "AWS Cost and Usage", channelName := channelName,
    attachments := [{ text := text }] }

/-- The webhook interaction as seen by postSlack: either a transport
error from http.Post, or a response with a status code, a status line,
and a body read (ioutil.ReadAll) that may itself fail. -/
structure HttpResponse where
  statusCode : Nat
  status : String
  body : Except String String

/-- The result path of postSlack after the payload is built (json.Marshal
of this string-valued payload cannot fail): wrap a transport error, wrap
a body-read error, reject any status code other than 200 with an error
naming the observed status, otherwise succeed.  No retry: the single
response consumed here is the only transport interaction. -/
def postSlackResult (resp : Except String HttpResponse) : Except String Unit :=
  match resp with
  | .error e => .error ("failed to send request: " ++ e)
  | .ok r =>
    match r.body with
    | .error e => .error ("failed to read response body: " ++ e)
    | .ok _ => if r.statusCode = 200 then .ok () else .error ("invalid status " ++ r.status)

/-! ### Spec-side definitions and auxiliary string predicates -/

/-- Spec-side rendering of one entry (spec section 4.2): the cleaned label
left-justified in a 40-character field, the separator " : ", the amount
with exactly three decimals right-justified in a 10-character field, a
space, and the trimmed unit. -/
def specLine (e : cost) : String :=
  String.mk (padSpacesRight 40 (cleanKeyL e.key.data)) ++ " : " ++
    String.mk (padSpacesLeft 10 (formatF3 e.amount)) ++ " " ++ String.mk (goTrimSpace e.unit.data)

/-- Spec-side newline join of the rendered lines. -/
def specJoinNl : List String → String
  | [] => ""
  | [x] => x
  | x :: xs => x ++ "\n" ++ specJoinNl xs

/-- Spec-side payload: fixed title "AWS Cost and Usage", the channel name,
and a single attachment wrapping the joined lines in a triple-backtick
fenced code block. -/
def specPayload (channel : String) (entries : List cost) : SlackRequest :=
  { text := "AWS Cost and Usage", channelName := channel,
    attachments := [⟨"```\n" ++ specJoinNl (entries.map specLine) ++ "\n```"⟩] }

/-- Does `pat` occur at the head of the list? -/
def startsWithL : List Char → List Char → Bool
  | [], _ => true
  | _ :: _, [] => false
  | p :: ps, c :: cs => p == c && startsWithL ps cs

/-- Does `pat` occur anywhere in the list? -/
def containsPat (pat : List Char) : List Char → Bool
  | [] => startsWithL pat []
  | c :: cs => startsWithL pat (c :: cs) || containsPat pat cs

/-- The spec's end-to-end example input: two groups "Amazon EC2" /
"120.456" / "USD" and "AWS Lambda" / "30.1" / "USD" in one result period. -/
def exampleGroupsC7 : List ResultByTime :=
  [⟨[⟨["Amazon EC2"], some ⟨some "120.456", some "USD"⟩⟩,
     ⟨["AWS Lambda"], some ⟨some "30.1", some "USD"⟩⟩]⟩]

/-- A seven-group input with tied amounts (1, 5, 2, 2, 2, 2, 5) used to
exhibit the gap-6 shell pass of the pinned Go sort reordering equal
elements. -/
def exampleGroupsTies : List ResultByTime :=
  [⟨[⟨["A"], some ⟨some "1", some "u"⟩⟩,
     ⟨["B"], some ⟨some "5", some "u"⟩⟩,
     ⟨["C"], some ⟨some "2", some "u"⟩⟩,
     ⟨["D"], some ⟨some "2", some "u"⟩⟩,
     ⟨["E"], some ⟨some "2", some "u"⟩⟩,
     ⟨["F"], some ⟨some "2", some "u"⟩⟩,
     ⟨["G"], some ⟨some "5", some "u"⟩⟩]⟩]

/-- The entries are sorted by amount in descending order. -/
def sortedByAmountDesc (l : List cost) : Prop :=
  l.Chain' (fun x y => y.amount ≤ x.amount)

/-! ### Definitions for the line round trip (claim C8) -/

/-- Decimal value of a digit string (most significant first). -/
def digitsVal (ds : List Char) : Nat := ds.foldl (fun a c => a * 10 + digitVal c) 0

/-- Round to 3 decimal places (the rounding used by the fmt %.3f model). -/
def round3 (q : ℚ) : ℚ := (round (q * 1000) : ℚ) / 1000

def splitAtSep : List Char → Option (List Char × List Char)
  | [] => none
  | c :: cs =>
    if startsWithL [' ', ':', ' '] (c :: cs) then some ([], cs.drop 2)
    else
      match splitAtSep cs with
      | none => none
      | some (pre, post) => some (c :: pre, post)

def specParseLine (l : List Char) : Option (List Char × ℚ × List Char) :=
  match splitAtSep l with
  | none => none
  | some (pre, post) =>
    let label := goTrimSpace pre
    let post1 := post.dropWhile (fun c => c == ' ')
    let amountStr := post1.takeWhile (fun c => !(c == ' '))
    let rest := post1.drop amountStr.length
    match rest with
    | ' ' :: unit =>
      match parseGoFloatL amountStr with
      | none => none
      | some q => some (label, q, unit)
    | _ => none

/-- Adjacent-pairs descending sortedness of a segment `[a, b)`. -/
def sortedSegD (l : List cost) (a b : Nat) : Prop :=
  ∀ k, a ≤ k → k + 1 < b → (getL l (k + 1)).amount ≤ (getL l k).amount

/-- The segment `[a, b)` of a list. -/
def segL {α : Type} (l : List α) (a b : Nat) : List α := (l.drop a).take (b - a)

/-- `j` is `r` or a descendant of `r` in the implicit binary heap layout
(children of `x` are `2x+1` and `2x+2`). -/
def inSub (r j : Nat) : Prop := ∃ d, (j + 1) / 2 ^ d = r + 1

/-- The heap order on amounts holds at every edge whose parent index is at
least `r` (indices are offsets from `first`, within `[0, n)`). -/
def heapSeg (first : Nat) (l : List cost) (n r : Nat) : Prop :=
  ∀ j, 1 ≤ j → j < n → r ≤ (j - 1) / 2 →
    (getL l (first + (j - 1) / 2)).amount ≤ (getL l (first + j)).amount

/-! ### Permutation invariance of the sort (every operation is a swap) -/

section GoSortPerm

variable {α : Type} [Inhabited α]

theorem getL_eq_get (l : List α) (i : Nat) (h : i < l.length) : getL l i = l.get ⟨i, h⟩ := by
  simp [getL, List.getD_eq_getElem?_getD, List.getElem?_eq_getElem h]

theorem cons_set_perm :
    ∀ (t : List α) (m : Nat), m < t.length → ∀ (a : α),
      (getL t m :: t.set m a).Perm (a :: t) := by
  intro t
  induction t with
  | nil => intro m h; simp at h
  | cons b t ih =>
    intro m h a
    cases m with
    | zero => simpa [getL] using List.Perm.swap a b t
    | succ m =>
      have hm : m < t.length := by simpa using h
      have h1 : (getL t m :: b :: t.set m a).Perm (b :: getL t m :: t.set m a) :=
        List.Perm.swap _ _ _
      have h2 : (b :: getL t m :: t.set m a).Perm (b :: a :: t) :=
        List.Perm.cons b (ih m hm a)
      have h3 : (b :: a :: t).Perm (a :: b :: t) := List.Perm.swap _ _ _
      have e : getL (b :: t) (m + 1) = getL t m := by simp [getL]
      rw [e]
      simpa using (h1.trans h2).trans h3

theorem set_set_perm :
    ∀ (l : List α) (i j : Nat), i < l.length → j < l.length →
      ((l.set i (getL l j)).set j (getL l i)).Perm l := by
  intro l
  induction l with
  | nil => intro i j h _; simp at h
  | cons x t ih =>
    intro i j hi hj
    cases i with
    | zero =>
      cases j with
      | zero => simp [getL]
      | succ m =>
        have hm : m < t.length := by simpa using hj
        have e1 : getL (x :: t) (m + 1) = getL t m := by simp [getL]
        have e0 : getL (x :: t) 0 = x := by simp [getL]
        rw [e1, e0]
        simpa using cons_set_perm t m hm x
    | succ n =>
      cases j with
      | zero =>
        have hn : n < t.length := by simpa using hi
        have e1 : getL (x :: t) (n + 1) = getL t n := by simp [getL]
        have e0 : getL (x :: t) 0 = x := by simp [getL]
        rw [e1, e0]
        simpa using cons_set_perm t n hn x
      | succ m =>
        have hn : n < t.length := by simpa using hi
        have hm : m < t.length := by simpa using hj
        have e1 : getL (x :: t) (n + 1) = getL t n := by simp [getL]
        have e2 : getL (x :: t) (m + 1) = getL t m := by simp [getL]
        rw [e1, e2]
        simpa using List.Perm.cons x (ih n m hn hm)

theorem swapL_perm (l : List α) (i j : Nat) : (swapL l i j).Perm l := by
  unfold swapL
  by_cases hi : i < l.length
  · by_cases hj : j < l.length
    · simp only [hi, hj, dif_pos]
      rw [← getL_eq_get l j hj, ← getL_eq_get l i hi]
      exact set_set_perm l i j hi hj
    · simp [hi, hj]
  · simp [hi]

theorem swapL_length (l : List α) (i j : Nat) : (swapL l i j).length = l.length :=
  (swapL_perm l i j).length_eq

theorem insInner_perm (less : α → α → Bool) :
    ∀ (fuel : Nat) (l : List α) (a j : Nat), (insInner less fuel l a j).Perm l := by
  intro fuel
  induction fuel with
  | zero => intro l a j; simp [insInner]
  | succ n ih =>
    intro l a j
    simp only [insInner]
    split
    · split
      · exact (ih _ _ _).trans (swapL_perm _ _ _)
      · exact List.Perm.refl l
    · exact List.Perm.refl l

theorem insOuter_perm (less : α → α → Bool) (b : Nat) :
    ∀ (fuel : Nat) (l : List α) (a i : Nat), (insOuter less b fuel l a i).Perm l := by
  intro fuel
  induction fuel with
  | zero => intro l a i; simp [insOuter]
  | succ n ih =>
    intro l a i
    simp only [insOuter]
    split
    · exact (ih _ _ _).trans (insInner_perm less i l a i)
    · exact List.Perm.refl l

theorem insertionSortGo_perm (less : α → α → Bool) (l : List α) (a b : Nat) :
    (insertionSortGo less l a b).Perm l :=
  insOuter_perm less b (b - a) l a (a + 1)

theorem shellPass_perm (less : α → α → Bool) (b : Nat) :
    ∀ (fuel : Nat) (l : List α) (i : Nat), (shellPass less b fuel l i).Perm l := by
  intro fuel
  induction fuel with
  | zero => intro l i; simp [shellPass]
  | succ n ih =>
    intro l i
    simp only [shellPass]
    split
    · refine (ih _ _).trans ?_
      split
      · exact swapL_perm _ _ _
      · exact List.Perm.refl l
    · exact List.Perm.refl l

theorem siftDownGo_perm (less : α → α → Bool) (hi first : Nat) :
    ∀ (fuel : Nat) (l : List α) (root : Nat), (siftDownGo less hi first fuel l root).Perm l := by
  intro fuel
  induction fuel with
  | zero => intro l root; simp [siftDownGo]
  | succ n ih =>
    intro l root
    simp only [siftDownGo]
    repeat' split
    all_goals first
      | exact (ih _ _).trans (swapL_perm _ _ _)
      | exact List.Perm.refl l

theorem heapInit_perm (less : α → α → Bool) (hi first : Nat) :
    ∀ (i : Nat) (l : List α), (heapInit less hi first i l).Perm l := by
  intro i
  induction i with
  | zero => intro l; exact siftDownGo_perm less hi first hi l 0
  | succ n ih =>
    intro l
    exact (ih _).trans (siftDownGo_perm less hi first hi l (n + 1))

theorem heapExtract_perm (less : α → α → Bool) (first : Nat) :
    ∀ (i : Nat) (l : List α), (heapExtract less first i l).Perm l := by
  intro i
  induction i with
  | zero =>
    intro l
    exact (siftDownGo_perm less 0 first 1 _ 0).trans (swapL_perm l first first)
  | succ n ih =>
    intro l
    exact (ih _).trans ((siftDownGo_perm less (n + 1) first (n + 2) _ 0).trans
      (swapL_perm l first (first + (n + 1))))

theorem heapSortGo_perm (less : α → α → Bool) (l : List α) (a b : Nat) :
    (heapSortGo less l a b).Perm l := by
  unfold heapSortGo
  dsimp only
  split
  · exact heapInit_perm less (b - a) a ((b - a - 1) / 2) l
  · exact (heapExtract_perm less a (b - a - 1) _).trans
      (heapInit_perm less (b - a) a ((b - a - 1) / 2) l)

theorem medianOfThree_perm (less : α → α → Bool) (l : List α) (m1 m0 m2 : Nat) :
    (medianOfThree less l m1 m0 m2).Perm l := by
  unfold medianOfThree
  dsimp only
  repeat' split
  all_goals
    first
      | exact List.Perm.refl l
      | exact swapL_perm _ _ _
      | exact (swapL_perm _ _ _).trans (swapL_perm _ _ _)
      | exact ((swapL_perm _ _ _).trans (swapL_perm _ _ _)).trans (swapL_perm _ _ _)

theorem dpLoopBC_perm (less : α → α → Bool) (pivot : Nat) :
    ∀ (fuel : Nat) (l : List α) (b c : Nat), (dpLoopBC less pivot fuel l b c).1.Perm l := by
  intro fuel
  induction fuel with
  | zero => intro l b c; simp [dpLoopBC]
  | succ n ih =>
    intro l b c
    simp only [dpLoopBC]
    split
    · exact List.Perm.refl l
    · exact (ih _ _ _).trans (swapL_perm _ _ _)

theorem dpLoopProt_perm (less : α → α → Bool) (pivot : Nat) :
    ∀ (fuel : Nat) (l : List α) (a b : Nat), (dpLoopProt less pivot fuel l a b).1.Perm l := by
  intro fuel
  induction fuel with
  | zero => intro l a b; simp [dpLoopProt]
  | succ n ih =>
    intro l a b
    simp only [dpLoopProt]
    split
    · exact List.Perm.refl l
    · exact (ih _ _ _).trans (swapL_perm _ _ _)

theorem dpMedians_perm (less : α → α → Bool) (l : List α) (lo hi m : Nat) :
    (dpMedians less l lo hi m).Perm l := by
  unfold dpMedians
  dsimp only
  refine (medianOfThree_perm _ _ _ _ _).trans ?_
  split
  · exact ((medianOfThree_perm _ _ _ _ _).trans
      ((medianOfThree_perm _ _ _ _ _).trans (medianOfThree_perm _ _ _ _ _)))
  · exact List.Perm.refl l

theorem dpDups_perm (less : α → α → Bool) (l : List α) (pivot m hi lo b c : Nat) :
    (dpDups less l pivot m hi lo b c).1.Perm l := by
  unfold dpDups
  dsimp only
  repeat' split
  all_goals
    first
      | exact List.Perm.refl l
      | exact swapL_perm _ _ _
      | exact (swapL_perm _ _ _).trans (swapL_perm _ _ _)

theorem dpProt_perm (less : α → α → Bool) (pivot : Nat) (protect : Bool) (l : List α)
    (a b : Nat) : (dpProt less pivot protect l a b).1.Perm l := by
  unfold dpProt
  dsimp only
  split
  · exact dpLoopProt_perm less pivot b l a b
  · exact List.Perm.refl l

theorem doPivotGo_perm (less : α → α → Bool) (l : List α) (lo hi : Nat) :
    (doPivotGo less l lo hi).1.Perm l := by
  unfold doPivotGo
  dsimp only
  exact (swapL_perm _ _ _).trans ((dpProt_perm _ _ _ _ _ _).trans
    ((dpDups_perm _ _ _ _ _ _ _ _).trans
      ((dpLoopBC_perm _ _ _ _ _ _).trans (dpMedians_perm _ _ _ _ _))))

theorem quickSortGo_perm (less : α → α → Bool) :
    ∀ (fuel : Nat) (l : List α) (a b d : Nat), (quickSortGo less fuel l a b d).Perm l := by
  intro fuel
  induction fuel with
  | zero => intro l a b d; simp [quickSortGo]
  | succ n ih =>
    intro l a b d
    simp only [quickSortGo]
    repeat' split
    all_goals
      first
        | exact heapSortGo_perm less l a b
        | exact (ih _ _ _ _).trans ((ih _ _ _ _).trans (doPivotGo_perm less l a b))
        | exact (insertionSortGo_perm less _ a b).trans (shellPass_perm less b (b - a) l (a + 6))
        | exact List.Perm.refl l

theorem goSortSlice_perm (less : α → α → Bool) (l : List α) :
    (goSortSlice less l).Perm l :=
  quickSortGo_perm less (l.length + 1) l 0 l.length (maxDepthGo l.length)

end GoSortPerm

/-! ### Lemmas about the parse loop and the total -/

theorem parseGroups_map_key :
    ∀ (gs : List Group) (l : List cost), parseGroups gs = .ok l → l.map cost.key = gs.map groupKey := by
  intro gs
  induction gs with
  | nil => intro l h; simp [parseGroups] at h; simp [← h]
  | cons g gs ih =>
    intro l h
    simp only [parseGroups] at h
    cases hp : parseGoFloat (groupAmountStr g) with
    | none => rw [hp] at h; exact absurd h (by simp)
    | some v =>
      rw [hp] at h
      cases hr : parseGroups gs with
      | error e => rw [hr] at h; exact absurd h (by simp)
      | ok rest =>
        rw [hr] at h
        cases h
        simp [ih rest hr]

theorem parseGroups_error_of_none :
    ∀ (gs : List Group), (∃ g ∈ gs, parseGoFloat (groupAmountStr g) = none) →
      ∃ e, parseGroups gs = .error e := by
  intro gs
  induction gs with
  | nil => intro h; simp at h
  | cons g gs ih =>
    intro h
    rcases h with ⟨g0, hg0, hnone⟩
    rcases List.mem_cons.mp hg0 with h0 | h0
    · subst h0
      exact ⟨"failed to parse amount", by simp [parseGroups, hnone]⟩
    · cases hp : parseGoFloat (groupAmountStr g) with
      | none => exact ⟨"failed to parse amount", by simp [parseGroups, hp]⟩
      | some v =>
        rcases ih ⟨g0, h0, hnone⟩ with ⟨e, he⟩
        exact ⟨e, by simp [parseGroups, hp, he]⟩

theorem foldl_add_amount :
    ∀ (l : List cost) (init : ℚ),
      l.foldl (fun acc c => acc + c.amount) init = init + (l.map cost.amount).sum := by
  intro l
  induction l with
  | nil => intro init; simp
  | cons c l ih => intro init; simp [ih]; ring

/-! ### Claims C4, C5, C9, C10 -/

/-- C4: if any input group's amount string does not parse as a
floating-point number, getCosts fails with a parse error and returns no
list at all (no entry skipped, no default substituted, no partial list). -/
theorem claim4_parse_error (rbt : List ResultByTime)
    (h : ∃ g ∈ (rbt.map ResultByTime.groups).flatten, parseGoFloat (groupAmountStr g) = none) :
    ∃ e, getCosts rbt = .error e := by
  rcases parseGroups_error_of_none _ h with ⟨e, he⟩
  exact ⟨e, by simp [getCosts, he]⟩

/-- Witness for C4 at a concrete input with amount string "abc". -/
theorem claim4_parse_error_witness :
    ∃ e, getCosts [⟨[⟨["S3"], some ⟨some "abc", some "USD"⟩⟩]⟩] = .error e :=
  claim4_parse_error _ ⟨⟨["S3"], some ⟨some "abc", some "USD"⟩⟩, by simp, rfl⟩

/-- C9: a group whose "UnblendedCost" metric is absent, or present with a
nil Amount field, makes getCosts fail with a parse error for the whole
run (the defaulted empty amount string is not numeric); a missing metric
is never treated as a zero cost. -/
theorem claim9_missing_metric (rbt : List ResultByTime)
    (h : ∃ g ∈ (rbt.map ResultByTime.groups).flatten,
      g.unblendedCost = none ∨ ∃ m, g.unblendedCost = some m ∧ m.amount = none) :
    ∃ e, getCosts rbt = .error e := by
  apply claim4_parse_error
  rcases h with ⟨g, hg, hcase⟩
  refine ⟨g, hg, ?_⟩
  have hstr : groupAmountStr g = "" := by
    rcases hcase with h0 | ⟨m, hm, ha⟩
    · simp [groupAmountStr, h0]
    · simp [groupAmountStr, hm, ha]
  rw [hstr]
  rfl

/-- Witness for C9 at a concrete input whose group lacks the metric. -/
theorem claim9_missing_metric_witness :
    ∃ e, getCosts [⟨[⟨["EC2"], none⟩]⟩] = .error e :=
  claim9_missing_metric _ ⟨⟨["EC2"], none⟩, by simp, Or.inl rfl⟩

/-- C10: for an empty flattened group list (no result periods, or result
periods with no groups), getCosts succeeds with exactly the synthetic
`{Total, 0, *}` row. -/
theorem claim10_empty (rbt : List ResultByTime)
    (h : (rbt.map ResultByTime.groups).flatten = []) :
    getCosts rbt = .ok [{ key := "Total", amount := 0, unit := "*" }] := by
  unfold getCosts
  rw [h]
  rfl

/-- Witness for C10 at a concrete input with one empty result period. -/
theorem claim10_empty_witness :
    getCosts [⟨[]⟩] = .ok [{ key := "Total", amount := 0, unit := "*" }] :=
  claim10_empty [⟨[]⟩] rfl

/-- C5: postSlack succeeds iff the transport call succeeded, the body was
read, and the status code is 200; on any non-200 status it fails with an
error carrying the observed status line.  The model consumes a single
webhook response: postSlack performs exactly one POST, with no retry. -/
theorem claim5_send_status (resp : Except String HttpResponse) :
    ((postSlackResult resp).isOk = true ↔
      ∃ r b, resp = .ok r ∧ r.body = .ok b ∧ r.statusCode = 200) ∧
    (∀ r, resp = .ok r → (∃ b, r.body = .ok b) → r.statusCode ≠ 200 →
      postSlackResult resp = .error ("invalid status " ++ r.status)) := by
  constructor
  · cases resp with
    | error e => simp [postSlackResult, Except.isOk, Except.toBool]
    | ok r =>
      cases hb : r.body with
      | error e => simp [postSlackResult, hb, Except.isOk, Except.toBool]
      | ok b =>
        by_cases hs : r.statusCode = 200
        · simp [postSlackResult, hb, hs, Except.isOk, Except.toBool]
        · simp [postSlackResult, hb, hs, Except.isOk, Except.toBool]
  · intro r hr hb hs
    rcases hb with ⟨b, hb⟩
    subst hr
    simp [postSlackResult, hb, hs]

/-- Witness for C5 at a concrete 500 response. -/
theorem claim5_send_status_witness :
    postSlackResult (.ok ⟨500, "500 Internal Server Error", .ok "ignored"⟩) =
      .error ("invalid status " ++ "500 Internal Server Error") :=
  (claim5_send_status (.ok ⟨500, "500 Internal Server Error", .ok "ignored"⟩)).2
    ⟨500, "500 Internal Server Error", .ok "ignored"⟩ rfl ⟨"ignored", rfl⟩ (by decide)

/-! ### Claim C6: the rendered payload matches the spec's description -/

theorem formatLine_eq_specLine (d : cost) : formatLine d = specLine d := by
  apply String.ext
  simp [formatLine, specLine, sprintfLine, String.data_append,
    show (" : ").data = [' ', ':', ' '] from by decide,
    show (" ").data = [' '] from by decide]

theorem foldl_append_formatLine :
    ∀ (ds : List cost) (acc : List String),
      ds.foldl (fun a d => a ++ [formatLine d]) acc = acc ++ ds.map formatLine := by
  intro ds
  induction ds with
  | nil => intro acc; simp
  | cons d ds ih => intro acc; simp [ih]

theorem foldl_join_eq_specJoinNl :
    ∀ (ss : List String) (s : String),
      ss.foldl (fun acc t => acc ++ "\n" ++ t) s = specJoinNl (s :: ss) := by
  intro ss
  induction ss with
  | nil => intro s; rfl
  | cons t ts ih =>
    intro s
    show (t :: ts).foldl (fun acc t => acc ++ "\n" ++ t) s = specJoinNl (s :: t :: ts)
    simp only [List.foldl_cons]
    rw [ih (s ++ "\n" ++ t)]
    cases ts with
    | nil => rfl
    | cons u us =>
      show (s ++ "\n" ++ t) ++ "\n" ++ specJoinNl (u :: us) =
        s ++ "\n" ++ (t ++ "\n" ++ specJoinNl (u :: us))
      simp [String.append_assoc]

theorem goJoinNl_eq_specJoinNl : ∀ (l : List String), goJoinNl l = specJoinNl l := by
  intro l
  cases l with
  | nil => rfl
  | cons s ss => exact foldl_join_eq_specJoinNl ss s

/-- C6: for every list of cost entries and channel, the message postSlack
builds renders each entry with the template "%-40s : %10.3f %s" on the
cleaned label, the amount and the trimmed unit, joins the lines with
newlines inside a triple-backtick fenced block, and places that block as
the single attachment of a payload with title "AWS Cost and Usage" and
the given channel name. -/
theorem claim6_payload (channel : String) (details : List cost) :
    buildSlackRequest channel details = specPayload channel details := by
  unfold buildSlackRequest specPayload
  dsimp only
  rw [foldl_append_formatLine, goJoinNl_eq_specJoinNl, List.nil_append]
  have hfun : formatLine = specLine := funext formatLine_eq_specLine
  rw [hfun]

/-! ### Claim C3: label cleaning is not idempotent -/

theorem goReplace_eq_self :
    ∀ (l : List Char), containsPat "AWS".data l = false → containsPat "Amazon".data l = false →
      goReplaceAWSAmazon l = l := by
  intro l
  induction l using goReplaceAWSAmazon.induct with
  | case1 rest ih =>
    intro h1 _
    exfalso
    simp [containsPat, startsWithL] at h1
  | case2 rest ih =>
    intro _ h2
    exfalso
    simp [containsPat, startsWithL] at h2
  | case3 c rest hne1 hne2 ih =>
    intro h1 h2
    simp only [containsPat, Bool.or_eq_false_iff] at h1 h2
    rw [goReplaceAWSAmazon.eq_def]
    split
    · rename_i rest1 heq
      injection heq with hc hr
      exact (hne1 rest1 hc hr).elim
    · rename_i rest1 heq
      injection heq with hc hr
      exact (hne2 rest1 hc hr).elim
    · rename_i x c2 rest2 hn1 hn2 heq
      injection heq with hc hr
      subst hc
      subst hr
      rw [ih h1.2 h2.2]
    · rename_i heq
      exact (List.cons_ne_nil _ _ heq).elim
  | case4 =>
    intro _ _
    rfl

theorem trimLeftL_idem (l : List Char) : trimLeftL (trimLeftL l) = trimLeftL l :=
  List.dropWhile_idempotent goIsSpace l

theorem trimRightL_idem (l : List Char) : trimRightL (trimRightL l) = trimRightL l := by
  unfold trimRightL
  rw [List.reverse_reverse, List.dropWhile_idempotent]

theorem dropWhile_append_last (p : Char → Bool) (c : Char) (hc : p c = false) :
    ∀ (u : List Char), List.dropWhile p (u ++ [c]) = List.dropWhile p u ++ [c] := by
  intro u
  induction u with
  | nil => simp [List.dropWhile, hc]
  | cons a u ih =>
    by_cases hpa : p a = true
    · simp [List.dropWhile, hpa, ih]
    · simp only [Bool.not_eq_true] at hpa
      simp [List.dropWhile, hpa]

theorem dropWhile_fix_head (p : Char → Bool) (c : Char) (t : List Char)
    (h : List.dropWhile p (c :: t) = c :: t) : p c = false := by
  by_cases hpc : p c = true
  · exfalso
    have hd : List.dropWhile p (c :: t) = List.dropWhile p t := by
      simp [List.dropWhile, hpc]
    rw [hd] at h
    have hle : (List.dropWhile p t).length ≤ t.length := (List.dropWhile_sublist p).length_le
    rw [h] at hle
    simp at hle
  · simpa using hpc

theorem trimLeftL_trimRightL (y : List Char) (h : trimLeftL y = y) :
    trimLeftL (trimRightL y) = trimRightL y := by
  cases y with
  | nil => rfl
  | cons c t =>
    have hc : goIsSpace c = false := dropWhile_fix_head goIsSpace c t h
    unfold trimRightL
    rw [List.reverse_cons, dropWhile_append_last goIsSpace c hc, List.reverse_append]
    simp only [List.reverse_cons, List.reverse_nil, List.nil_append, List.singleton_append]
    simp [trimLeftL, List.dropWhile, hc]

theorem goTrimSpace_idem (l : List Char) : goTrimSpace (goTrimSpace l) = goTrimSpace l := by
  unfold goTrimSpace
  rw [trimLeftL_trimRightL (trimLeftL l) (trimLeftL_idem l), trimRightL_idem]

/-- C3 counterexample: label cleaning is not idempotent.  On the string
"AmaAWSzon" the single pass removes "AWS" and thereby creates a new
occurrence of "Amazon" ("AmaAWSzon" cleans to "Amazon", which cleans to
""), so cleaning an already-cleaned label can change it. -/
theorem claim3_counterexample : ¬ (∀ s : String, cleanKey (cleanKey s) = cleanKey s) := by
  intro h
  have hx := h "AmaAWSzon"
  revert hx
  decide

/-- C3 amended: label cleaning is idempotent on every string whose cleaned
form contains no residual occurrence of "AWS" or "Amazon" (the single
replacement pass can otherwise splice such an occurrence together, and a
second cleaning would remove it). -/
theorem claim3_amended (s : String)
    (h1 : containsPat "AWS".data (cleanKey s).data = false)
    (h2 : containsPat "Amazon".data (cleanKey s).data = false) :
    cleanKey (cleanKey s) = cleanKey s := by
  unfold cleanKey at h1 h2 ⊢
  apply String.ext
  show cleanKeyL (String.mk (cleanKeyL s.data)).data = cleanKeyL s.data
  have hdata : (String.mk (cleanKeyL s.data)).data = cleanKeyL s.data := rfl
  rw [hdata]
  rw [hdata] at h1 h2
  show goTrimSpace (goReplaceAWSAmazon (cleanKeyL s.data)) = cleanKeyL s.data
  rw [goReplace_eq_self (cleanKeyL s.data) h1 h2]
  show goTrimSpace (goTrimSpace (goReplaceAWSAmazon s.data)) = cleanKeyL s.data
  rw [goTrimSpace_idem]
  rfl

/-- Witness for the amended C3 at the already-problem-free label "Amazon EC2". -/
theorem claim3_amended_witness :
    containsPat "AWS".data (cleanKey "Amazon EC2").data = false ∧
    containsPat "Amazon".data (cleanKey "Amazon EC2").data = false ∧
    cleanKey (cleanKey "Amazon EC2") = cleanKey "Amazon EC2" :=
  ⟨by decide, by decide, claim3_amended "Amazon EC2" (by decide) (by decide)⟩

/-! ### Claim C1: the synthetic Total row -/

/-- C1 counterexample: the claim fails when an input group's service key
is itself "Total".  For the single input group `{Keys: ["Total"], amount
"1", unit "USD"}` the fetched list is `[{Total, 1, *}, {Total, 1, USD}]`,
which has two entries labelled "Total", so the synthetic row is not the
only one. -/
theorem claim1_counterexample :
    ¬ (∀ l, getCosts [⟨[⟨["Total"], some ⟨some "1", some "USD"⟩⟩]⟩] = .ok l →
        l.head? = some ⟨"Total", (l.tail.map cost.amount).sum, "*"⟩ ∧
        l.countP (fun c => c.key == "Total") = 1) := by
  intro h
  have hx := h [⟨"Total", 1, "*"⟩, ⟨"Total", 1, "USD"⟩] (by with_unfolding_all rfl)
  revert hx
  with_unfolding_all decide

/-- C1 amended: for every successfully parsed input, the first element of
the fetched list is the synthetic entry with label "Total" and unit "*",
and its amount equals the sum of the amounts of all other entries; and
provided no input group's extracted service key equals "Total", the
synthetic entry is the only one labelled "Total". -/
theorem claim1_amended (rbt : List ResultByTime) (l : List cost)
    (hok : getCosts rbt = .ok l)
    (hkey : ∀ g ∈ (rbt.map ResultByTime.groups).flatten, groupKey g ≠ "Total") :
    l.head? = some ⟨"Total", (l.tail.map cost.amount).sum, "*"⟩ ∧
    l.countP (fun c => c.key == "Total") = 1 := by
  unfold getCosts at hok
  cases hp : parseGroups ((rbt.map ResultByTime.groups).flatten) with
  | error e => rw [hp] at hok; exact absurd hok (by simp)
  | ok parsed =>
    rw [hp] at hok
    simp only [Except.ok.injEq] at hok
    subst hok
    have hperm := goSortSlice_perm costLess parsed
    constructor
    · simp only [List.head?_cons, List.tail_cons, Option.some.injEq]
      have := foldl_add_amount (goSortSlice costLess parsed) 0
      simp [this]
    · have hkeys := parseGroups_map_key _ _ hp
      have hzero : parsed.countP (fun c => c.key == "Total") = 0 := by
        apply List.countP_eq_zero.mpr
        intro c hc
        have hmem : c.key ∈ parsed.map cost.key := List.mem_map_of_mem cost.key hc
        rw [hkeys] at hmem
        rcases List.mem_map.mp hmem with ⟨g, hg, hgk⟩
        simp only [beq_iff_eq]
        rw [← hgk]
        exact hkey g hg
      have hsorted : (goSortSlice costLess parsed).countP (fun c => c.key == "Total") = 0 := by
        rw [hperm.countP_eq]
        exact hzero
      simp [List.countP_cons, hsorted]

/-- Witness for the amended C1 at a concrete one-group input. -/
theorem claim1_amended_witness :
    getCosts [⟨[⟨["EC2"], some ⟨some "1", some "USD"⟩⟩]⟩] =
      .ok [⟨"Total", 1, "*"⟩, ⟨"EC2", 1, "USD"⟩] ∧
    ([⟨"Total", (1 : ℚ), "*"⟩, ⟨"EC2", (1 : ℚ), "USD"⟩] : List cost).head? =
      some ⟨"Total",
        (([⟨"Total", (1 : ℚ), "*"⟩, ⟨"EC2", (1 : ℚ), "USD"⟩] : List cost).tail.map
          cost.amount).sum, "*"⟩ ∧
    ([⟨"Total", (1 : ℚ), "*"⟩, ⟨"EC2", (1 : ℚ), "USD"⟩] : List cost).countP
      (fun c => c.key == "Total") = 1 := by
  have hget : getCosts [⟨[⟨["EC2"], some ⟨some "1", some "USD"⟩⟩]⟩] =
      .ok [⟨"Total", 1, "*"⟩, ⟨"EC2", 1, "USD"⟩] := by
    with_unfolding_all rfl
  have hres := claim1_amended _ _ hget (by decide)
  exact ⟨hget, hres.1, hres.2⟩

/-! ### Claims C7 and C2 -/

set_option maxRecDepth 10000 in
/-- C7 counterexample: the end-to-end example as claimed is false on the
code.  For the example input, fetch's list keeps the raw provider labels
("Amazon EC2", "AWS Lambda"); the claimed list with stripped labels
("EC2", "Lambda") is not what fetch returns — stripping happens later in
the sender. -/
theorem claim7_counterexample :
    getCosts exampleGroupsC7 =
      .ok [⟨"Total", 150556/1000, "*"⟩, ⟨"Amazon EC2", 120456/1000, "USD"⟩,
        ⟨"AWS Lambda", 301/10, "USD"⟩] ∧
    getCosts exampleGroupsC7 ≠
      .ok [⟨"Total", 150556/1000, "*"⟩, ⟨"EC2", 120456/1000, "USD"⟩,
        ⟨"Lambda", 301/10, "USD"⟩] := by
  have h1 : getCosts exampleGroupsC7 =
      .ok [⟨"Total", 150556/1000, "*"⟩, ⟨"Amazon EC2", 120456/1000, "USD"⟩,
        ⟨"AWS Lambda", 301/10, "USD"⟩] := by
    with_unfolding_all rfl
  refine ⟨h1, ?_⟩
  intro hc
  have h2 := Except.ok.inj (h1.symm.trans hc)
  simp at h2

set_option maxRecDepth 10000 in
/-- C7 amended: for the example input, fetch's list is
`[{Total, 150.556, *}, {Amazon EC2, 120.456, USD}, {AWS Lambda, 30.1, USD}]`
(labels still raw; the provider-name substrings are stripped by the
sender), and the second rendered entry line of the block is exactly
`"EC2                                      :    120.456 USD"`. -/
theorem claim7_amended :
    getCosts exampleGroupsC7 =
      .ok [⟨"Total", 150556/1000, "*"⟩, ⟨"Amazon EC2", 120456/1000, "USD"⟩,
        ⟨"AWS Lambda", 301/10, "USD"⟩] ∧
    (([⟨"Total", 150556/1000, "*"⟩, ⟨"Amazon EC2", 120456/1000, "USD"⟩,
        ⟨"AWS Lambda", 301/10, "USD"⟩] : List cost).map formatLine)[1]? =
      some "EC2                                      :    120.456 USD" := by
  constructor
  · with_unfolding_all rfl
  · with_unfolding_all rfl

set_option maxRecDepth 10000 in
/-- C2 counterexample: the sort is not stable.  On the seven-group input
with amounts (1, 5, 2, 2, 2, 2, 5), the gap-6 shell pass of the pinned Go
version's sort.Slice swaps positions 0 and 6, so the two amount-5 entries
"B" (input position 1) and "G" (input position 6) come out in the order
G, B — the reverse of their input order. -/
theorem claim2_counterexample :
    ¬ (∀ parsed l,
        parseGroups ((exampleGroupsTies.map ResultByTime.groups).flatten) = .ok parsed →
        getCosts exampleGroupsTies = .ok l →
        sortedByAmountDesc l.tail ∧
        ∀ q : ℚ, l.tail.filter (fun c => c.amount == q) =
          parsed.filter (fun c => c.amount == q)) := by
  intro h
  have hx := h
    [⟨"A", 1, "u"⟩, ⟨"B", 5, "u"⟩, ⟨"C", 2, "u"⟩, ⟨"D", 2, "u"⟩, ⟨"E", 2, "u"⟩,
      ⟨"F", 2, "u"⟩, ⟨"G", 5, "u"⟩]
    [⟨"Total", 19, "*"⟩, ⟨"G", 5, "u"⟩, ⟨"B", 5, "u"⟩, ⟨"C", 2, "u"⟩, ⟨"D", 2, "u"⟩,
      ⟨"E", 2, "u"⟩, ⟨"F", 2, "u"⟩, ⟨"A", 1, "u"⟩]
    (by with_unfolding_all rfl) (by with_unfolding_all rfl)
  have h5 := hx.2 5
  revert h5
  with_unfolding_all decide

/-! ### Claim C8: the line round trip -/

theorem readDigits_append :
    ∀ (ds rest : List Char) (acc cnt : Nat), (∀ c ∈ ds, isDigitC c = true) →
      (∀ c ∈ rest.head?, isDigitC c = false) →
      readDigits (ds ++ rest) acc cnt =
        (ds.foldl (fun a c => a * 10 + digitVal c) acc, cnt + ds.length, rest) := by
  intro ds
  induction ds with
  | nil =>
    intro rest acc cnt _ hrest
    cases rest with
    | nil => simp [readDigits]
    | cons c cs =>
      have hc : isDigitC c = false := hrest c (by simp)
      simp [readDigits, hc]
  | cons d ds ih =>
    intro rest acc cnt hds hrest
    have hd : isDigitC d = true := hds d (by simp)
    simp only [List.cons_append, readDigits, hd, if_true, List.append_eq]
    rw [ih rest _ _ (fun c hc => hds c (by simp [hc])) hrest]
    simp only [List.foldl_cons, List.length_cons]
    have : cnt + 1 + ds.length = cnt + (ds.length + 1) := by omega
    rw [this]

theorem foldl_digits_shift :
    ∀ (fp : List Char) (a : Nat),
      fp.foldl (fun x c => x * 10 + digitVal c) a = a * 10 ^ fp.length + digitsVal fp := by
  intro fp
  induction fp with
  | nil => intro a; simp [digitsVal]
  | cons c fp ih =>
    intro a
    simp only [List.foldl_cons, digitsVal] at *
    rw [ih (a * 10 + digitVal c), ih (0 * 10 + digitVal c)]
    simp [List.length_cons, pow_succ]
    ring

theorem digitsVal_append (u v : List Char) :
    digitsVal (u ++ v) = digitsVal u * 10 ^ v.length + digitsVal v := by
  unfold digitsVal
  rw [List.foldl_append, foldl_digits_shift]
  rfl

theorem digit_char_spec (k : Nat) (hk : k < 10) :
    isDigitC (Char.ofNat (48 + k)) = true ∧ digitVal (Char.ofNat (48 + k)) = k := by
  interval_cases k <;> exact ⟨by decide, by decide⟩

theorem natDigitsAux_all_digits :
    ∀ (fuel n : Nat), ∀ c ∈ natDigitsAux fuel n, isDigitC c = true := by
  intro fuel
  induction fuel with
  | zero => intro n c hc; simp [natDigitsAux] at hc
  | succ f ih =>
    intro n c hc
    by_cases hn : n = 0
    · simp [natDigitsAux, hn] at hc
    · simp only [natDigitsAux, hn, if_false, List.mem_cons] at hc
      rcases hc with hc | hc
      · rw [hc]
        exact (digit_char_spec (n % 10) (by omega)).1
      · exact ih (n / 10) c hc

theorem natDigitsAux_val :
    ∀ (fuel n : Nat), n ≤ fuel → digitsVal ((natDigitsAux fuel n).reverse) = n := by
  intro fuel
  induction fuel with
  | zero =>
    intro n hn
    interval_cases n
    simp [natDigitsAux, digitsVal]
  | succ f ih =>
    intro n hn
    by_cases hn0 : n = 0
    · simp [natDigitsAux, hn0, digitsVal]
    · simp only [natDigitsAux, hn0, if_false, List.reverse_cons]
      rw [digitsVal_append]
      have hdiv : n / 10 ≤ f := by
        have h1 : n / 10 < n := Nat.div_lt_self (Nat.pos_of_ne_zero hn0) (by norm_num)
        omega
      rw [ih (n / 10) hdiv]
      have hd := digit_char_spec (n % 10) (by omega)
      simp [digitsVal, hd.2]
      omega

theorem natToDecString_all_digits (n : Nat) : ∀ c ∈ natToDecString n, isDigitC c = true := by
  intro c hc
  unfold natToDecString at hc
  by_cases hn : n = 0
  · simp [hn] at hc
    rw [hc]
    decide
  · simp only [hn, if_false, List.mem_reverse] at hc
    exact natDigitsAux_all_digits (n + 1) n c hc

theorem natToDecString_val (n : Nat) : digitsVal (natToDecString n) = n := by
  unfold natToDecString
  by_cases hn : n = 0
  · simp [hn, digitsVal]
    decide
  · simp only [hn, if_false]
    exact natDigitsAux_val (n + 1) n (by omega)

theorem natToDecString_ne_nil (n : Nat) : natToDecString n ≠ [] := by
  unfold natToDecString
  by_cases hn : n = 0
  · simp [hn]
  · simp only [hn, if_false]
    intro h
    have := natDigitsAux_val (n + 1) n (by omega)
    rw [show (natDigitsAux (n + 1) n).reverse = ([] : List Char) from by simp [h]] at this
    simp [digitsVal] at this
    exact hn this.symm

theorem padZeros_all_digits (k : Nat) (ds : List Char) (h : ∀ c ∈ ds, isDigitC c = true) :
    ∀ c ∈ padZeros k ds, isDigitC c = true := by
  intro c hc
  unfold padZeros at hc
  rcases List.mem_append.mp hc with hc | hc
  · rw [List.eq_of_mem_replicate hc]
    decide
  · exact h c hc

theorem padZeros_val (k : Nat) (ds : List Char) : digitsVal (padZeros k ds) = digitsVal ds := by
  unfold padZeros
  rw [digitsVal_append]
  have : ∀ (m : Nat), digitsVal (List.replicate m '0') = 0 := by
    intro m
    induction m with
    | zero => simp [digitsVal]
    | succ m ih =>
      have : digitsVal (List.replicate (m + 1) '0') = digitsVal (List.replicate m '0' ++ ['0']) := by
        rw [← List.replicate_succ']
      rw [this, digitsVal_append, ih]
      simp [digitsVal, digitVal]
  rw [this]
  simp

theorem padZeros_length (k : Nat) (ds : List Char) : k ≤ (padZeros k ds).length := by
  unfold padZeros
  simp
  omega

theorem isDigitC_toNat (c : Char) (h : isDigitC c = true) : 48 ≤ c.toNat ∧ c.toNat ≤ 57 := by
  unfold isDigitC at h
  rw [Bool.and_eq_true] at h
  have h0 : ('0' : Char) ≤ c := of_decide_eq_true (by simpa using h.1)
  have h9 : c ≤ ('9' : Char) := of_decide_eq_true (by simpa using h.2)
  exact ⟨h0, h9⟩

theorem isDigitC_ne (c : Char) (h : isDigitC c = true) (x : Char)
    (hx : x.toNat < 48 ∨ 57 < x.toNat) : c ≠ x := by
  intro he
  subst he
  rcases isDigitC_toNat c h with ⟨h1, h2⟩
  omega

theorem goParseSign_default (l : List Char)
    (h : ∀ c ∈ l.head?, c ≠ '+' ∧ c ≠ '-') : goParseSign l = (false, l) := by
  rw [goParseSign.eq_def]
  split
  · rename_i r
    exact absurd rfl (h '+' (by simp)).1
  · rename_i r
    exact absurd rfl (h '-' (by simp)).2
  · rfl

theorem parseGoFloat_decimal (neg : Bool) (ip fp : List Char)
    (hip : ∀ c ∈ ip, isDigitC c = true) (hfp : ∀ c ∈ fp, isDigitC c = true)
    (hipne : ip ≠ []) :
    parseGoFloatL ((if neg then ['-'] else []) ++ ip ++ '.' :: fp) =
      some ((if neg then (-1 : ℚ) else 1) *
        ((digitsVal ip : ℚ) + (digitsVal fp : ℚ) / 10 ^ fp.length)) := by
  have hread : readDigits (ip ++ '.' :: fp) 0 0 = (digitsVal ip, ip.length, '.' :: fp) := by
    rw [readDigits_append ip ('.' :: fp) 0 0 hip
      (by intro c hc; simp at hc; rw [← hc]; decide)]
    simp [digitsVal]
  have hreadf : readDigits fp 0 0 = (digitsVal fp, fp.length, []) := by
    have := readDigits_append fp [] 0 0 hfp (by intro c hc; simp at hc)
    simpa [digitsVal] using this
  have hsign : goParseSign ((if neg then ['-'] else []) ++ ip ++ '.' :: fp) =
      (neg, ip ++ '.' :: fp) := by
    cases neg with
    | true => rfl
    | false =>
      simp only [if_neg Bool.false_ne_true, List.nil_append]
      apply goParseSign_default
      intro c hc
      rcases ip with _ | ⟨d, ip'⟩
      · exact absurd rfl hipne
      · simp at hc
        subst hc
        have hd : isDigitC d = true := hip d (by simp)
        exact ⟨isDigitC_ne d hd '+' (by left; decide), isDigitC_ne d hd '-' (by left; decide)⟩
  have hiplen : ip.length ≠ 0 := by
    intro h
    exact hipne (List.eq_nil_of_length_eq_zero h)
  unfold parseGoFloatL
  rw [hsign]
  simp only [hread, goParseFrac, hreadf]
  rw [if_neg (by omega)]
  cases neg with
  | true =>
    simp only [if_true]
    congr 1
    ring
  | false =>
    simp only [Bool.false_eq_true, if_false]
    congr 1
    ring

theorem formatF3_parse (q : ℚ) : parseGoFloatL (formatF3 q) = some (round3 q) := by
  unfold formatF3
  dsimp only
  set n : ℤ := round (q * 1000) with hn
  set ds : List Char := padZeros 4 (natToDecString n.natAbs) with hds
  set ip : List Char := ds.take (ds.length - 3) with hip
  set fp : List Char := ds.drop (ds.length - 3) with hfp
  have hds_dig : ∀ c ∈ ds, isDigitC c = true :=
    padZeros_all_digits 4 _ (natToDecString_all_digits _)
  have hlen4 : 4 ≤ ds.length := padZeros_length 4 _
  have hip_dig : ∀ c ∈ ip, isDigitC c = true := fun c hc =>
    hds_dig c (List.mem_of_mem_take hc)
  have hfp_dig : ∀ c ∈ fp, isDigitC c = true := fun c hc =>
    hds_dig c (List.mem_of_mem_drop hc)
  have hiplen : ip.length = ds.length - 3 := by
    rw [hip, List.length_take]
    omega
  have hfplen : fp.length = 3 := by
    rw [hfp, List.length_drop]
    omega
  have hipne : ip ≠ [] := by
    intro h
    rw [h] at hiplen
    simp at hiplen
    omega
  have hvalue : digitsVal ip * 10 ^ 3 + digitsVal fp = n.natAbs := by
    have hsplitv : digitsVal (ip ++ fp) = digitsVal ip * 10 ^ fp.length + digitsVal fp :=
      digitsVal_append ip fp
    rw [List.take_append_drop] at hsplitv
    rw [hfplen] at hsplitv
    rw [← hsplitv, hds, padZeros_val, natToDecString_val]
  have hifneg : (if n < 0 then ['-'] else []) =
      (if (decide (n < 0) : Bool) then ['-'] else ([] : List Char)) := by
    by_cases h : n < 0 <;> simp [h]
  rw [hifneg]
  rw [parseGoFloat_decimal (decide (n < 0)) ip fp hip_dig hfp_dig hipne]
  congr 1
  rw [hfplen]
  unfold round3
  rw [← hn]
  have hcast : (digitsVal ip : ℚ) * 1000 + (digitsVal fp : ℚ) = (n.natAbs : ℚ) := by
    have := congrArg (fun m : Nat => (m : ℚ)) hvalue
    push_cast at this
    linarith [this]
  by_cases h : n < 0
  · rw [show (decide (n < 0)) = true from decide_eq_true h]
    simp only [if_true]
    have habs : ((n.natAbs : ℚ)) = -(n : ℚ) := by
      rw [Int.cast_natAbs, abs_of_neg h]
      push_cast
      ring
    rw [habs] at hcast
    field_simp
    linarith [hcast]
  · rw [show (decide (n < 0)) = false from decide_eq_false h]
    simp only [Bool.false_eq_true, if_false]
    have habs : ((n.natAbs : ℚ)) = (n : ℚ) := by
      rw [Int.cast_natAbs, abs_of_nonneg (not_lt.mp h)]
    rw [habs] at hcast
    field_simp
    linarith [hcast]

theorem formatF3_spec (q : ℚ) :
    (∀ c ∈ formatF3 q, (c == ' ') = false) ∧
    ∃ c rest, formatF3 q = c :: rest ∧ (c == ' ') = false := by
  unfold formatF3
  dsimp only
  set n : ℤ := round (q * 1000) with hn
  set ds : List Char := padZeros 4 (natToDecString n.natAbs) with hds
  set ip : List Char := ds.take (ds.length - 3) with hip
  set fp : List Char := ds.drop (ds.length - 3) with hfp
  have hds_dig : ∀ c ∈ ds, isDigitC c = true :=
    padZeros_all_digits 4 _ (natToDecString_all_digits _)
  have hlen4 : 4 ≤ ds.length := padZeros_length 4 _
  have hiplen : ip.length = ds.length - 3 := by
    rw [hip, List.length_take]
    omega
  have hnodig : ∀ c : Char, isDigitC c = true → (c == ' ') = false := by
    intro c hc
    exact beq_eq_false_iff_ne.mpr (isDigitC_ne c hc ' ' (by left; decide))
  have hmem : ∀ c ∈ (if n < 0 then ['-'] else []) ++ ip ++ '.' :: fp, (c == ' ') = false := by
    intro c hc
    rcases List.mem_append.mp hc with hc | hc
    · rcases List.mem_append.mp hc with hc | hc
      · by_cases hneg : n < 0
        · rw [if_pos hneg] at hc
          simp at hc
          rw [hc]
          decide
        · rw [if_neg hneg] at hc
          simp at hc
      · exact hnodig c (hds_dig c (List.mem_of_mem_take hc))
    · rcases List.mem_cons.mp hc with hc | hc
      · rw [hc]; decide
      · exact hnodig c (hds_dig c (List.mem_of_mem_drop hc))
  refine ⟨hmem, ?_⟩
  by_cases hneg : n < 0
  · refine ⟨'-', ip ++ '.' :: fp, ?_, by decide⟩
    rw [if_pos hneg]
    rfl
  · rcases hipc : ip with _ | ⟨c, ip'⟩
    · exfalso
      have : ip.length = 0 := by rw [hipc]; rfl
      omega
    · refine ⟨c, ip' ++ '.' :: fp, ?_, ?_⟩
      · rw [if_neg hneg, List.nil_append]
        rw [List.cons_append]
      · have hcmem : c ∈ ip := by rw [hipc]; exact List.mem_cons_self c ip'
        exact hnodig c (hds_dig c (List.mem_of_mem_take hcmem))

theorem dropWhile_replicate_append (p : Char → Bool) (c : Char) (hpc : p c = true)
    (n : Nat) (t : List Char) :
    List.dropWhile p (List.replicate n c ++ t) = List.dropWhile p t := by
  induction n with
  | zero => simp
  | succ m ih => simp [List.replicate_succ, List.dropWhile, hpc, ih]

theorem dropWhile_cons_false (p : Char → Bool) (c : Char) (h : p c = false) (t : List Char) :
    List.dropWhile p (c :: t) = c :: t := by
  simp [List.dropWhile, h]

theorem takeWhile_append_stop (p : Char → Bool) :
    ∀ (u : List Char), (∀ x ∈ u, p x = true) → ∀ (c : Char), p c = false → ∀ (v : List Char),
      List.takeWhile p (u ++ c :: v) = u := by
  intro u
  induction u with
  | nil => intro _ c hc v; simp [List.takeWhile, hc]
  | cons a u ih =>
    intro hu c hc v
    have ha : p a = true := hu a (by simp)
    simp only [List.cons_append, List.takeWhile, ha, List.append_eq]
    rw [ih (fun x hx => hu x (by simp [hx])) c hc v]

theorem splitAtSep_append :
    ∀ (pre post : List Char), containsPat [' ', ':', ' '] (pre ++ [' ']) = false →
      splitAtSep (pre ++ [' ', ':', ' '] ++ post) = some (pre, post) := by
  intro pre
  induction pre with
  | nil =>
    intro post _
    simp only [List.nil_append]
    rw [splitAtSep.eq_def]
    simp [startsWithL]
  | cons c pre' ih =>
    intro post h
    simp only [containsPat, Bool.or_eq_false_iff] at h
    have hstart : startsWithL [' ', ':', ' '] ((c :: pre') ++ [' ', ':', ' '] ++ post) = false := by
      rcases pre' with _ | ⟨d, pre''⟩
      · simp [startsWithL]
      · rcases pre'' with _ | ⟨e, pre'''⟩
        · have h1 := h.1
          simp only [startsWithL, List.cons_append, List.nil_append] at h1 ⊢
          simpa using h1
        · have h1 := h.1
          simp only [startsWithL, List.cons_append] at h1 ⊢
          simpa using h1
    have htail : containsPat [' ', ':', ' '] (pre' ++ [' ']) = false := h.2
    rw [splitAtSep.eq_def]
    simp only [List.cons_append]
    rw [show (c :: (pre' ++ [' ', ':', ' '] ++ post) : List Char) =
      c :: (pre' ++ [' ', ':', ' '] ++ post) from rfl]
    simp only [List.cons_append] at hstart
    rw [if_neg (by rw [hstart]; exact Bool.false_ne_true)]
    rw [ih post htail]

theorem goTrimSpace_append_spaces (x : List Char) (m : Nat)
    (hL : trimLeftL x = x) (hR : trimRightL x = x) :
    goTrimSpace (x ++ List.replicate m ' ') = x := by
  have hsp : goIsSpace ' ' = true := by decide
  cases x with
  | nil =>
    simp only [List.nil_append]
    unfold goTrimSpace trimLeftL trimRightL
    rw [show List.dropWhile goIsSpace (List.replicate m ' ') =
        List.dropWhile goIsSpace (List.replicate m ' ' ++ []) from by simp]
    rw [dropWhile_replicate_append goIsSpace ' ' hsp m []]
    simp
  | cons c t =>
    have hc : goIsSpace c = false := dropWhile_fix_head goIsSpace c t hL
    unfold goTrimSpace trimLeftL
    rw [show ((c :: t) ++ List.replicate m ' ' : List Char) = c :: (t ++ List.replicate m ' ')
      from by simp]
    rw [dropWhile_cons_false goIsSpace c hc]
    unfold trimRightL
    rw [show ((c :: (t ++ List.replicate m ' ')).reverse : List Char) =
      (List.replicate m ' ').reverse ++ (c :: t).reverse from by simp]
    rw [List.reverse_replicate]
    rw [dropWhile_replicate_append goIsSpace ' ' hsp m ((c :: t).reverse)]
    have hre : List.dropWhile goIsSpace (c :: t).reverse = (c :: t).reverse := by
      have := congrArg List.reverse hR
      unfold trimRightL at this
      rw [List.reverse_reverse] at this
      exact this
    rw [hre, List.reverse_reverse]

theorem cleanKeyL_trimLeft (k : List Char) : trimLeftL (cleanKeyL k) = cleanKeyL k := by
  unfold cleanKeyL goTrimSpace
  exact trimLeftL_trimRightL (trimLeftL (goReplaceAWSAmazon k))
    (trimLeftL_idem (goReplaceAWSAmazon k))

theorem cleanKeyL_trimRight (k : List Char) : trimRightL (cleanKeyL k) = cleanKeyL k := by
  unfold cleanKeyL goTrimSpace
  exact trimRightL_idem (trimLeftL (goReplaceAWSAmazon k))

set_option maxHeartbeats 1000000 in
/-- C8 amended: for every cost entry whose 40-character left-justified
cleaned label does not contain the separator string " : " (also counting
the first padding space), formatting with "%-40s : %10.3f %s" and then
parsing the line back (text before the first " : " trimmed as the label,
the following number as the amount, the text after it as the unit)
recovers the cleaned label, the amount rounded to 3 decimal places, and
the trimmed unit. -/
theorem claim8_amended (d : cost)
    (hsep : containsPat [' ', ':', ' ']
      (padSpacesRight 40 (cleanKeyL d.key.data) ++ [' ']) = false) :
    specParseLine (sprintfLine (cleanKeyL d.key.data) d.amount (goTrimSpace d.unit.data)) =
      some (cleanKeyL d.key.data, round3 d.amount, goTrimSpace d.unit.data) := by
  set key := cleanKeyL d.key.data with hkey
  set unit := goTrimSpace d.unit.data with hunit
  set fstr := formatF3 d.amount with hfstr
  rcases formatF3_spec d.amount with ⟨hnosp, c0, rest0, hhead, hc0⟩
  have hline : sprintfLine key d.amount unit =
      padSpacesRight 40 key ++ [' ', ':', ' '] ++
        (List.replicate (10 - fstr.length) ' ' ++ fstr ++ ' ' :: unit) := by
    unfold sprintfLine padSpacesLeft
    rw [← hfstr]
    simp [List.append_assoc]
  rw [hline]
  unfold specParseLine
  rw [show (padSpacesRight 40 key ++ [' ', ':', ' '] ++
        (List.replicate (10 - fstr.length) ' ' ++ fstr ++ ' ' :: unit) : List Char) =
      (padSpacesRight 40 key ++ ([' ', ':', ' '] ++
        (List.replicate (10 - fstr.length) ' ' ++ fstr ++ ' ' :: unit))) from by
    simp [List.append_assoc]]
  rw [show (padSpacesRight 40 key ++ ([' ', ':', ' '] ++
        (List.replicate (10 - fstr.length) ' ' ++ fstr ++ ' ' :: unit)) : List Char) =
      (padSpacesRight 40 key ++ [' ', ':', ' '] ++
        (List.replicate (10 - fstr.length) ' ' ++ fstr ++ ' ' :: unit)) from by
    simp [List.append_assoc]]
  rw [splitAtSep_append (padSpacesRight 40 key)
    (List.replicate (10 - fstr.length) ' ' ++ fstr ++ ' ' :: unit) hsep]
  dsimp only
  have hlabel : goTrimSpace (padSpacesRight 40 key) = key := by
    unfold padSpacesRight
    exact goTrimSpace_append_spaces key _ (cleanKeyL_trimLeft d.key.data)
      (cleanKeyL_trimRight d.key.data)
  rw [hlabel]
  have hdrop : (List.replicate (10 - fstr.length) ' ' ++ fstr ++ ' ' :: unit).dropWhile
      (fun c => c == ' ') = fstr ++ ' ' :: unit := by
    rw [show (List.replicate (10 - fstr.length) ' ' ++ fstr ++ ' ' :: unit : List Char) =
      List.replicate (10 - fstr.length) ' ' ++ (fstr ++ ' ' :: unit) from by
        simp [List.append_assoc]]
    rw [dropWhile_replicate_append (fun c => c == ' ') ' ' (by decide) _ _]
    rw [hfstr, hhead]
    rw [show ((c0 :: rest0) ++ ' ' :: unit : List Char) = c0 :: (rest0 ++ ' ' :: unit) from by
      simp]
    rw [dropWhile_cons_false (fun c => c == ' ') c0 hc0]
  rw [hdrop]
  have htake : (fstr ++ ' ' :: unit).takeWhile (fun c => !(c == ' ')) = fstr := by
    apply takeWhile_append_stop
    · intro x hx
      rw [hnosp x hx]
      rfl
    · decide
  rw [htake]
  rw [List.drop_left]
  rw [hfstr, formatF3_parse]
  simp

/-- C8 counterexample: the round trip fails for an entry whose cleaned
label itself contains the separator " : ".  For the label "AB : CD" the
visual parse splits at the first " : " occurrence, recovering label "AB"
and a non-numeric amount field, so parsing does not recover the entry. -/
theorem claim8_counterexample :
    specParseLine (sprintfLine (cleanKeyL ("AB : CD" : String).data) 1
        (goTrimSpace ("USD" : String).data)) ≠
      some (cleanKeyL ("AB : CD" : String).data, round3 1,
        goTrimSpace ("USD" : String).data) := by
  with_unfolding_all decide

/-- Witness for the amended C8 at a concrete entry. -/
theorem claim8_amended_witness :
    containsPat [' ', ':', ' ']
      (padSpacesRight 40 (cleanKeyL ("Amazon EC2" : String).data) ++ [' ']) = false ∧
    specParseLine (sprintfLine (cleanKeyL ("Amazon EC2" : String).data) (120456/1000)
        (goTrimSpace ("USD" : String).data)) =
      some (cleanKeyL ("Amazon EC2" : String).data, round3 (120456/1000),
        goTrimSpace ("USD" : String).data) :=
  ⟨by decide, claim8_amended ⟨"Amazon EC2", 120456/1000, "USD"⟩ (by decide)⟩

/-! ### Claim C2 amended: sortedness of the fetched list -/

section GoSortSorted

variable {α : Type} [Inhabited α]

theorem getL_set (l : List α) (m : Nat) (x : α) (k : Nat) :
    getL (l.set m x) k = if m = k ∧ m < l.length then x else getL l k := by
  unfold getL
  simp only [List.getD_eq_getElem?_getD, List.getElem?_set]
  by_cases h1 : m = k
  · subst h1
    by_cases h2 : m < l.length
    · simp [h2]
    · simp [h2, List.getElem?_eq_none (le_of_not_lt h2)]
  · simp [h1]

theorem getL_swapL (l : List α) (i j k : Nat) (hi : i < l.length) (hj : j < l.length) :
    getL (swapL l i j) k =
      if k = j then getL l i else if k = i then getL l j else getL l k := by
  unfold swapL
  rw [dif_pos hi, dif_pos hj]
  rw [getL_set, getL_set]
  rw [← getL_eq_get l j hj, ← getL_eq_get l i hi]
  simp only [List.length_set]
  by_cases h1 : k = j
  · subst h1
    simp [hj]
  · by_cases h2 : k = i
    · subst h2
      simp [hi, Ne.symm h1, h1]
    · simp [Ne.symm h1, Ne.symm h2, h1, h2]

theorem getL_swapL_outside (l : List α) (i j k : Nat) (hk1 : k ≠ i) (hk2 : k ≠ j) :
    getL (swapL l i j) k = getL l k := by
  by_cases hi : i < l.length
  · by_cases hj : j < l.length
    · rw [getL_swapL l i j k hi hj, if_neg hk2, if_neg hk1]
    · unfold swapL
      rw [dif_pos hi, dif_neg hj]
  · unfold swapL
    rw [dif_neg hi]

end GoSortSorted

theorem sortedSegD_mono (l : List cost) (a b a2 b2 : Nat) (ha : a ≤ a2) (hb : b2 ≤ b)
    (h : sortedSegD l a b) : sortedSegD l a2 b2 := by
  intro k hk1 hk2
  exact h k (le_trans ha hk1) (lt_of_lt_of_le hk2 hb)

theorem lessAt_costLess (l : List cost) (i j : Nat) :
    lessAt costLess l i j = true ↔ (getL l j).amount < (getL l i).amount := by
  simp [lessAt, costLess]

theorem insInner_spec :
    ∀ (fuel : Nat) (l : List cost) (a j i : Nat),
      a ≤ j → j ≤ i → i < l.length → j - a ≤ fuel →
      sortedSegD l a j →
      sortedSegD l j (i + 1) →
      (a < j → j + 1 ≤ i → (getL l (j + 1)).amount ≤ (getL l (j - 1)).amount) →
      sortedSegD (insInner costLess fuel l a j) a (i + 1) ∧
      (∀ k, k < a ∨ i < k → getL (insInner costLess fuel l a j) k = getL l k) ∧
      (insInner costLess fuel l a j).length = l.length := by
  intro fuel
  induction fuel with
  | zero =>
    intro l a j i ha hji hi hfuel h1 h2 h3
    have hja : j = a := by omega
    subst hja
    exact ⟨fun k hk1 hk2 => h2 k hk1 hk2, fun k _ => rfl, rfl⟩
  | succ n ih =>
    intro l a j i ha hji hi hfuel h1 h2 h3
    simp only [insInner]
    by_cases haj : a < j
    · rw [if_pos haj]
      by_cases hless : lessAt costLess l j (j - 1) = true
      · rw [if_pos hless]
        have hlt : (getL l (j - 1)).amount < (getL l j).amount :=
          (lessAt_costLess l j (j - 1)).mp hless
        have hjlen : j < l.length := by omega
        have hj1len : j - 1 < l.length := by omega
        have hget : ∀ k, getL (swapL l j (j - 1)) k =
            if k = j - 1 then getL l j else if k = j then getL l (j - 1) else getL l k :=
          fun k => getL_swapL l j (j - 1) k hjlen hj1len
        have hlen' : (swapL l j (j - 1)).length = l.length := swapL_length l j (j - 1)
        have h1' : sortedSegD (swapL l j (j - 1)) a (j - 1) := by
          intro k hk1 hk2
          rw [hget, hget]
          rw [if_neg (by omega : ¬ k + 1 = j - 1), if_neg (by omega : ¬ k + 1 = j),
            if_neg (by omega : ¬ k = j - 1), if_neg (by omega : ¬ k = j)]
          exact h1 k hk1 (by omega)
        have h2' : sortedSegD (swapL l j (j - 1)) (j - 1) (i + 1) := by
          intro k hk1 hk2
          by_cases hk : k = j - 1
          · subst hk
            rw [hget, hget]
            rw [if_neg (by omega : ¬ j - 1 + 1 = j - 1), if_pos (by omega : j - 1 + 1 = j),
              if_pos rfl]
            exact le_of_lt hlt
          · by_cases hk2' : k = j
            · rw [hget, hget]
              rw [if_neg (by omega : ¬ k + 1 = j - 1), if_neg (by omega : ¬ k + 1 = j),
                if_neg (by omega : ¬ k = j - 1), if_pos hk2']
              rw [show k + 1 = j + 1 from by omega]
              exact h3 haj (by omega)
            · rw [hget, hget]
              rw [if_neg (by omega : ¬ k + 1 = j - 1), if_neg (by omega : ¬ k + 1 = j),
                if_neg (by omega : ¬ k = j - 1), if_neg (by omega : ¬ k = j)]
              exact h2 k (by omega) hk2
        have h3' : a < j - 1 → j - 1 + 1 ≤ i →
            (getL (swapL l j (j - 1)) (j - 1 + 1)).amount ≤
              (getL (swapL l j (j - 1)) (j - 1 - 1)).amount := by
          intro haj' hji'
          rw [hget, hget]
          rw [if_neg (by omega : ¬ j - 1 + 1 = j - 1), if_pos (by omega : j - 1 + 1 = j),
            if_neg (by omega : ¬ j - 1 - 1 = j - 1), if_neg (by omega : ¬ j - 1 - 1 = j)]
          have := h1 (j - 2) (by omega) (by omega)
          have he : j - 2 + 1 = j - 1 := by omega
          rw [he] at this
          exact this
        have hres := ih (swapL l j (j - 1)) a (j - 1) i (by omega) (by omega)
          (by rw [hlen']; exact hi) (by omega) h1' h2' h3'
        refine ⟨hres.1, ?_, by rw [hres.2.2, hlen']⟩
        intro k hk
        rw [hres.2.1 k hk]
        exact getL_swapL_outside l j (j - 1) k (by omega) (by omega)
      · rw [if_neg hless]
        have hge : (getL l j).amount ≤ (getL l (j - 1)).amount := by
          have hnl := (lessAt_costLess l j (j - 1)).not.mp hless
          exact le_of_not_lt hnl
        refine ⟨?_, fun k _ => rfl, rfl⟩
        intro k hk1 hk2
        by_cases hkj : k + 1 < j
        · exact h1 k hk1 hkj
        · by_cases hkeq : k + 1 = j
          · have hk : k = j - 1 := by omega
            subst hk
            rw [show j - 1 + 1 = j from by omega]
            exact hge
          · exact h2 k (by omega) hk2
    · rw [if_neg haj]
      have hja : j = a := by omega
      subst hja
      exact ⟨fun k hk1 hk2 => h2 k hk1 hk2, fun k _ => rfl, rfl⟩

theorem insOuter_spec :
    ∀ (fuel : Nat) (l : List cost) (a i b : Nat),
      a + 1 ≤ i → b ≤ l.length → b - i ≤ fuel →
      sortedSegD l a i →
      sortedSegD (insOuter costLess b fuel l a i) a b ∧
      (∀ k, k < a ∨ b ≤ k → getL (insOuter costLess b fuel l a i) k = getL l k) ∧
      (insOuter costLess b fuel l a i).length = l.length := by
  intro fuel
  induction fuel with
  | zero =>
    intro l a i b hai hb hfuel hsort
    have hbi : b ≤ i := by omega
    exact ⟨sortedSegD_mono l a i a b (le_refl a) hbi hsort, fun k _ => rfl, rfl⟩
  | succ n ih =>
    intro l a i b hai hb hfuel hsort
    simp only [insOuter]
    by_cases hib : i < b
    · rw [if_pos hib]
      have hinner := insInner_spec i l a i i (by omega) (le_refl i) (by omega) (by omega)
        hsort
        (fun k hk1 hk2 => absurd hk1 (by omega))
        (fun _ h => absurd h (by omega))
      have hres := ih (insInner costLess i l a i) a (i + 1) b (by omega)
        (by rw [hinner.2.2]; exact hb) (by omega) hinner.1
      refine ⟨hres.1, ?_, by rw [hres.2.2, hinner.2.2]⟩
      intro k hk
      rw [hres.2.1 k hk]
      exact hinner.2.1 k (by rcases hk with hk | hk; exact Or.inl hk; exact Or.inr (by omega))
    · rw [if_neg hib]
      exact ⟨sortedSegD_mono l a i a b (le_refl a) (by omega) hsort, fun k _ => rfl, rfl⟩

theorem insertionSortGo_spec (l : List cost) (a b : Nat) (hb : b ≤ l.length) :
    sortedSegD (insertionSortGo costLess l a b) a b ∧
    (∀ k, k < a ∨ b ≤ k → getL (insertionSortGo costLess l a b) k = getL l k) ∧
    (insertionSortGo costLess l a b).length = l.length := by
  unfold insertionSortGo
  exact insOuter_spec (b - a) l a (a + 1) b (le_refl (a + 1)) hb (by omega)
    (fun k hk1 hk2 => absurd hk1 (by omega))

theorem goSortSlice_sorted_small (l : List cost) (hlen : l.length ≤ 12) :
    sortedSegD (goSortSlice costLess l) 0 l.length := by
  unfold goSortSlice
  simp only [quickSortGo]
  rw [if_neg (by omega : ¬ l.length - 0 > 12)]
  by_cases h1 : l.length - 0 > 1
  · rw [if_pos h1]
    have hshlen : (shellPass costLess l.length (l.length - 0) l (0 + 6)).length = l.length :=
      (shellPass_perm costLess l.length (l.length - 0) l (0 + 6)).length_eq
    have := insertionSortGo_spec (shellPass costLess l.length (l.length - 0) l (0 + 6)) 0
      l.length (by rw [hshlen])
    exact this.1
  · rw [if_neg h1]
    intro k hk1 hk2
    omega

theorem sortedSegD_chain (l : List cost) (h : sortedSegD l 0 l.length) :
    sortedByAmountDesc l := by
  unfold sortedByAmountDesc
  rw [List.chain'_iff_get]
  intro i hi
  have hx := h i (by omega) (by omega)
  rw [getL_eq_get l (i + 1) (by omega), getL_eq_get l i (by omega)] at hx
  exact hx

section SegTransport

variable {α : Type} [Inhabited α]

theorem segL_decomp (l : List α) (a b : Nat) (hab : a ≤ b) :
    l.take a ++ segL l a b ++ l.drop b = l := by
  unfold segL
  rw [List.append_assoc]
  have h1 : (l.drop a).take (b - a) ++ (l.drop a).drop (b - a) = l.drop a :=
    List.take_append_drop (b - a) (l.drop a)
  have h2 : (l.drop a).drop (b - a) = l.drop b := by
    rw [List.drop_drop]
    congr 1
    omega
  rw [← h2, h1]
  exact List.take_append_drop a l

theorem take_eq_of_getL (l l' : List α) (a : Nat)
    (hlen : l'.length = l.length) (ha : a ≤ l.length)
    (h : ∀ k, k < a → getL l' k = getL l k) : l'.take a = l.take a := by
  apply List.ext_get
  · rw [List.length_take, List.length_take, hlen]
  · intro n h1 h2
    rw [List.get_take', List.get_take']
    have hn : n < a := by
      have := List.length_take a l'
      rw [List.length_take] at h1
      omega
    have hx := h n hn
    rw [getL_eq_get l' n (by omega), getL_eq_get l n (by omega)] at hx
    exact hx

theorem drop_eq_of_getL (l l' : List α) (b : Nat)
    (hlen : l'.length = l.length)
    (h : ∀ k, b ≤ k → getL l' k = getL l k) : l'.drop b = l.drop b := by
  apply List.ext_get
  · rw [List.length_drop, List.length_drop, hlen]
  · intro n h1 h2
    rw [List.get_drop', List.get_drop']
    have hx := h (b + n) (by omega)
    rw [List.length_drop] at h1
    rw [getL_eq_get l' (b + n) (by omega), getL_eq_get l (b + n) (by omega)] at hx
    simpa using hx

theorem segL_perm_of_locality (l l' : List α) (a b : Nat)
    (hab : a ≤ b) (hb : b ≤ l.length)
    (hperm : l'.Perm l)
    (hloc : ∀ k, k < a ∨ b ≤ k → getL l' k = getL l k) :
    (segL l' a b).Perm (segL l a b) := by
  have hlen : l'.length = l.length := hperm.length_eq
  have htake : l'.take a = l.take a :=
    take_eq_of_getL l l' a hlen (by omega) (fun k hk => hloc k (Or.inl hk))
  have hdrop : l'.drop b = l.drop b :=
    drop_eq_of_getL l l' b hlen (fun k hk => hloc k (Or.inr hk))
  have hd1 := segL_decomp l a b hab
  have hd2 := segL_decomp l' a b hab
  have hperm2 : (l'.take a ++ segL l' a b ++ l'.drop b).Perm
      (l.take a ++ segL l a b ++ l.drop b) := by
    rw [hd1, hd2]
    exact hperm
  rw [htake, hdrop] at hperm2
  rw [List.append_assoc, List.append_assoc] at hperm2
  have hperm3 := (List.perm_append_left_iff (l.take a)).mp hperm2
  exact (List.perm_append_right_iff (l.drop b)).mp hperm3
theorem getL_mem_segL (l : List α) (a b k : Nat) (ha : a ≤ k) (hk : k < b)
    (hb : b ≤ l.length) : getL l k ∈ segL l a b := by
  unfold segL
  have h1 : k - a < (l.drop a).length := by
    rw [List.length_drop]
    omega
  have h2 : k - a < ((l.drop a).take (b - a)).length := by
    rw [List.length_take]
    simp only [List.length_drop]
    omega
  have he : ((l.drop a).take (b - a)).get ⟨k - a, h2⟩ = getL l k := by
    rw [← getL_eq_get _ _ h2]
    unfold getL
    rw [List.getD_eq_getElem?_getD, List.getD_eq_getElem?_getD]
    rw [List.getElem?_take, if_pos (by omega : k - a < b - a), List.getElem?_drop]
    congr 2
    omega
  rw [← he]
  exact List.get_mem _ _ _

theorem mem_segL_getL (l : List α) (a b : Nat) (hb : b ≤ l.length) (x : α)
    (hx : x ∈ segL l a b) : ∃ k, a ≤ k ∧ k < b ∧ getL l k = x := by
  unfold segL at hx
  rcases List.mem_iff_get.mp hx with ⟨⟨n, hn⟩, hget⟩
  have hn2 : n < b - a := by
    have := hn
    rw [List.length_take] at this
    omega
  have hn3 : a + n < l.length := by
    have := hn
    rw [List.length_take, List.length_drop] at this
    omega
  refine ⟨a + n, by omega, by omega, ?_⟩
  rw [← hget, ← getL_eq_get _ _ hn]
  unfold getL
  rw [List.getD_eq_getElem?_getD, List.getD_eq_getElem?_getD]
  rw [List.getElem?_take, if_pos hn2, List.getElem?_drop]

theorem seg_all_transport (l l' : List α) (a b : Nat) (P : α → Prop)
    (hab : a ≤ b) (hb : b ≤ l.length)
    (hperm : l'.Perm l)
    (hloc : ∀ k, k < a ∨ b ≤ k → getL l' k = getL l k)
    (hP : ∀ k, a ≤ k → k < b → P (getL l k)) :
    ∀ k, a ≤ k → k < b → P (getL l' k) := by
  intro k hk1 hk2
  have hb' : b ≤ l'.length := by rw [hperm.length_eq]; exact hb
  have hmem : getL l' k ∈ segL l' a b := getL_mem_segL l' a b k hk1 hk2 hb'
  have hmem2 : getL l' k ∈ segL l a b :=
    (segL_perm_of_locality l l' a b hab hb hperm hloc).subset hmem
  rcases mem_segL_getL l a b hb _ hmem2 with ⟨m, hm1, hm2, hm3⟩
  rw [← hm3]
  exact hP m hm1 hm2

end SegTransport

theorem scanLessFwd_spec (l : List cost) (pivot c : Nat) :
    ∀ (fuel start : Nat), c - start ≤ fuel → start ≤ c →
      start ≤ scanLessFwd costLess l pivot c fuel start ∧
      scanLessFwd costLess l pivot c fuel start ≤ c ∧
      (∀ k, start ≤ k → k < scanLessFwd costLess l pivot c fuel start →
        (getL l pivot).amount < (getL l k).amount) ∧
      (scanLessFwd costLess l pivot c fuel start < c →
        (getL l (scanLessFwd costLess l pivot c fuel start)).amount ≤ (getL l pivot).amount) := by
  intro fuel
  induction fuel with
  | zero =>
    intro start hfuel hstart
    have : start = c := by omega
    simp only [scanLessFwd]
    exact ⟨le_refl _, by omega, fun k hk1 hk2 => absurd hk2 (by omega), fun h => absurd h (by omega)⟩
  | succ n ih =>
    intro start hfuel hstart
    simp only [scanLessFwd]
    by_cases h1 : start < c
    · rw [if_pos h1]
      by_cases h2 : lessAt costLess l start pivot = true
      · rw [if_pos h2]
        have hlt : (getL l pivot).amount < (getL l start).amount :=
          (lessAt_costLess l start pivot).mp h2
        have hres := ih (start + 1) (by omega) (by omega)
        refine ⟨by omega, hres.2.1, ?_, hres.2.2.2⟩
        intro k hk1 hk2
        by_cases hk : k = start
        · subst hk; exact hlt
        · exact hres.2.2.1 k (by omega) hk2
      · rw [if_neg h2]
        have hle : (getL l start).amount ≤ (getL l pivot).amount :=
          le_of_not_lt ((lessAt_costLess l start pivot).not.mp h2)
        exact ⟨le_refl _, by omega, fun k hk1 hk2 => absurd hk2 (by omega), fun _ => hle⟩
    · rw [if_neg h1]
      exact ⟨le_refl _, by omega, fun k hk1 hk2 => absurd hk2 (by omega), fun h => absurd h (by omega)⟩

theorem scanNotLessFwd_spec (l : List cost) (pivot c : Nat) :
    ∀ (fuel start : Nat), c - start ≤ fuel → start ≤ c →
      start ≤ scanNotLessFwd costLess l pivot c fuel start ∧
      scanNotLessFwd costLess l pivot c fuel start ≤ c ∧
      (∀ k, start ≤ k → k < scanNotLessFwd costLess l pivot c fuel start →
        (getL l pivot).amount ≤ (getL l k).amount) ∧
      (scanNotLessFwd costLess l pivot c fuel start < c →
        (getL l (scanNotLessFwd costLess l pivot c fuel start)).amount < (getL l pivot).amount) := by
  intro fuel
  induction fuel with
  | zero =>
    intro start hfuel hstart
    have : start = c := by omega
    simp only [scanNotLessFwd]
    exact ⟨le_refl _, by omega, fun k hk1 hk2 => absurd hk2 (by omega), fun h => absurd h (by omega)⟩
  | succ n ih =>
    intro start hfuel hstart
    simp only [scanNotLessFwd]
    by_cases h1 : start < c
    · rw [if_pos h1]
      by_cases h2 : lessAt costLess l pivot start = true
      · rw [if_pos h2]
        have hlt : (getL l start).amount < (getL l pivot).amount :=
          (lessAt_costLess l pivot start).mp h2
        exact ⟨le_refl _, by omega, fun k hk1 hk2 => absurd hk2 (by omega), fun _ => hlt⟩
      · rw [if_neg h2]
        have hle : (getL l pivot).amount ≤ (getL l start).amount :=
          le_of_not_lt ((lessAt_costLess l pivot start).not.mp h2)
        have hres := ih (start + 1) (by omega) (by omega)
        refine ⟨by omega, hres.2.1, ?_, hres.2.2.2⟩
        intro k hk1 hk2
        by_cases hk : k = start
        · subst hk; exact hle
        · exact hres.2.2.1 k (by omega) hk2
    · rw [if_neg h1]
      exact ⟨le_refl _, by omega, fun k hk1 hk2 => absurd hk2 (by omega), fun h => absurd h (by omega)⟩

theorem scanGtBack_spec (l : List cost) (pivot b : Nat) :
    ∀ (fuel cstart : Nat), cstart - b ≤ fuel →
      scanGtBack costLess l pivot b fuel cstart ≤ cstart ∧
      b ≤ max (scanGtBack costLess l pivot b fuel cstart) b ∧
      (b ≤ cstart → b ≤ scanGtBack costLess l pivot b fuel cstart) ∧
      (∀ k, scanGtBack costLess l pivot b fuel cstart ≤ k → k < cstart →
        (getL l k).amount < (getL l pivot).amount) ∧
      (b < scanGtBack costLess l pivot b fuel cstart →
        (getL l pivot).amount ≤ (getL l (scanGtBack costLess l pivot b fuel cstart - 1)).amount) := by
  intro fuel
  induction fuel with
  | zero =>
    intro cstart hfuel
    simp only [scanGtBack]
    refine ⟨le_refl _, le_max_right _ _, fun h => by omega, fun k hk1 hk2 => absurd hk1 (by omega),
      fun h => ?_⟩
    exfalso
    omega
  | succ n ih =>
    intro cstart hfuel
    simp only [scanGtBack]
    by_cases h1 : b < cstart
    · rw [if_pos h1]
      by_cases h2 : lessAt costLess l pivot (cstart - 1) = true
      · rw [if_pos h2]
        have hlt : (getL l (cstart - 1)).amount < (getL l pivot).amount :=
          (lessAt_costLess l pivot (cstart - 1)).mp h2
        have hres := ih (cstart - 1) (by omega)
        refine ⟨by omega, le_max_right _ _, fun _ => hres.2.2.1 (by omega), ?_, hres.2.2.2.2⟩
        intro k hk1 hk2
        by_cases hk : k = cstart - 1
        · subst hk; exact hlt
        · exact hres.2.2.2.1 k hk1 (by omega)
      · rw [if_neg h2]
        have hle : (getL l pivot).amount ≤ (getL l (cstart - 1)).amount :=
          le_of_not_lt ((lessAt_costLess l pivot (cstart - 1)).not.mp h2)
        exact ⟨le_refl _, le_max_right _ _, fun h => by omega,
          fun k hk1 hk2 => absurd hk1 (by omega), fun _ => hle⟩
    · rw [if_neg h1]
      refine ⟨le_refl _, le_max_right _ _, fun h => by omega,
        fun k hk1 hk2 => absurd hk1 (by omega), fun h => absurd h (by omega)⟩

theorem scanEqBack_spec (l : List cost) (pivot a : Nat) :
    ∀ (fuel bstart : Nat), bstart - a ≤ fuel →
      scanEqBack costLess l pivot a fuel bstart ≤ bstart ∧
      (a ≤ bstart → a ≤ scanEqBack costLess l pivot a fuel bstart) ∧
      (∀ k, scanEqBack costLess l pivot a fuel bstart ≤ k → k < bstart →
        (getL l k).amount ≤ (getL l pivot).amount) ∧
      (a < scanEqBack costLess l pivot a fuel bstart →
        (getL l pivot).amount < (getL l (scanEqBack costLess l pivot a fuel bstart - 1)).amount) := by
  intro fuel
  induction fuel with
  | zero =>
    intro bstart hfuel
    simp only [scanEqBack]
    exact ⟨le_refl _, fun h => h, fun k hk1 hk2 => absurd hk1 (by omega), fun h => absurd h (by omega)⟩
  | succ n ih =>
    intro bstart hfuel
    simp only [scanEqBack]
    by_cases h1 : a < bstart
    · rw [if_pos h1]
      by_cases h2 : lessAt costLess l (bstart - 1) pivot = true
      · rw [if_pos h2]
        have hlt : (getL l pivot).amount < (getL l (bstart - 1)).amount :=
          (lessAt_costLess l (bstart - 1) pivot).mp h2
        exact ⟨le_refl _, fun h => by omega, fun k hk1 hk2 => absurd hk1 (by omega), fun _ => hlt⟩
      · rw [if_neg h2]
        have hle : (getL l (bstart - 1)).amount ≤ (getL l pivot).amount :=
          le_of_not_lt ((lessAt_costLess l (bstart - 1) pivot).not.mp h2)
        have hres := ih (bstart - 1) (by omega)
        refine ⟨by omega, fun _ => hres.2.1 (by omega), ?_, hres.2.2.2⟩
        intro k hk1 hk2
        by_cases hk : k = bstart - 1
        · subst hk; exact hle
        · exact hres.2.2.1 k hk1 (by omega)
    · rw [if_neg h1]
      exact ⟨le_refl _, fun h => h, fun k hk1 hk2 => absurd hk1 (by omega), fun h => absurd h (by omega)⟩

theorem scanLtFwd_spec (l : List cost) (pivot b : Nat) :
    ∀ (fuel start : Nat), b - start ≤ fuel → start ≤ b →
      start ≤ scanLtFwd costLess l pivot b fuel start ∧
      scanLtFwd costLess l pivot b fuel start ≤ b ∧
      (∀ k, start ≤ k → k < scanLtFwd costLess l pivot b fuel start →
        (getL l pivot).amount < (getL l k).amount) ∧
      (scanLtFwd costLess l pivot b fuel start < b →
        (getL l (scanLtFwd costLess l pivot b fuel start)).amount ≤ (getL l pivot).amount) := by
  intro fuel
  induction fuel with
  | zero =>
    intro start hfuel hstart
    have : start = b := by omega
    simp only [scanLtFwd]
    exact ⟨le_refl _, by omega, fun k hk1 hk2 => absurd hk2 (by omega), fun h => absurd h (by omega)⟩
  | succ n ih =>
    intro start hfuel hstart
    simp only [scanLtFwd]
    by_cases h1 : start < b
    · rw [if_pos h1]
      by_cases h2 : lessAt costLess l start pivot = true
      · rw [if_pos h2]
        have hlt : (getL l pivot).amount < (getL l start).amount :=
          (lessAt_costLess l start pivot).mp h2
        have hres := ih (start + 1) (by omega) (by omega)
        refine ⟨by omega, hres.2.1, ?_, hres.2.2.2⟩
        intro k hk1 hk2
        by_cases hk : k = start
        · subst hk; exact hlt
        · exact hres.2.2.1 k (by omega) hk2
      · rw [if_neg h2]
        have hle : (getL l start).amount ≤ (getL l pivot).amount :=
          le_of_not_lt ((lessAt_costLess l start pivot).not.mp h2)
        exact ⟨le_refl _, by omega, fun k hk1 hk2 => absurd hk2 (by omega), fun _ => hle⟩
    · rw [if_neg h1]
      exact ⟨le_refl _, by omega, fun k hk1 hk2 => absurd hk2 (by omega), fun h => absurd h (by omega)⟩

section SwapVals

variable {α : Type} [Inhabited α]

theorem getL_swapL_fst (l : List α) (i j : Nat) (hi : i < l.length) (hj : j < l.length) :
    getL (swapL l i j) j = getL l i := by
  rw [getL_swapL l i j j hi hj, if_pos rfl]

theorem getL_swapL_snd (l : List α) (i j : Nat) (hi : i < l.length) (hj : j < l.length)
    (hij : i ≠ j) : getL (swapL l i j) i = getL l j := by
  rw [getL_swapL l i j i hi hj, if_neg hij, if_pos rfl]

end SwapVals

theorem medianOfThree_spec (l : List cost) (m1 m0 m2 : Nat)
    (h01 : m0 ≠ m1) (h02 : m0 ≠ m2) (h12 : m1 ≠ m2)
    (hm0 : m0 < l.length) (hm1 : m1 < l.length) (hm2 : m2 < l.length) :
    (getL (medianOfThree costLess l m1 m0 m2) m1).amount ≤
      (getL (medianOfThree costLess l m1 m0 m2) m0).amount ∧
    (getL (medianOfThree costLess l m1 m0 m2) m2).amount ≤
      (getL (medianOfThree costLess l m1 m0 m2) m1).amount ∧
    (∀ k, k ≠ m0 → k ≠ m1 → k ≠ m2 → getL (medianOfThree costLess l m1 m0 m2) k = getL l k) ∧
    (medianOfThree costLess l m1 m0 m2).Perm l ∧
    (medianOfThree costLess l m1 m0 m2).length = l.length := by
  have hperm : (medianOfThree costLess l m1 m0 m2).Perm l := medianOfThree_perm costLess l m1 m0 m2
  have hmain : (getL (medianOfThree costLess l m1 m0 m2) m1).amount ≤
      (getL (medianOfThree costLess l m1 m0 m2) m0).amount ∧
    (getL (medianOfThree costLess l m1 m0 m2) m2).amount ≤
      (getL (medianOfThree costLess l m1 m0 m2) m1).amount ∧
    (∀ k, k ≠ m0 → k ≠ m1 → k ≠ m2 → getL (medianOfThree costLess l m1 m0 m2) k = getL l k) := ?_
  · exact ⟨hmain.1, hmain.2.1, hmain.2.2, hperm, hperm.length_eq⟩
  unfold medianOfThree
  by_cases h1 : lessAt costLess l m1 m0 = true
  · rw [if_pos h1]
    have hA : (getL l m0).amount < (getL l m1).amount := (lessAt_costLess l m1 m0).mp h1
    have hl1 : (swapL l m1 m0).length = l.length := swapL_length l m1 m0
    have e10 : getL (swapL l m1 m0) m0 = getL l m1 := getL_swapL_fst l m1 m0 hm1 hm0
    have e11 : getL (swapL l m1 m0) m1 = getL l m0 := getL_swapL_snd l m1 m0 hm1 hm0 h01.symm
    have e12 : getL (swapL l m1 m0) m2 = getL l m2 :=
      getL_swapL_outside l m1 m0 m2 h12.symm h02.symm
    by_cases h2 : lessAt costLess (swapL l m1 m0) m2 m1 = true
    · rw [if_pos h2]
      have hB : (getL l m0).amount < (getL l m2).amount := by
        have := (lessAt_costLess _ m2 m1).mp h2
        rw [e11, e12] at this
        exact this
      have hl2 : (swapL (swapL l m1 m0) m2 m1).length = l.length := by
        rw [swapL_length, hl1]
      have e20 : getL (swapL (swapL l m1 m0) m2 m1) m0 = getL l m1 := by
        rw [getL_swapL_outside _ m2 m1 m0 h02 h01, e10]
      have e21 : getL (swapL (swapL l m1 m0) m2 m1) m1 = getL l m2 := by
        rw [getL_swapL_fst _ m2 m1 (by omega) (by omega), e12]
      have e22 : getL (swapL (swapL l m1 m0) m2 m1) m2 = getL l m0 := by
        rw [getL_swapL_snd _ m2 m1 (by omega) (by omega) (Ne.symm h12), e11]
      by_cases h3 : lessAt costLess (swapL (swapL l m1 m0) m2 m1) m1 m0 = true
      · rw [if_pos h3]
        have hC : (getL l m1).amount < (getL l m2).amount := by
          have := (lessAt_costLess _ m1 m0).mp h3
          rw [e20, e21] at this
          exact this
        have e30 : getL (swapL (swapL (swapL l m1 m0) m2 m1) m1 m0) m0 = getL l m2 := by
          rw [getL_swapL_fst _ m1 m0 (by omega) (by omega), e21]
        have e31 : getL (swapL (swapL (swapL l m1 m0) m2 m1) m1 m0) m1 = getL l m1 := by
          rw [getL_swapL_snd _ m1 m0 (by omega) (by omega) h01.symm, e20]
        have e32 : getL (swapL (swapL (swapL l m1 m0) m2 m1) m1 m0) m2 = getL l m0 := by
          rw [getL_swapL_outside _ m1 m0 m2 h12.symm h02.symm, e22]
        rw [e30, e31, e32]
        refine ⟨le_of_lt hC, le_of_lt hA, ?_⟩
        intro k hk0 hk1 hk2
        rw [getL_swapL_outside _ m1 m0 k hk1 hk0,
          getL_swapL_outside _ m2 m1 k hk2 hk1,
          getL_swapL_outside _ m1 m0 k hk1 hk0]
      · rw [if_neg h3]
        have hC : (getL l m2).amount ≤ (getL l m1).amount := by
          have := le_of_not_lt ((lessAt_costLess _ m1 m0).not.mp h3)
          rw [e20, e21] at this
          exact this
        rw [e20, e21, e22]
        refine ⟨hC, le_of_lt hB, ?_⟩
        intro k hk0 hk1 hk2
        rw [getL_swapL_outside _ m2 m1 k hk2 hk1,
          getL_swapL_outside _ m1 m0 k hk1 hk0]
    · rw [if_neg h2]
      have hB : (getL l m2).amount ≤ (getL l m0).amount := by
        have := le_of_not_lt ((lessAt_costLess _ m2 m1).not.mp h2)
        rw [e11, e12] at this
        exact this
      rw [e10, e11, e12]
      refine ⟨le_of_lt hA, hB, ?_⟩
      intro k hk0 hk1 hk2
      rw [getL_swapL_outside _ m1 m0 k hk1 hk0]
  · rw [if_neg h1]
    have hA : (getL l m1).amount ≤ (getL l m0).amount :=
      le_of_not_lt ((lessAt_costLess l m1 m0).not.mp h1)
    by_cases h2 : lessAt costLess l m2 m1 = true
    · rw [if_pos h2]
      have hB : (getL l m1).amount < (getL l m2).amount := (lessAt_costLess l m2 m1).mp h2
      have hl2 : (swapL l m2 m1).length = l.length := swapL_length l m2 m1
      have e20 : getL (swapL l m2 m1) m0 = getL l m0 :=
        getL_swapL_outside l m2 m1 m0 h02 h01
      have e21 : getL (swapL l m2 m1) m1 = getL l m2 := getL_swapL_fst l m2 m1 hm2 hm1
      have e22 : getL (swapL l m2 m1) m2 = getL l m1 :=
        getL_swapL_snd l m2 m1 hm2 hm1 (Ne.symm h12)
      by_cases h3 : lessAt costLess (swapL l m2 m1) m1 m0 = true
      · rw [if_pos h3]
        have hC : (getL l m0).amount < (getL l m2).amount := by
          have := (lessAt_costLess _ m1 m0).mp h3
          rw [e20, e21] at this
          exact this
        have e30 : getL (swapL (swapL l m2 m1) m1 m0) m0 = getL l m2 := by
          rw [getL_swapL_fst _ m1 m0 (by omega) (by omega), e21]
        have e31 : getL (swapL (swapL l m2 m1) m1 m0) m1 = getL l m0 := by
          rw [getL_swapL_snd _ m1 m0 (by omega) (by omega) h01.symm, e20]
        have e32 : getL (swapL (swapL l m2 m1) m1 m0) m2 = getL l m1 := by
          rw [getL_swapL_outside _ m1 m0 m2 h12.symm h02.symm, e22]
        rw [e30, e31, e32]
        refine ⟨le_of_lt hC, hA, ?_⟩
        intro k hk0 hk1 hk2
        rw [getL_swapL_outside _ m1 m0 k hk1 hk0,
          getL_swapL_outside _ m2 m1 k hk2 hk1]
      · rw [if_neg h3]
        have hC : (getL l m2).amount ≤ (getL l m0).amount := by
          have := le_of_not_lt ((lessAt_costLess _ m1 m0).not.mp h3)
          rw [e20, e21] at this
          exact this
        rw [e20, e21, e22]
        refine ⟨hC, le_of_lt hB, ?_⟩
        intro k hk0 hk1 hk2
        rw [getL_swapL_outside _ m2 m1 k hk2 hk1]
    · rw [if_neg h2]
      have hB : (getL l m2).amount ≤ (getL l m1).amount :=
        le_of_not_lt ((lessAt_costLess l m2 m1).not.mp h2)
      exact ⟨hA, hB, fun k _ _ _ => rfl⟩

theorem dpMedians_spec (l : List cost) (lo hi : Nat)
    (hsize : 12 < hi - lo) (hhi : hi ≤ l.length) :
    (getL (dpMedians costLess l lo hi ((lo + hi) / 2)) lo).amount ≤
      (getL (dpMedians costLess l lo hi ((lo + hi) / 2)) ((lo + hi) / 2)).amount ∧
    (getL (dpMedians costLess l lo hi ((lo + hi) / 2)) (hi - 1)).amount ≤
      (getL (dpMedians costLess l lo hi ((lo + hi) / 2)) lo).amount ∧
    (∀ k, k < lo ∨ hi ≤ k → getL (dpMedians costLess l lo hi ((lo + hi) / 2)) k = getL l k) ∧
    (dpMedians costLess l lo hi ((lo + hi) / 2)).Perm l ∧
    (dpMedians costLess l lo hi ((lo + hi) / 2)).length = l.length := by
  have hm1 : lo < (lo + hi) / 2 := by omega
  have hm2 : (lo + hi) / 2 < hi - 1 := by omega
  unfold dpMedians
  by_cases hn : hi - lo > 40
  · rw [if_pos hn]
    have hs : 5 ≤ (hi - lo) / 8 := by omega
    have hs2 : lo + 2 * ((hi - lo) / 8) < hi := by omega
    have hmn1 : lo ≤ (lo + hi) / 2 - (hi - lo) / 8 := by omega
    have hmn2 : (lo + hi) / 2 + (hi - lo) / 8 < hi := by omega
    have hh1 : lo ≤ hi - 1 - 2 * ((hi - lo) / 8) := by omega
    set s := (hi - lo) / 8 with hsdef
    set m := (lo + hi) / 2 with hmdef
    have c1 := medianOfThree_spec l lo (lo + s) (lo + 2 * s) (by omega) (by omega) (by omega)
      (by omega) (by omega) (by omega)
    set l1 := medianOfThree costLess l lo (lo + s) (lo + 2 * s) with hl1
    have hlen1 : l1.length = l.length := c1.2.2.2.2
    have c2 := medianOfThree_spec l1 m (m - s) (m + s) (by omega) (by omega) (by omega)
      (by omega) (by omega) (by omega)
    set l2 := medianOfThree costLess l1 m (m - s) (m + s) with hl2
    have hlen2 : l2.length = l.length := by rw [c2.2.2.2.2, hlen1]
    have c3 := medianOfThree_spec l2 (hi - 1) (hi - 1 - s) (hi - 1 - 2 * s) (by omega) (by omega)
      (by omega) (by omega) (by omega) (by omega)
    set l3 := medianOfThree costLess l2 (hi - 1) (hi - 1 - s) (hi - 1 - 2 * s) with hl3
    have hlen3 : l3.length = l.length := by rw [c3.2.2.2.2, hlen2]
    have c4 := medianOfThree_spec l3 lo m (hi - 1) (by omega) (by omega) (by omega)
      (by omega) (by omega) (by omega)
    refine ⟨c4.1, c4.2.1, ?_, ?_, ?_⟩
    · intro k hk
      rw [c4.2.2.1 k (by omega) (by omega) (by omega)]
      rw [c3.2.2.1 k (by omega) (by omega) (by omega)]
      rw [c2.2.2.1 k (by omega) (by omega) (by omega)]
      rw [c1.2.2.1 k (by omega) (by omega) (by omega)]
    · exact (c4.2.2.2.1.trans c3.2.2.2.1).trans (c2.2.2.2.1.trans c1.2.2.2.1)
    · rw [c4.2.2.2.2, hlen3]
  · rw [if_neg hn]
    have c4 := medianOfThree_spec l lo ((lo + hi) / 2) (hi - 1) (by omega) (by omega) (by omega)
      (by omega) (by omega) (by omega)
    exact ⟨c4.1, c4.2.1, fun k hk => c4.2.2.1 k (by omega) (by omega) (by omega),
      c4.2.2.2.1, c4.2.2.2.2⟩

theorem scanNotLessFwd_stop (less : cost → cost → Bool) (l : List cost) (pivot c : Nat)
    (fuel start : Nat) (h : ¬ start < c) : scanNotLessFwd less l pivot c fuel start = start := by
  cases fuel with
  | zero => rfl
  | succ n => simp only [scanNotLessFwd, if_neg h]

theorem scanGtBack_stop (less : cost → cost → Bool) (l : List cost) (pivot b : Nat)
    (fuel cstart : Nat) (h : ¬ b < cstart) : scanGtBack less l pivot b fuel cstart = cstart := by
  cases fuel with
  | zero => rfl
  | succ n => simp only [scanGtBack, if_neg h]

theorem dpLoopBC_spec (pivot : Nat) (p : ℚ) (c0 : Nat) :
    ∀ (fuel : Nat) (l : List cost) (b c : Nat),
      pivot < b → b ≤ c + 1 → pivot < c → c ≤ c0 → c0 ≤ l.length → c - b ≤ fuel →
      (getL l pivot).amount = p →
      (∀ k, pivot < k → k < b → p ≤ (getL l k).amount) →
      (∀ k, c ≤ k → k < c0 → (getL l k).amount < p) →
      (dpLoopBC costLess pivot fuel l b c).1.Perm l ∧
      (dpLoopBC costLess pivot fuel l b c).1.length = l.length ∧
      (∀ k, k < b ∨ c ≤ k → getL (dpLoopBC costLess pivot fuel l b c).1 k = getL l k) ∧
      b ≤ (dpLoopBC costLess pivot fuel l b c).2.1 ∧
      (dpLoopBC costLess pivot fuel l b c).2.2 ≤ c ∧
      (dpLoopBC costLess pivot fuel l b c).2.2 ≤ (dpLoopBC costLess pivot fuel l b c).2.1 ∧
      (dpLoopBC costLess pivot fuel l b c).2.1 ≤ (dpLoopBC costLess pivot fuel l b c).2.2 + 1 ∧
      (∀ k, pivot < k → k < (dpLoopBC costLess pivot fuel l b c).2.1 →
        p ≤ (getL (dpLoopBC costLess pivot fuel l b c).1 k).amount) ∧
      (∀ k, (dpLoopBC costLess pivot fuel l b c).2.2 ≤ k → k < c0 →
        (getL (dpLoopBC costLess pivot fuel l b c).1 k).amount < p) ∧
      pivot < (dpLoopBC costLess pivot fuel l b c).2.2 := by
  intro fuel
  induction fuel with
  | zero =>
    intro l b c hpb hbc hpc hcc0 hlen hfuel hpiv hJ1 hJ2
    refine ⟨List.Perm.refl l, rfl, fun k _ => rfl, le_refl b, le_refl c,
      show c ≤ b by omega, show b ≤ c + 1 by omega, ?_, ?_, show pivot < c from hpc⟩
    · intro k hk1 hk2
      have hk2' : k < b := hk2
      exact hJ1 k hk1 hk2'
    · intro k hk1 hk2
      have hk1' : c ≤ k := hk1
      exact hJ2 k hk1' hk2
  | succ n ih =>
    intro l b c hpb hbc hpc hcc0 hlen hfuel hpiv hJ1 hJ2
    simp only [dpLoopBC]
    by_cases hbc2 : b ≤ c
    · have hB := scanNotLessFwd_spec l pivot c c b (by omega) hbc2
      set b1 := scanNotLessFwd costLess l pivot c c b with hb1def
      have hC := scanGtBack_spec l pivot b1 c c (by omega)
      set c1 := scanGtBack costLess l pivot b1 c c with hc1def
      have hbb1 : b ≤ b1 := hB.1
      have hb1c : b1 ≤ c := hB.2.1
      have hc1c : c1 ≤ c := hC.1
      have hb1c1 : b1 ≤ c1 := hC.2.2.1 hb1c
      rw [hpiv] at hB hC
      by_cases hexit : b1 ≥ c1
      · rw [if_pos hexit]
        refine ⟨List.Perm.refl l, rfl, fun k _ => rfl, hbb1, hc1c, hexit,
          show b1 ≤ c1 + 1 by omega, ?_, ?_, show pivot < c1 by omega⟩
        · intro k hk1 hk2
          have hk2' : k < b1 := hk2
          by_cases hk : k < b
          · exact hJ1 k hk1 hk
          · exact hB.2.2.1 k (by omega) hk2'
        · intro k hk1 hk2
          have hk1' : c1 ≤ k := hk1
          by_cases hk : k < c
          · exact hC.2.2.2.1 k hk1' hk
          · exact hJ2 k (by omega) hk2
      · rw [if_neg hexit]
        have hb1c1' : b1 < c1 := by omega
        have hc1len : c1 - 1 < l.length := by omega
        have hb1len : b1 < l.length := by omega
        have hswlen : (swapL l b1 (c1 - 1)).length = l.length := swapL_length l b1 (c1 - 1)
        have hswb1 : getL (swapL l b1 (c1 - 1)) b1 = getL l (c1 - 1) := by
          by_cases he : b1 = c1 - 1
          · rw [getL_swapL l b1 (c1 - 1) b1 hb1len hc1len, if_pos he, he]
          · exact getL_swapL_snd l b1 (c1 - 1) hb1len hc1len he
        have hswc1 : getL (swapL l b1 (c1 - 1)) (c1 - 1) = getL l b1 :=
          getL_swapL_fst l b1 (c1 - 1) hb1len hc1len
        have hswout : ∀ k, k ≠ b1 → k ≠ c1 - 1 → getL (swapL l b1 (c1 - 1)) k = getL l k :=
          fun k h1 h2 => getL_swapL_outside l b1 (c1 - 1) k h1 h2
        have hres := ih (swapL l b1 (c1 - 1)) (b1 + 1) (c1 - 1)
          (by omega) (by omega) (by omega) (by omega) (by rw [hswlen]; exact hlen) (by omega)
          (by rw [hswout pivot (by omega) (by omega)]; exact hpiv)
          (by
            intro k hk1 hk2
            by_cases hk : k = b1
            · subst hk
              rw [hswb1]
              exact hC.2.2.2.2 hb1c1'
            · rw [hswout k hk (by omega)]
              by_cases hkb : k < b
              · exact hJ1 k hk1 hkb
              · exact hB.2.2.1 k (by omega) (by omega))
          (by
            intro k hk1 hk2
            by_cases hk : k = c1 - 1
            · subst hk
              rw [hswc1]
              exact hB.2.2.2 (by omega)
            · rw [hswout k (by omega) hk]
              by_cases hkc : k < c
              · exact hC.2.2.2.1 k (by omega) hkc
              · exact hJ2 k (by omega) hk2)
        refine ⟨hres.1.trans (swapL_perm l b1 (c1 - 1)), by rw [hres.2.1, hswlen], ?_,
          le_trans (show b ≤ b1 + 1 by omega) hres.2.2.2.1,
          le_trans hres.2.2.2.2.1 (show c1 - 1 ≤ c by omega),
          hres.2.2.2.2.2.1, hres.2.2.2.2.2.2.1,
          hres.2.2.2.2.2.2.2.1, hres.2.2.2.2.2.2.2.2.1, hres.2.2.2.2.2.2.2.2.2⟩
        intro k hk
        have hk' : k < b1 + 1 ∨ c1 - 1 ≤ k := by
          rcases hk with hk | hk
          · exact Or.inl (by omega)
          · exact Or.inr (by omega)
        rw [hres.2.2.1 k hk', hswout k (by omega) (by omega)]
    · have hb : ¬ b < c := by omega
      rw [scanNotLessFwd_stop costLess l pivot c c b hb,
        scanGtBack_stop costLess l pivot b c c hb]
      rw [if_pos (show b ≥ c by omega)]
      refine ⟨List.Perm.refl l, rfl, fun k _ => rfl, le_refl b, le_refl c,
        show c ≤ b by omega, show b ≤ c + 1 by omega, ?_, ?_, show pivot < c from hpc⟩
      · intro k hk1 hk2
        have hk2' : k < b := hk2
        exact hJ1 k hk1 hk2'
      · intro k hk1 hk2
        have hk1' : c ≤ k := hk1
        exact hJ2 k hk1' hk2

theorem dpDups3swap (l1 : List cost) (lo b b2 m hi c1' : Nat) (p : ℚ)
    (hb2a : b - 1 ≤ b2) (hb2b : b2 ≤ b)
    (hm1 : lo < m) (hm2 : m + 1 < b) (hlob : lo + 9 < b)
    (hbc' : b ≤ c1') (hc'hi : c1' + 3 ≤ hi) (hhi : hi ≤ l1.length)
    (hmp : (getL l1 m).amount = p)
    (hJ11 : ∀ k, lo < k → k < b → p ≤ (getL l1 k).amount)
    (hMID2 : ∀ k, b2 ≤ k → k < c1' → (getL l1 k).amount = p) :
    (∀ k, k ≤ lo ∨ c1' ≤ k → getL (swapL l1 m (b2 - 1)) k = getL l1 k) ∧
    (∀ k, lo < k → k < b2 - 1 → p ≤ (getL (swapL l1 m (b2 - 1)) k).amount) ∧
    (∀ k, b2 - 1 ≤ k → k < c1' → (getL (swapL l1 m (b2 - 1)) k).amount = p) := by
  have hmlen : m < l1.length := by omega
  have hb2len : b2 - 1 < l1.length := by omega
  have hf : getL (swapL l1 m (b2 - 1)) (b2 - 1) = getL l1 m :=
    getL_swapL_fst l1 m (b2 - 1) hmlen hb2len
  have hs : getL (swapL l1 m (b2 - 1)) m = getL l1 (b2 - 1) := by
    by_cases he : m = b2 - 1
    · subst he
      exact hf
    · exact getL_swapL_snd l1 m (b2 - 1) hmlen hb2len he
  have hout : ∀ k, k ≠ m → k ≠ b2 - 1 → getL (swapL l1 m (b2 - 1)) k = getL l1 k :=
    fun k h1 h2 => getL_swapL_outside l1 m (b2 - 1) k h1 h2
  refine ⟨?_, ?_, ?_⟩
  · intro k hk
    exact hout k (by omega) (by omega)
  · intro k hk1 hk2
    by_cases hkm : k = m
    · subst hkm
      rw [hs]
      exact hJ11 (b2 - 1) (by omega) (by omega)
    · rw [hout k hkm (by omega)]
      exact hJ11 k hk1 (by omega)
  · intro k hk1 hk2
    by_cases hkb : k = b2 - 1
    · subst hkb
      rw [hf]
      exact hmp
    · rw [hout k (by omega) hkb]
      exact hMID2 k (by omega) hk2

theorem dpDups33 (l1 : List cost) (lo b m hi c1' : Nat) (p : ℚ)
    (hm1 : lo < m) (hm2 : m + 1 < b) (hlob : lo + 9 < b)
    (hbc' : b ≤ c1') (hc'b : c1' ≤ b + 1) (hc'hi : c1' + 3 ≤ hi) (hhi : hi ≤ l1.length)
    (hpiv1 : (getL l1 lo).amount = p)
    (hJ11 : ∀ k, lo < k → k < b → p ≤ (getL l1 k).amount)
    (hMID1 : ∀ k, b ≤ k → k < c1' → (getL l1 k).amount = p)
    (hR1 : ∀ k, c1' ≤ k → k < hi → (getL l1 k).amount ≤ p) :
    (if ¬ lessAt costLess l1 m lo then
        (swapL l1 m ((if ¬ lessAt costLess l1 (b - 1) lo then (b - 1, 1) else (b, 0)).1 - 1),
          (if ¬ lessAt costLess l1 (b - 1) lo then (b - 1, 1) else (b, 0)).1 - 1, 1)
      else (l1, (if ¬ lessAt costLess l1 (b - 1) lo then (b - 1, 1) else (b, 0)).1, 0)).1.Perm l1 ∧
    (if ¬ lessAt costLess l1 m lo then
        (swapL l1 m ((if ¬ lessAt costLess l1 (b - 1) lo then (b - 1, 1) else (b, 0)).1 - 1),
          (if ¬ lessAt costLess l1 (b - 1) lo then (b - 1, 1) else (b, 0)).1 - 1, 1)
      else (l1, (if ¬ lessAt costLess l1 (b - 1) lo then (b - 1, 1) else (b, 0)).1,
        0)).1.length = l1.length ∧
    (∀ k, k ≤ lo ∨ c1' ≤ k →
      getL (if ¬ lessAt costLess l1 m lo then
        (swapL l1 m ((if ¬ lessAt costLess l1 (b - 1) lo then (b - 1, 1) else (b, 0)).1 - 1),
          (if ¬ lessAt costLess l1 (b - 1) lo then (b - 1, 1) else (b, 0)).1 - 1, 1)
      else (l1, (if ¬ lessAt costLess l1 (b - 1) lo then (b - 1, 1) else (b, 0)).1, 0)).1 k =
        getL l1 k) ∧
    lo < (if ¬ lessAt costLess l1 m lo then
        (swapL l1 m ((if ¬ lessAt costLess l1 (b - 1) lo then (b - 1, 1) else (b, 0)).1 - 1),
          (if ¬ lessAt costLess l1 (b - 1) lo then (b - 1, 1) else (b, 0)).1 - 1, 1)
      else (l1, (if ¬ lessAt costLess l1 (b - 1) lo then (b - 1, 1) else (b, 0)).1, 0)).2.1 ∧
    (if ¬ lessAt costLess l1 m lo then
        (swapL l1 m ((if ¬ lessAt costLess l1 (b - 1) lo then (b - 1, 1) else (b, 0)).1 - 1),
          (if ¬ lessAt costLess l1 (b - 1) lo then (b - 1, 1) else (b, 0)).1 - 1, 1)
      else (l1, (if ¬ lessAt costLess l1 (b - 1) lo then (b - 1, 1) else (b, 0)).1, 0)).2.1 ≤ b ∧
    (∀ k, lo < k →
      k < (if ¬ lessAt costLess l1 m lo then
        (swapL l1 m ((if ¬ lessAt costLess l1 (b - 1) lo then (b - 1, 1) else (b, 0)).1 - 1),
          (if ¬ lessAt costLess l1 (b - 1) lo then (b - 1, 1) else (b, 0)).1 - 1, 1)
      else (l1, (if ¬ lessAt costLess l1 (b - 1) lo then (b - 1, 1) else (b, 0)).1, 0)).2.1 →
      p ≤ (getL (if ¬ lessAt costLess l1 m lo then
        (swapL l1 m ((if ¬ lessAt costLess l1 (b - 1) lo then (b - 1, 1) else (b, 0)).1 - 1),
          (if ¬ lessAt costLess l1 (b - 1) lo then (b - 1, 1) else (b, 0)).1 - 1, 1)
      else (l1, (if ¬ lessAt costLess l1 (b - 1) lo then (b - 1, 1) else (b, 0)).1, 0)).1
        k).amount) ∧
    (∀ k, (if ¬ lessAt costLess l1 m lo then
        (swapL l1 m ((if ¬ lessAt costLess l1 (b - 1) lo then (b - 1, 1) else (b, 0)).1 - 1),
          (if ¬ lessAt costLess l1 (b - 1) lo then (b - 1, 1) else (b, 0)).1 - 1, 1)
      else (l1, (if ¬ lessAt costLess l1 (b - 1) lo then (b - 1, 1) else (b, 0)).1, 0)).2.1 ≤ k →
      k < c1' →
      (getL (if ¬ lessAt costLess l1 m lo then
        (swapL l1 m ((if ¬ lessAt costLess l1 (b - 1) lo then (b - 1, 1) else (b, 0)).1 - 1),
          (if ¬ lessAt costLess l1 (b - 1) lo then (b - 1, 1) else (b, 0)).1 - 1, 1)
      else (l1, (if ¬ lessAt costLess l1 (b - 1) lo then (b - 1, 1) else (b, 0)).1, 0)).1
        k).amount = p) ∧
    (∀ k, c1' ≤ k → k < hi →
      (getL (if ¬ lessAt costLess l1 m lo then
        (swapL l1 m ((if ¬ lessAt costLess l1 (b - 1) lo then (b - 1, 1) else (b, 0)).1 - 1),
          (if ¬ lessAt costLess l1 (b - 1) lo then (b - 1, 1) else (b, 0)).1 - 1, 1)
      else (l1, (if ¬ lessAt costLess l1 (b - 1) lo then (b - 1, 1) else (b, 0)).1, 0)).1
        k).amount ≤ p) := by
  by_cases hs2 : lessAt costLess l1 (b - 1) lo = true
  · rw [if_neg (not_not_intro hs2)]
    dsimp only
    by_cases hs3 : lessAt costLess l1 m lo = true
    · rw [if_neg (not_not_intro hs3)]
      dsimp only
      exact ⟨List.Perm.refl l1, rfl, fun k _ => rfl, by omega, le_refl b, hJ11, hMID1, hR1⟩
    · rw [if_pos hs3]
      dsimp only
      have hmp : (getL l1 m).amount = p := by
        have hle := le_of_not_lt ((lessAt_costLess l1 m lo).not.mp hs3)
        rw [hpiv1] at hle
        exact le_antisymm hle (hJ11 m hm1 (by omega))
      have hsw := dpDups3swap l1 lo b b m hi c1' p (by omega) (le_refl b) hm1 hm2 hlob
        hbc' hc'hi hhi hmp hJ11 hMID1
      refine ⟨swapL_perm l1 m (b - 1), swapL_length l1 m (b - 1), hsw.1, by omega, by omega,
        hsw.2.1, hsw.2.2, ?_⟩
      intro k hk1 hk2
      rw [hsw.1 k (Or.inr hk1)]
      exact hR1 k hk1 hk2
  · rw [if_pos hs2]
    dsimp only
    have hb1p : (getL l1 (b - 1)).amount = p := by
      have hle := le_of_not_lt ((lessAt_costLess l1 (b - 1) lo).not.mp hs2)
      rw [hpiv1] at hle
      exact le_antisymm hle (hJ11 (b - 1) (by omega) (by omega))
    have hMID2 : ∀ k, b - 1 ≤ k → k < c1' → (getL l1 k).amount = p := by
      intro k hk1 hk2
      by_cases hk : k = b - 1
      · subst hk
        exact hb1p
      · exact hMID1 k (by omega) hk2
    by_cases hs3 : lessAt costLess l1 m lo = true
    · rw [if_neg (not_not_intro hs3)]
      dsimp only
      refine ⟨List.Perm.refl l1, rfl, fun k _ => rfl, by omega, by omega, ?_, hMID2, hR1⟩
      intro k hk1 hk2
      exact hJ11 k hk1 (by omega)
    · rw [if_pos hs3]
      dsimp only
      have hmp : (getL l1 m).amount = p := by
        have hle := le_of_not_lt ((lessAt_costLess l1 m lo).not.mp hs3)
        rw [hpiv1] at hle
        exact le_antisymm hle (hJ11 m hm1 (by omega))
      have hsw := dpDups3swap l1 lo b (b - 1) m hi c1' p (by omega) (by omega) hm1 hm2 hlob
        hbc' hc'hi hhi hmp hJ11 hMID2
      refine ⟨swapL_perm l1 m (b - 1 - 1), swapL_length l1 m (b - 1 - 1), hsw.1, by omega,
        by omega, hsw.2.1, hsw.2.2, ?_⟩
      intro k hk1 hk2
      rw [hsw.1 k (Or.inr hk1)]
      exact hR1 k hk1 hk2

theorem dpDups_spec (l : List cost) (lo hi b c : Nat) (p : ℚ)
    (hsize : 12 < hi - lo) (hhi : hi ≤ l.length)
    (hlob : lo < b) (hlocc : lo < c) (hcb : c ≤ b) (hbc1 : b ≤ c + 1) (hchi : c ≤ hi - 1)
    (hpiv : (getL l lo).amount = p)
    (hJ1 : ∀ k, lo < k → k < b → p ≤ (getL l k).amount)
    (hJ2 : ∀ k, c ≤ k → k < hi - 1 → (getL l k).amount < p)
    (hJhi : (getL l (hi - 1)).amount ≤ p) :
    (dpDups costLess l lo ((lo + hi) / 2) hi lo b c).1.Perm l ∧
    (dpDups costLess l lo ((lo + hi) / 2) hi lo b c).1.length = l.length ∧
    (∀ k, k ≤ lo ∨ hi ≤ k →
      getL (dpDups costLess l lo ((lo + hi) / 2) hi lo b c).1 k = getL l k) ∧
    lo < (dpDups costLess l lo ((lo + hi) / 2) hi lo b c).2.1 ∧
    (dpDups costLess l lo ((lo + hi) / 2) hi lo b c).2.1 ≤ b ∧
    c ≤ (dpDups costLess l lo ((lo + hi) / 2) hi lo b c).2.2.1 ∧
    (dpDups costLess l lo ((lo + hi) / 2) hi lo b c).2.2.1 ≤ hi - 1 ∧
    (dpDups costLess l lo ((lo + hi) / 2) hi lo b c).2.1 ≤
      (dpDups costLess l lo ((lo + hi) / 2) hi lo b c).2.2.1 + 1 ∧
    (∀ k, lo < k → k < (dpDups costLess l lo ((lo + hi) / 2) hi lo b c).2.1 →
      p ≤ (getL (dpDups costLess l lo ((lo + hi) / 2) hi lo b c).1 k).amount) ∧
    (∀ k, (dpDups costLess l lo ((lo + hi) / 2) hi lo b c).2.1 ≤ k →
      k < (dpDups costLess l lo ((lo + hi) / 2) hi lo b c).2.2.1 →
      (getL (dpDups costLess l lo ((lo + hi) / 2) hi lo b c).1 k).amount = p) ∧
    (∀ k, (dpDups costLess l lo ((lo + hi) / 2) hi lo b c).2.2.1 ≤ k → k < hi →
      (getL (dpDups costLess l lo ((lo + hi) / 2) hi lo b c).1 k).amount ≤ p) := by
  set m := (lo + hi) / 2 with hmdef
  simp only [dpDups]
  by_cases hent : ¬ hi - c < 5 ∧ hi - c < (hi - lo) / 4
  · rw [if_pos hent]
    obtain ⟨hc5, hc4⟩ := hent
    have hclo10 : lo + 9 < c := by omega
    have hmc : m + 1 < c := by omega
    have hm1 : lo < m := by omega
    have hbceq : b = c := by
      by_contra hne
      have hcb' : c < b := by omega
      exact absurd (hJ1 c (by omega) hcb') (not_le.mpr (hJ2 c (le_refl c) (by omega)))
    by_cases hs1 : lessAt costLess l lo (hi - 1) = true
    · rw [if_neg (not_not_intro hs1)]
      have hR1 : ∀ k, c ≤ k → k < hi → (getL l k).amount ≤ p := by
        intro k hk1 hk2
        by_cases hk : k = hi - 1
        · subst hk
          exact le_of_lt ((lessAt_costLess l lo (hi - 1)).mp hs1 |>.trans_le (le_of_eq hpiv))
        · exact le_of_lt (hJ2 k hk1 (by omega))
      have hD := dpDups33 l lo b m hi c p hm1 (by omega) (by omega) (by omega) (by omega)
        (by omega) hhi hpiv hJ1
        (fun k hk1 hk2 => absurd hk1 (by omega)) hR1
      refine ⟨hD.1, hD.2.1, ?_, hD.2.2.2.1, hD.2.2.2.2.1,
        show c ≤ c from le_refl c, show c ≤ hi - 1 from hchi,
        le_trans hD.2.2.2.2.1 (show b ≤ c + 1 by omega), hD.2.2.2.2.2.1, hD.2.2.2.2.2.2.1,
        hD.2.2.2.2.2.2.2⟩
      intro k hk
      exact hD.2.2.1 k (by omega)
    · rw [if_pos hs1]
      have hphi : (getL l (hi - 1)).amount = p := by
        have hge := le_of_not_lt ((lessAt_costLess l lo (hi - 1)).not.mp hs1)
        rw [hpiv] at hge
        exact le_antisymm hJhi hge
      have hclen : c < l.length := by omega
      have hhilen : hi - 1 < l.length := by omega
      have hlen1 : (swapL l c (hi - 1)).length = l.length := swapL_length l c (hi - 1)
      have e_c : getL (swapL l c (hi - 1)) c = getL l (hi - 1) :=
        getL_swapL_snd l c (hi - 1) hclen hhilen (by omega)
      have e_hi : getL (swapL l c (hi - 1)) (hi - 1) = getL l c :=
        getL_swapL_fst l c (hi - 1) hclen hhilen
      have e_out : ∀ k, k ≠ c → k ≠ hi - 1 → getL (swapL l c (hi - 1)) k = getL l k :=
        fun k h1 h2 => getL_swapL_outside l c (hi - 1) k h1 h2
      have hpiv1 : (getL (swapL l c (hi - 1)) lo).amount = p := by
        rw [e_out lo (by omega) (by omega)]
        exact hpiv
      have hJ11 : ∀ k, lo < k → k < b → p ≤ (getL (swapL l c (hi - 1)) k).amount := by
        intro k hk1 hk2
        rw [e_out k (by omega) (by omega)]
        exact hJ1 k hk1 hk2
      have hMID1 : ∀ k, b ≤ k → k < c + 1 → (getL (swapL l c (hi - 1)) k).amount = p := by
        intro k hk1 hk2
        have hk : k = c := by omega
        subst hk
        rw [e_c]
        exact hphi
      have hR1 : ∀ k, c + 1 ≤ k → k < hi → (getL (swapL l c (hi - 1)) k).amount ≤ p := by
        intro k hk1 hk2
        by_cases hk : k = hi - 1
        · subst hk
          rw [e_hi]
          exact le_of_lt (hJ2 c (le_refl c) (by omega))
        · rw [e_out k (by omega) hk]
          exact le_of_lt (hJ2 k (by omega) (by omega))
      have hD := dpDups33 (swapL l c (hi - 1)) lo b m hi (c + 1) p hm1 (by omega) (by omega)
        (by omega) (by omega) (by omega) (by rw [hlen1]; exact hhi) hpiv1 hJ11 hMID1 hR1
      refine ⟨hD.1.trans (swapL_perm l c (hi - 1)), by rw [hD.2.1, hlen1], ?_,
        hD.2.2.2.1, hD.2.2.2.2.1,
        show c ≤ c + 1 by omega, show c + 1 ≤ hi - 1 by omega,
        le_trans hD.2.2.2.2.1 (show b ≤ c + 1 + 1 by omega), hD.2.2.2.2.2.1, hD.2.2.2.2.2.2.1,
        hD.2.2.2.2.2.2.2⟩
      intro k hk
      rw [hD.2.2.1 k (by omega), e_out k (by omega) (by omega)]
  · rw [if_neg hent]
    refine ⟨List.Perm.refl l, rfl, fun k _ => rfl, show lo < b from hlob, le_refl b,
      le_refl c, show c ≤ hi - 1 from hchi, show b ≤ c + 1 from hbc1, ?_, ?_, ?_⟩
    · intro k hk1 hk2
      have hk2' : k < b := hk2
      exact hJ1 k hk1 hk2'
    · intro k hk1 hk2
      have hk1' : b ≤ k := hk1
      have hk2' : k < c := hk2
      omega
    · intro k hk1 hk2
      have hk1' : c ≤ k := hk1
      by_cases hk : k = hi - 1
      · subst hk
        exact hJhi
      · exact le_of_lt (hJ2 k hk1' (by omega))

theorem scanEqBack_stop (less : cost → cost → Bool) (l : List cost) (pivot a : Nat)
    (fuel bstart : Nat) (h : ¬ a < bstart) : scanEqBack less l pivot a fuel bstart = bstart := by
  cases fuel with
  | zero => rfl
  | succ n => simp only [scanEqBack, if_neg h]

theorem scanLtFwd_stop (less : cost → cost → Bool) (l : List cost) (pivot b : Nat)
    (fuel start : Nat) (h : ¬ start < b) : scanLtFwd less l pivot b fuel start = start := by
  cases fuel with
  | zero => rfl
  | succ n => simp only [scanLtFwd, if_neg h]

theorem dpLoopProt_spec (lo : Nat) (p : ℚ) (c' : Nat) :
    ∀ (fuel : Nat) (l : List cost) (a b : Nat),
      lo < a → lo < b → b - lo ≤ fuel → b ≤ l.length →
      (getL l lo).amount = p →
      (∀ k, lo < k → k < b → p ≤ (getL l k).amount) →
      (∀ k, b ≤ k → k < c' → (getL l k).amount = p) →
      (dpLoopProt costLess lo fuel l a b).1.Perm l ∧
      (dpLoopProt costLess lo fuel l a b).1.length = l.length ∧
      (∀ k, k < a ∨ b ≤ k → getL (dpLoopProt costLess lo fuel l a b).1 k = getL l k) ∧
      lo < (dpLoopProt costLess lo fuel l a b).2.2 ∧
      (dpLoopProt costLess lo fuel l a b).2.2 ≤ b ∧
      (∀ k, lo < k → k < (dpLoopProt costLess lo fuel l a b).2.2 →
        p ≤ (getL (dpLoopProt costLess lo fuel l a b).1 k).amount) ∧
      (∀ k, (dpLoopProt costLess lo fuel l a b).2.2 ≤ k → k < c' →
        (getL (dpLoopProt costLess lo fuel l a b).1 k).amount = p) := by
  intro fuel
  induction fuel with
  | zero =>
    intro l a b hloa hlob hfuel hble hpiv hK1 hMIDI
    refine ⟨List.Perm.refl l, rfl, fun k _ => rfl, show lo < b from hlob, le_refl b, ?_, ?_⟩
    · intro k hk1 hk2
      have hk2' : k < b := hk2
      exact hK1 k hk1 hk2'
    · intro k hk1 hk2
      have hk1' : b ≤ k := hk1
      exact hMIDI k hk1' hk2
  | succ n ih =>
    intro l a b hloa hlob hfuel hble hpiv hK1 hMIDI
    simp only [dpLoopProt]
    by_cases hab : a ≤ b
    · have hE := scanEqBack_spec l lo a b b (by omega)
      set b1 := scanEqBack costLess l lo a b b with hb1def
      have hb1b : b1 ≤ b := hE.1
      have hab1 : a ≤ b1 := hE.2.1 hab
      have hL := scanLtFwd_spec l lo b1 b1 a (by omega) hab1
      set a1 := scanLtFwd costLess l lo b1 b1 a with ha1def
      have haa1 : a ≤ a1 := hL.1
      have ha1b1 : a1 ≤ b1 := hL.2.1
      rw [hpiv] at hE hL
      by_cases hexit : a1 ≥ b1
      · rw [if_pos hexit]
        refine ⟨List.Perm.refl l, rfl, fun k _ => rfl, show lo < b1 by omega,
          show b1 ≤ b from hb1b, ?_, ?_⟩
        · intro k hk1 hk2
          have hk2' : k < b1 := hk2
          exact hK1 k hk1 (by omega)
        · intro k hk1 hk2
          have hk1' : b1 ≤ k := hk1
          by_cases hk : k < b
          · exact le_antisymm (hE.2.2.1 k hk1' hk) (hK1 k (by omega) hk)
          · exact hMIDI k (by omega) hk2
      · rw [if_neg hexit]
        have ha1b1' : a1 < b1 := by omega
        have hstopE : p < (getL l (b1 - 1)).amount := hE.2.2.2 (by omega)
        have hstopL : (getL l a1).amount ≤ p := hL.2.2.2 ha1b1'
        have ha1p : (getL l a1).amount = p :=
          le_antisymm hstopL (hK1 a1 (by omega) (by omega))
        have ha1len : a1 < l.length := by omega
        have hb1len : b1 - 1 < l.length := by omega
        have hswlen : (swapL l a1 (b1 - 1)).length = l.length := swapL_length l a1 (b1 - 1)
        have hswa1 : getL (swapL l a1 (b1 - 1)) a1 = getL l (b1 - 1) := by
          by_cases he : a1 = b1 - 1
          · rw [getL_swapL l a1 (b1 - 1) a1 ha1len hb1len, if_pos he, he]
          · exact getL_swapL_snd l a1 (b1 - 1) ha1len hb1len he
        have hswb1 : getL (swapL l a1 (b1 - 1)) (b1 - 1) = getL l a1 :=
          getL_swapL_fst l a1 (b1 - 1) ha1len hb1len
        have hswout : ∀ k, k ≠ a1 → k ≠ b1 - 1 → getL (swapL l a1 (b1 - 1)) k = getL l k :=
          fun k h1 h2 => getL_swapL_outside l a1 (b1 - 1) k h1 h2
        have hres := ih (swapL l a1 (b1 - 1)) (a1 + 1) (b1 - 1)
          (by omega) (by omega) (by omega) (by rw [hswlen]; omega)
          (by rw [hswout lo (by omega) (by omega)]; exact hpiv)
          (by
            intro k hk1 hk2
            by_cases hk : k = a1
            · subst hk
              rw [hswa1]
              exact le_of_lt hstopE
            · rw [hswout k hk (by omega)]
              exact hK1 k hk1 (by omega))
          (by
            intro k hk1 hk2
            by_cases hk : k = b1 - 1
            · subst hk
              rw [hswb1]
              exact ha1p
            · rw [hswout k (by omega) hk]
              by_cases hkb : k < b
              · exact le_antisymm (hE.2.2.1 k (by omega) hkb) (hK1 k (by omega) hkb)
              · exact hMIDI k (by omega) hk2)
        refine ⟨hres.1.trans (swapL_perm l a1 (b1 - 1)), by rw [hres.2.1, hswlen], ?_,
          hres.2.2.2.1, le_trans hres.2.2.2.2.1 (by omega), hres.2.2.2.2.2.1,
          hres.2.2.2.2.2.2⟩
        intro k hk
        have hk' : k < a1 + 1 ∨ b1 - 1 ≤ k := by
          rcases hk with hk | hk
          · exact Or.inl (by omega)
          · exact Or.inr (by omega)
        rw [hres.2.2.1 k hk', hswout k (by omega) (by omega)]
    · have hab' : ¬ a < b := by omega
      rw [scanEqBack_stop costLess l lo a b b hab',
        scanLtFwd_stop costLess l lo b b a hab']
      rw [if_pos (show a ≥ b by omega)]
      refine ⟨List.Perm.refl l, rfl, fun k _ => rfl, show lo < b from hlob, le_refl b, ?_, ?_⟩
      · intro k hk1 hk2
        have hk2' : k < b := hk2
        exact hK1 k hk1 hk2'
      · intro k hk1 hk2
        have hk1' : b ≤ k := hk1
        exact hMIDI k hk1' hk2

theorem dpProt_spec (lo : Nat) (protect : Bool) (l : List cost) (a b : Nat) (p : ℚ)
    (hloa : lo < a) (hlob : lo < b) (hble : b ≤ l.length)
    (hpiv : (getL l lo).amount = p)
    (hK1 : ∀ k, lo < k → k < b → p ≤ (getL l k).amount) :
    (dpProt costLess lo protect l a b).1.Perm l ∧
    (dpProt costLess lo protect l a b).1.length = l.length ∧
    (∀ k, k < a ∨ b ≤ k → getL (dpProt costLess lo protect l a b).1 k = getL l k) ∧
    lo < (dpProt costLess lo protect l a b).2 ∧
    (dpProt costLess lo protect l a b).2 ≤ b ∧
    (∀ k, lo < k → k < (dpProt costLess lo protect l a b).2 →
      p ≤ (getL (dpProt costLess lo protect l a b).1 k).amount) ∧
    (∀ k, (dpProt costLess lo protect l a b).2 ≤ k → k < b →
      (getL (dpProt costLess lo protect l a b).1 k).amount = p) := by
  simp only [dpProt]
  by_cases hpr : protect = true
  · rw [if_pos hpr]
    dsimp only
    have hL := dpLoopProt_spec lo p b b l a b hloa hlob (by omega) hble hpiv hK1
      (fun k hk1 hk2 => absurd hk2 (by omega))
    exact ⟨hL.1, hL.2.1, hL.2.2.1, hL.2.2.2.1, hL.2.2.2.2.1, hL.2.2.2.2.2.1, hL.2.2.2.2.2.2⟩
  · rw [if_neg hpr]
    refine ⟨List.Perm.refl l, rfl, fun k _ => rfl, show lo < b from hlob, le_refl b, ?_, ?_⟩
    · intro k hk1 hk2
      have hk2' : k < b := hk2
      exact hK1 k hk1 hk2'
    · intro k hk1 hk2
      have hk1' : b ≤ k := hk1
      omega

theorem doPivotGo_spec (l : List cost) (lo hi : Nat)
    (hsize : 12 < hi - lo) (hhi : hi ≤ l.length) :
    (doPivotGo costLess l lo hi).1.Perm l ∧
    (doPivotGo costLess l lo hi).1.length = l.length ∧
    (∀ k, k < lo ∨ hi ≤ k → getL (doPivotGo costLess l lo hi).1 k = getL l k) ∧
    lo ≤ (doPivotGo costLess l lo hi).2.1 ∧
    (doPivotGo costLess l lo hi).2.1 ≤ hi - 1 ∧
    lo < (doPivotGo costLess l lo hi).2.2 ∧
    (doPivotGo costLess l lo hi).2.2 ≤ hi - 1 ∧
    (doPivotGo costLess l lo hi).2.1 ≤ (doPivotGo costLess l lo hi).2.2 ∧
    (∃ p : ℚ,
      (∀ k, lo ≤ k → k < (doPivotGo costLess l lo hi).2.1 →
        p ≤ (getL (doPivotGo costLess l lo hi).1 k).amount) ∧
      (∀ k, (doPivotGo costLess l lo hi).2.1 ≤ k → k < (doPivotGo costLess l lo hi).2.2 →
        (getL (doPivotGo costLess l lo hi).1 k).amount = p) ∧
      (∀ k, (doPivotGo costLess l lo hi).2.2 ≤ k → k < hi →
        (getL (doPivotGo costLess l lo hi).1 k).amount ≤ p)) := by
  simp only [doPivotGo]
  have hMed := dpMedians_spec l lo hi hsize hhi
  set lb := dpMedians costLess l lo hi ((lo + hi) / 2) with hlb
  have hlb_len : lb.length = l.length := hMed.2.2.2.2
  have hA := scanLessFwd_spec lb lo (hi - 1) (hi - 1) (lo + 1) (by omega) (by omega)
  set a := scanLessFwd costLess lb lo (hi - 1) (hi - 1) (lo + 1) with ha
  have haa : lo + 1 ≤ a := hA.1
  have hahi : a ≤ hi - 1 := hA.2.1
  set p := (getL lb lo).amount with hp
  have hBC := dpLoopBC_spec lo p (hi - 1) (hi - 1) lb a (hi - 1) (by omega) (by omega)
    (by omega) (le_refl _) (by rw [hlb_len]; omega) (by omega) rfl
    (fun k hk1 hk2 => le_of_lt (hA.2.2.1 k (by omega) hk2))
    (fun k hk1 hk2 => absurd hk2 (by omega))
  set r1 := dpLoopBC costLess lo (hi - 1) lb a (hi - 1) with hr1
  have hr1len : r1.1.length = l.length := by rw [hBC.2.1, hlb_len]
  have hb1a : a ≤ r1.2.1 := hBC.2.2.2.1
  have hc1hi : r1.2.2 ≤ hi - 1 := hBC.2.2.2.2.1
  have hc1b1 : r1.2.2 ≤ r1.2.1 := hBC.2.2.2.2.2.1
  have hb1c1 : r1.2.1 ≤ r1.2.2 + 1 := hBC.2.2.2.2.2.2.1
  have hloc1 : lo < r1.2.2 := hBC.2.2.2.2.2.2.2.2.2
  have hpiv1 : (getL r1.1 lo).amount = p := by
    rw [hBC.2.2.1 lo (Or.inl (by omega))]
  have hD := dpDups_spec r1.1 lo hi r1.2.1 r1.2.2 p hsize (by rw [hr1len]; exact hhi)
    (by omega) hloc1 hc1b1 hb1c1 hc1hi hpiv1
    hBC.2.2.2.2.2.2.2.1 hBC.2.2.2.2.2.2.2.2.1
    (by
      rw [hBC.2.2.1 (hi - 1) (Or.inr (le_refl _)), hp]
      exact hMed.2.1)
  set r2 := dpDups costLess r1.1 lo ((lo + hi) / 2) hi lo r1.2.1 r1.2.2 with hr2
  have hr2len : r2.1.length = l.length := by rw [hD.2.1, hr1len]
  have hlob2 : lo < r2.2.1 := hD.2.2.2.1
  have hb2b1 : r2.2.1 ≤ r1.2.1 := hD.2.2.2.2.1
  have hc1cD : r1.2.2 ≤ r2.2.2.1 := hD.2.2.2.2.2.1
  have hcDhi : r2.2.2.1 ≤ hi - 1 := hD.2.2.2.2.2.2.1
  have hb2cD : r2.2.1 ≤ r2.2.2.1 + 1 := hD.2.2.2.2.2.2.2.1
  have hpiv2 : (getL r2.1 lo).amount = p := by
    rw [hD.2.2.1 lo (Or.inl (le_refl lo))]
    exact hpiv1
  have hP := dpProt_spec lo r2.2.2.2 r2.1 a r2.2.1 p (by omega) hlob2
    (by rw [hr2len]; omega) hpiv2 hD.2.2.2.2.2.2.2.2.1
  set r3 := dpProt costLess lo r2.2.2.2 r2.1 a r2.2.1 with hr3
  have hr3len : r3.1.length = l.length := by rw [hP.2.1, hr2len]
  have hlobf : lo < r3.2 := hP.2.2.2.1
  have hbfb2 : r3.2 ≤ r2.2.1 := hP.2.2.2.2.1
  have hpiv3 : (getL r3.1 lo).amount = p := by
    rw [hP.2.2.1 lo (Or.inl (by omega))]
    exact hpiv2
  have hlolen : lo < r3.1.length := by omega
  have hbflen : r3.2 - 1 < r3.1.length := by omega
  have e1 : getL (swapL r3.1 lo (r3.2 - 1)) (r3.2 - 1) = getL r3.1 lo :=
    getL_swapL_fst r3.1 lo (r3.2 - 1) hlolen hbflen
  have e2 : getL (swapL r3.1 lo (r3.2 - 1)) lo = getL r3.1 (r3.2 - 1) := by
    by_cases he : lo = r3.2 - 1
    · rw [he] at e1 ⊢
      exact e1
    · exact getL_swapL_snd r3.1 lo (r3.2 - 1) hlolen hbflen he
  have eout : ∀ k, k ≠ lo → k ≠ r3.2 - 1 → getL (swapL r3.1 lo (r3.2 - 1)) k = getL r3.1 k :=
    fun k h1 h2 => getL_swapL_outside r3.1 lo (r3.2 - 1) k h1 h2
  refine ⟨((swapL_perm r3.1 lo (r3.2 - 1)).trans hP.1).trans
      ((hD.1.trans hBC.1).trans hMed.2.2.2.1),
    by rw [swapL_length, hr3len], ?_, by omega, by omega, by omega, by omega, by omega,
    p, ?_, ?_, ?_⟩
  · intro k hk
    rw [eout k (by omega) (by omega), hP.2.2.1 k (by omega),
      hD.2.2.1 k (by omega), hBC.2.2.1 k (by omega), hMed.2.2.1 k (by omega)]
  · intro k hk1 hk2
    by_cases hk : k = lo
    · subst hk
      rw [e2]
      exact hP.2.2.2.2.2.1 (r3.2 - 1) (by omega) (by omega)
    · rw [eout k hk (by omega)]
      exact hP.2.2.2.2.2.1 k (by omega) (by omega)
  · intro k hk1 hk2
    by_cases hkf : k = r3.2 - 1
    · subst hkf
      rw [e1]
      exact hpiv3
    · rw [eout k (by omega) hkf]
      by_cases hkb : k < r2.2.1
      · exact hP.2.2.2.2.2.2 k (by omega) hkb
      · rw [hP.2.2.1 k (Or.inr (by omega))]
        exact hD.2.2.2.2.2.2.2.2.2.1 k (by omega) hk2
  · intro k hk1 hk2
    by_cases hkf : k = r3.2 - 1
    · subst hkf
      rw [e1, hpiv3]
    · rw [eout k (by omega) hkf]
      by_cases hkb : k < r2.2.1
      · exact le_of_eq (hP.2.2.2.2.2.2 k (by omega) hkb)
      · rw [hP.2.2.1 k (Or.inr (by omega))]
        exact hD.2.2.2.2.2.2.2.2.2.2 k (by omega) hk2

theorem inSub_self (r : Nat) : inSub r r := ⟨0, by simp⟩

theorem inSub_ge {r j : Nat} (h : inSub r j) : r ≤ j := by
  obtain ⟨d, hd⟩ := h
  have := Nat.div_le_self (j + 1) (2 ^ d)
  omega

theorem inSub_child {r j : Nat} (h : inSub r j) :
    inSub r (2 * j + 1) ∧ inSub r (2 * j + 2) := by
  obtain ⟨d, hd⟩ := h
  have h1 : (2 * j + 2) / 2 ^ (d + 1) = r + 1 := by
    rw [pow_succ, mul_comm (2 ^ d) 2, ← Nat.div_div_eq_div_mul]
    rw [show (2 * j + 2) / 2 = j + 1 by omega]
    exact hd
  have h2 : (2 * j + 1 + 1) / 2 ^ (d + 1) = r + 1 := by
    rw [show 2 * j + 1 + 1 = 2 * j + 2 from rfl]
    exact h1
  have h3 : (2 * j + 2 + 1) / 2 ^ (d + 1) = r + 1 := by
    rw [pow_succ, mul_comm (2 ^ d) 2, ← Nat.div_div_eq_div_mul]
    rw [show (2 * j + 2 + 1) / 2 = j + 1 by omega]
    exact hd
  exact ⟨⟨d + 1, h2⟩, ⟨d + 1, h3⟩⟩

theorem inSub_zero (j : Nat) : inSub 0 j := by
  refine ⟨Nat.log2 (j + 1), ?_⟩
  have h1 : 2 ^ Nat.log2 (j + 1) ≤ j + 1 := Nat.log2_self_le (by omega)
  have h2 : j + 1 < 2 ^ (Nat.log2 (j + 1) + 1) := Nat.lt_log2_self
  rw [pow_succ] at h2
  exact Nat.div_eq_of_lt_le (by omega) (by omega)

theorem inSub_parent {r j : Nat} (h : inSub r j) (hne : j ≠ r) :
    1 ≤ j ∧ r ≤ (j - 1) / 2 ∧ inSub r ((j - 1) / 2) := by
  obtain ⟨d, hd⟩ := h
  cases d with
  | zero =>
    rw [pow_zero, Nat.div_one] at hd
    omega
  | succ d =>
    have hpos : 0 < 2 ^ d := pow_pos (by norm_num) d
    have h2 : 2 ^ (d + 1) ≤ j + 1 := by
      by_contra hlt
      rw [Nat.div_eq_of_lt (by omega)] at hd
      omega
    rw [pow_succ] at h2
    have hj1 : 1 ≤ j := by omega
    have hp : ((j - 1) / 2 + 1) / 2 ^ d = r + 1 := by
      rw [show (j - 1) / 2 + 1 = (j + 1) / 2 by omega]
      rw [Nat.div_div_eq_div_mul, ← pow_succ']
      exact hd
    have hsub : inSub r ((j - 1) / 2) := ⟨d, hp⟩
    exact ⟨hj1, inSub_ge hsub, hsub⟩

theorem not_inSub_succ {r : Nat} (hr : 1 ≤ r) : ¬ inSub r (r + 1) := by
  rintro ⟨d, hd⟩
  cases d with
  | zero =>
    rw [pow_zero, Nat.div_one] at hd
    omega
  | succ d =>
    have h2 : 2 ≤ 2 ^ (d + 1) := by
      have := pow_pos (show (0:Nat) < 2 by norm_num) d
      rw [pow_succ]
      omega
    have hle : (r + 1 + 1) / 2 ^ (d + 1) ≤ (r + 1 + 1) / 2 := Nat.div_le_div_left h2 (by omega)
    omega

theorem inSub_trans {r c j : Nat} (h1 : inSub r c) (h2 : inSub c j) : inSub r j := by
  obtain ⟨d1, hd1⟩ := h1
  obtain ⟨d2, hd2⟩ := h2
  refine ⟨d2 + d1, ?_⟩
  rw [pow_add, ← Nat.div_div_eq_div_mul, hd2, hd1]

theorem subtree_le (first : Nat) (l : List cost) (n r0 c : Nat)
    (hseg : heapSeg first l n r0) (hc : r0 ≤ c) :
    ∀ d j, (j + 1) / 2 ^ d = c + 1 → j < n →
      (getL l (first + c)).amount ≤ (getL l (first + j)).amount := by
  intro d
  induction d with
  | zero =>
    intro j hj hjn
    rw [pow_zero, Nat.div_one] at hj
    rw [show j = c by omega]
  | succ d ih =>
    intro j hj hjn
    have hpos : 0 < 2 ^ d := pow_pos (by norm_num) d
    have h2 : 2 ^ (d + 1) ≤ j + 1 := by
      by_contra hlt
      rw [Nat.div_eq_of_lt (by omega)] at hj
      omega
    rw [pow_succ] at h2
    have hj1 : 1 ≤ j := by omega
    have hp : ((j - 1) / 2 + 1) / 2 ^ d = c + 1 := by
      rw [show (j - 1) / 2 + 1 = (j + 1) / 2 by omega]
      rw [Nat.div_div_eq_div_mul, ← pow_succ']
      exact hj
    have hple := ih ((j - 1) / 2) hp (by omega)
    have hedge := hseg j hj1 hjn (le_trans hc (inSub_ge ⟨d, hp⟩))
    exact le_trans hple hedge

theorem siftDownGo_spec (first n : Nat) :
    ∀ (fuel : Nat) (l : List cost) (root : Nat),
      n - root ≤ fuel → first + n ≤ l.length →
      heapSeg first l n (root + 1) →
      heapSeg first (siftDownGo costLess n first fuel l root) n root ∧
      (siftDownGo costLess n first fuel l root).Perm l ∧
      (siftDownGo costLess n first fuel l root).length = l.length ∧
      (∀ k, k < first ∨ first + n ≤ k →
        getL (siftDownGo costLess n first fuel l root) k = getL l k) ∧
      (∀ j, j < n → ¬ inSub root j →
        getL (siftDownGo costLess n first fuel l root) (first + j) = getL l (first + j)) ∧
      (∀ q : ℚ, (∀ j, j < n → inSub root j → q ≤ (getL l (first + j)).amount) →
        ∀ j, j < n → inSub root j →
          q ≤ (getL (siftDownGo costLess n first fuel l root) (first + j)).amount) := by
  intro fuel
  induction fuel with
  | zero =>
    intro l root hfuel hlen hseg
    refine ⟨?_, List.Perm.refl l, rfl, fun k _ => rfl, fun j _ _ => rfl,
      fun q hq j hj hs => hq j hj hs⟩
    intro j h1j hjn hpar
    by_cases hp : root + 1 ≤ (j - 1) / 2
    · exact hseg j h1j hjn hp
    · omega
  | succ fl ih =>
    intro l root hfuel hlen hseg
    simp only [siftDownGo]
    by_cases hleaf : 2 * root + 1 ≥ n
    · rw [if_pos hleaf]
      refine ⟨?_, List.Perm.refl l, rfl, fun k _ => rfl, fun j _ _ => rfl,
        fun q hq j hj hs => hq j hj hs⟩
      intro j h1j hjn hpar
      by_cases hp : root + 1 ≤ (j - 1) / 2
      · exact hseg j h1j hjn hp
      · omega
    · rw [if_neg hleaf]
      have hcsel : ∃ c', (if 2 * root + 1 + 1 < n then
          (if lessAt costLess l (first + (2 * root + 1)) (first + (2 * root + 1) + 1) then
            2 * root + 1 + 1 else 2 * root + 1) else 2 * root + 1) = c' ∧
          (c' = 2 * root + 1 ∨ c' = 2 * root + 2) ∧ c' < n ∧
          (∀ j, 1 ≤ j → j < n → (j - 1) / 2 = root →
            (getL l (first + c')).amount ≤ (getL l (first + j)).amount) := by
        by_cases h1 : 2 * root + 1 + 1 < n
        · by_cases h2 : lessAt costLess l (first + (2 * root + 1))
              (first + (2 * root + 1) + 1) = true
          · refine ⟨2 * root + 1 + 1, by rw [if_pos h1, if_pos h2], Or.inr (by omega),
              by omega, ?_⟩
            have hlt := (lessAt_costLess l (first + (2 * root + 1))
              (first + (2 * root + 1) + 1)).mp h2
            intro j h1j hj hpar
            have hj2 : j = 2 * root + 1 ∨ j = 2 * root + 2 := by omega
            rcases hj2 with hj2 | hj2
            · subst hj2
              rw [show first + (2 * root + 1 + 1) = first + (2 * root + 1) + 1 by omega]
              exact le_of_lt hlt
            · subst hj2
              rw [show first + (2 * root + 1 + 1) = first + (2 * root + 2) by omega]
          · refine ⟨2 * root + 1, by rw [if_pos h1, if_neg h2], Or.inl rfl, by omega, ?_⟩
            have hge := le_of_not_lt ((lessAt_costLess l (first + (2 * root + 1))
              (first + (2 * root + 1) + 1)).not.mp h2)
            intro j h1j hj hpar
            have hj2 : j = 2 * root + 1 ∨ j = 2 * root + 2 := by omega
            rcases hj2 with hj2 | hj2
            · subst hj2
              exact le_refl _
            · subst hj2
              rw [show first + (2 * root + 2) = first + (2 * root + 1) + 1 by omega]
              exact hge
        · refine ⟨2 * root + 1, by rw [if_neg h1], Or.inl rfl, by omega, ?_⟩
          intro j h1j hj hpar
          have hj2 : j = 2 * root + 1 := by omega
          subst hj2
          exact le_refl _
      obtain ⟨c', hc'eq, hc'or, hc'n, hc'min⟩ := hcsel
      rw [hc'eq]
      have hrc' : root < c' := by omega
      have hc'par : (c' - 1) / 2 = root := by omega
      have hsubc' : inSub root c' := by
        rcases hc'or with h | h
        · subst h
          exact (inSub_child (inSub_self root)).1
        · subst h
          exact (inSub_child (inSub_self root)).2
      have hnotc'root : ¬ inSub c' root := fun h => absurd (inSub_ge h) (by omega)
      by_cases hswap : lessAt costLess l (first + root) (first + c') = true
      · rw [if_pos hswap]
        have hvlt := (lessAt_costLess l (first + root) (first + c')).mp hswap
        have hrlen : first + root < l.length := by omega
        have hclen : first + c' < l.length := by omega
        have hrcne : first + root ≠ first + c' := by omega
        have hlen2 : (swapL l (first + root) (first + c')).length = l.length :=
          swapL_length l (first + root) (first + c')
        have e_r : getL (swapL l (first + root) (first + c')) (first + root) =
            getL l (first + c') := getL_swapL_snd l (first + root) (first + c') hrlen hclen hrcne
        have e_c : getL (swapL l (first + root) (first + c')) (first + c') =
            getL l (first + root) := getL_swapL_fst l (first + root) (first + c') hrlen hclen
        have e_o : ∀ k, k ≠ first + root → k ≠ first + c' →
            getL (swapL l (first + root) (first + c')) k = getL l k :=
          fun k h1 h2 => getL_swapL_outside l (first + root) (first + c') k h1 h2
        have hseg2 : heapSeg first (swapL l (first + root) (first + c')) n (c' + 1) := by
          intro j h1j hjn hpar
          have hjp : 2 * ((j - 1) / 2) + 1 ≤ j := by omega
          rw [e_o (first + (j - 1) / 2) (by omega) (by omega),
            e_o (first + j) (by omega) (by omega)]
          exact hseg j h1j hjn (by omega)
        have hres := ih (swapL l (first + root) (first + c')) c' (by omega)
          (by rw [hlen2]; exact hlen) hseg2
        have hsub_of : ∀ j, inSub c' j → inSub root j := fun j h => inSub_trans hsubc' h
        have hnot_sub : ∀ j, ¬ inSub c' j → j ≠ root → j ≠ c' →
            getL (siftDownGo costLess n first fl (swapL l (first + root) (first + c')) c')
              (first + j) = getL l (first + j) := by
          intro j hns hjr hjc
          by_cases hjn2 : j < n
          · rw [hres.2.2.2.2.1 j hjn2 hns, e_o (first + j) (by omega) (by omega)]
          · rw [hres.2.2.2.1 (first + j) (Or.inr (by omega)),
              e_o (first + j) (by omega) (by omega)]
        have hjoin : ∀ j, j < n → ¬ inSub c' j → j ≠ c' → ((j - 1) / 2 = root → j = c' ∨
            ¬ inSub c' j) := fun j _ _ hc _ => Or.inr (by assumption)
        refine ⟨?_, hres.2.1.trans (swapL_perm l (first + root) (first + c')),
          by rw [hres.2.2.1, hlen2], ?_, ?_, ?_⟩
        · intro j h1j hjn hpar
          by_cases hjpar : (j - 1) / 2 = root
          · have hjroot : j ≠ root := by omega
            have hvroot : getL (siftDownGo costLess n first fl
                (swapL l (first + root) (first + c')) c') (first + root) =
                getL l (first + c') := by
              rw [hres.2.2.2.2.1 root (by omega) hnotc'root, e_r]
            by_cases hjc : j = c'
            · rw [hjpar, hjc]
              rw [hvroot]
              have hmono := hres.2.2.2.2.2 ((getL l (first + c')).amount) ?_ c' hc'n
                (inSub_self c')
              · exact hmono
              · intro j2 hj2n hj2s
                by_cases hj2c : j2 = c'
                · subst hj2c
                  rw [e_c]
                  exact le_of_lt hvlt
                · have hj2r : j2 ≠ root := fun h => absurd (inSub_ge hj2s) (by omega)
                  rw [e_o (first + j2) (by omega) (by omega)]
                  obtain ⟨d, hd⟩ := hj2s
                  exact subtree_le first l n (root + 1) c' hseg (by omega) d j2 hd hj2n
            · have hjns : ¬ inSub c' j := by
                intro hjs
                have hpl := inSub_parent hjs hjc
                rw [hjpar] at hpl
                exact absurd (inSub_ge hpl.2.2) (by omega)
              have hjr : j ≠ root := by omega
              rw [hjpar]
              rw [hvroot, hnot_sub j hjns hjr hjc]
              exact hc'min j h1j hjn hjpar
          · have hp1 : root + 1 ≤ (j - 1) / 2 := by omega
            by_cases hpsub : inSub c' ((j - 1) / 2)
            · exact hres.1 j h1j hjn (inSub_ge hpsub)
            · have hjp : 2 * ((j - 1) / 2) + 1 ≤ j := by omega
              have hpr : (j - 1) / 2 ≠ root := hjpar
              have hpc : (j - 1) / 2 ≠ c' := fun h => hpsub (h ▸ inSub_self c')
              have hjc : j ≠ c' := by
                intro h
                subst h
                exact hpr (by omega)
              have hjns : ¬ inSub c' j := by
                intro hjs
                exact hpsub (inSub_parent hjs hjc).2.2
              have hjr : j ≠ root := by omega
              rw [hnot_sub _ hpsub hpr hpc, hnot_sub j hjns hjr hjc]
              exact hseg j h1j hjn hp1
        · intro k hk
          rw [hres.2.2.2.1 k (by omega), e_o k (by omega) (by omega)]
        · intro j hjn hjs
          have hjc : j ≠ c' := fun h => hjs (h ▸ hsubc')
          have hjr : j ≠ root := fun h => hjs (h ▸ inSub_self root)
          have hjcs : ¬ inSub c' j := fun h => hjs (hsub_of j h)
          exact hnot_sub j hjcs hjr hjc
        · intro q hq j hjn hjs
          by_cases hjcs : inSub c' j
          · refine hres.2.2.2.2.2 q ?_ j hjn hjcs
            intro j2 hj2n hj2s
            by_cases hj2c : j2 = c'
            · subst hj2c
              rw [e_c]
              exact hq root (by omega) (inSub_self root)
            · have hj2r : j2 ≠ root := fun h => absurd (inSub_ge hj2s) (by omega)
              rw [e_o (first + j2) (by omega) (by omega)]
              exact hq j2 hj2n (hsub_of j2 hj2s)
          · by_cases hjr : j = root
            · subst hjr
              rw [hres.2.2.2.2.1 j hjn hjcs, e_r]
              exact hq c' hc'n hsubc'
            · have hjc : j ≠ c' := fun h => hjcs (h ▸ inSub_self c')
              rw [hnot_sub j hjcs hjr hjc]
              exact hq j hjn hjs
      · rw [if_neg hswap]
        have hge := le_of_not_lt ((lessAt_costLess l (first + root) (first + c')).not.mp hswap)
        refine ⟨?_, List.Perm.refl l, rfl, fun k _ => rfl, fun j _ _ => rfl,
          fun q hq j hj hs => hq j hj hs⟩
        intro j h1j hjn hpar
        by_cases hjpar : (j - 1) / 2 = root
        · rw [hjpar]
          exact le_trans hge (hc'min j h1j hjn hjpar)
        · exact hseg j h1j hjn (by omega)

theorem heapInit_spec (first n : Nat) :
    ∀ (i : Nat) (l : List cost),
      first + n ≤ l.length →
      heapSeg first l n (i + 1) →
      heapSeg first (heapInit costLess n first i l) n 0 ∧
      (heapInit costLess n first i l).Perm l ∧
      (heapInit costLess n first i l).length = l.length ∧
      (∀ k, k < first ∨ first + n ≤ k → getL (heapInit costLess n first i l) k = getL l k) := by
  intro i
  induction i with
  | zero =>
    intro l hlen hseg
    simp only [heapInit]
    have hS := siftDownGo_spec first n n l 0 (by omega) hlen hseg
    exact ⟨hS.1, hS.2.1, hS.2.2.1, hS.2.2.2.1⟩
  | succ i ih =>
    intro l hlen hseg
    simp only [heapInit]
    have hS := siftDownGo_spec first n n l (i + 1) (by omega) hlen hseg
    have hres := ih (siftDownGo costLess n first n l (i + 1))
      (by rw [hS.2.2.1]; exact hlen) hS.1
    refine ⟨hres.1, hres.2.1.trans hS.2.1, by rw [hres.2.2.1, hS.2.2.1], ?_⟩
    intro k hk
    rw [hres.2.2.2 k hk, hS.2.2.2.1 k hk]

theorem heapExtract_spec (first hi : Nat) :
    ∀ (i : Nat) (l : List cost),
      i < hi → first + hi ≤ l.length →
      heapSeg first l (i + 1) 0 →
      (∀ j, i + 1 ≤ j → j + 1 < hi →
        (getL l (first + (j + 1))).amount ≤ (getL l (first + j)).amount) →
      (∀ j k2, j < i + 1 → i + 1 ≤ k2 → k2 < hi →
        (getL l (first + k2)).amount ≤ (getL l (first + j)).amount) →
      (∀ j, j + 1 < hi →
        (getL (heapExtract costLess first i l) (first + (j + 1))).amount ≤
          (getL (heapExtract costLess first i l) (first + j)).amount) ∧
      (heapExtract costLess first i l).Perm l ∧
      (heapExtract costLess first i l).length = l.length ∧
      (∀ k, k < first ∨ first + hi ≤ k → getL (heapExtract costLess first i l) k = getL l k) := by
  intro i
  induction i with
  | zero =>
    intro l hihi hlen hseg hsuf hbd
    simp only [heapExtract, siftDownGo]
    rw [if_pos (show 2 * 0 + 1 ≥ 0 by omega)]
    have hid : ∀ k, getL (swapL l first first) k = getL l k := by
      intro k
      by_cases hfl : first < l.length
      · rw [getL_swapL l first first k hfl hfl]
        by_cases hk : k = first
        · rw [if_pos hk, hk]
        · rw [if_neg hk, if_neg hk]
      · unfold swapL
        rw [dif_neg hfl]
    refine ⟨?_, swapL_perm l first first, swapL_length l first first, fun k _ => hid k⟩
    intro j hj
    rw [hid, hid]
    by_cases hj0 : j = 0
    · subst hj0
      exact hbd 0 1 (by omega) (by omega) (by omega)
    · exact hsuf j (by omega) hj
  | succ i ih =>
    intro l hihi hlen hseg hsuf hbd
    simp only [heapExtract]
    have hflen : first < l.length := by omega
    have hi1len : first + (i + 1) < l.length := by omega
    have hfne : first ≠ first + (i + 1) := by omega
    have hlen2 : (swapL l first (first + (i + 1))).length = l.length :=
      swapL_length l first (first + (i + 1))
    have e0 : getL (swapL l first (first + (i + 1))) (first + 0) = getL l (first + (i + 1)) := by
      rw [show first + 0 = first by omega]
      exact getL_swapL_snd l first (first + (i + 1)) hflen hi1len hfne
    have e1 : getL (swapL l first (first + (i + 1))) (first + (i + 1)) = getL l (first + 0) := by
      rw [show first + 0 = first by omega]
      exact getL_swapL_fst l first (first + (i + 1)) hflen hi1len
    have eo : ∀ k, k ≠ first → k ≠ first + (i + 1) →
        getL (swapL l first (first + (i + 1))) k = getL l k :=
      fun k h1 h2 => getL_swapL_outside l first (first + (i + 1)) k h1 h2
    have hmin : ∀ j, j < i + 2 → (getL l (first + 0)).amount ≤ (getL l (first + j)).amount := by
      intro j hj
      obtain ⟨d, hd⟩ := inSub_zero j
      exact subtree_le first l (i + 2) 0 0 hseg (le_refl 0) d j hd hj
    have hseg2 : heapSeg first (swapL l first (first + (i + 1))) (i + 1) 1 := by
      intro j h1j hjn hpar
      have hjp : 2 * ((j - 1) / 2) + 1 ≤ j := by omega
      have hp1 : 1 ≤ (j - 1) / 2 := hpar
      rw [eo (first + (j - 1) / 2) (by omega) (by omega), eo (first + j) (by omega) (by omega)]
      exact hseg j h1j (by omega) (by omega)
    have hS := siftDownGo_spec first (i + 1) (i + 2) (swapL l first (first + (i + 1))) 0
      (by omega) (by rw [hlen2]; omega) hseg2
    set l3 := siftDownGo costLess (i + 1) first (i + 2) (swapL l first (first + (i + 1))) 0
      with hl3
    have hl3len : l3.length = l.length := by rw [hS.2.2.1, hlen2]
    have hl3hi : ∀ k, first + (i + 1) ≤ k → getL l3 k = getL (swapL l first (first + (i + 1))) k :=
      fun k hk => hS.2.2.2.1 k (Or.inr hk)
    have hsuf3 : ∀ j, i + 1 ≤ j → j + 1 < hi →
        (getL l3 (first + (j + 1))).amount ≤ (getL l3 (first + j)).amount := by
      intro j hj hj1
      rw [hl3hi (first + (j + 1)) (by omega), hl3hi (first + j) (by omega)]
      by_cases hji : j = i + 1
      · subst hji
        rw [e1, eo (first + (i + 1 + 1)) (by omega) (by omega)]
        exact hbd 0 (i + 2) (by omega) (by omega) (by omega)
      · rw [eo (first + (j + 1)) (by omega) (by omega), eo (first + j) (by omega) (by omega)]
        exact hsuf j (by omega) hj1
    have hbd3 : ∀ j k2, j < i + 1 → i + 1 ≤ k2 → k2 < hi →
        (getL l3 (first + k2)).amount ≤ (getL l3 (first + j)).amount := by
      intro j k2 hj hk2 hk2hi
      have hq : (getL l3 (first + k2)).amount = (getL (swapL l first (first + (i + 1)))
          (first + k2)).amount := by rw [hl3hi (first + k2) (by omega)]
      rw [hq]
      refine hS.2.2.2.2.2 ((getL (swapL l first (first + (i + 1))) (first + k2)).amount)
        ?_ j hj (inSub_zero j)
      intro j2 hj2n hj2s
      by_cases hj20 : j2 = 0
      · subst hj20
        rw [e0]
        by_cases hk2i : k2 = i + 1
        · subst hk2i
          rw [e1]
          exact hmin (i + 1) (by omega)
        · rw [eo (first + k2) (by omega) (by omega)]
          exact hbd (i + 1) k2 (by omega) (by omega) hk2hi
      · rw [eo (first + j2) (by omega) (by omega)]
        by_cases hk2i : k2 = i + 1
        · subst hk2i
          rw [e1]
          exact hmin j2 (by omega)
        · rw [eo (first + k2) (by omega) (by omega)]
          exact hbd j2 k2 (by omega) (by omega) hk2hi
    have hres := ih l3 (by omega) (by rw [hl3len]; exact hlen) hS.1 hsuf3 hbd3
    refine ⟨hres.1, (hres.2.1.trans hS.2.1).trans (swapL_perm l first (first + (i + 1))),
      by rw [hres.2.2.1, hl3len], ?_⟩
    intro k hk
    have hk2 : k < first ∨ first + (i + 1) ≤ k := by
      rcases hk with hk | hk
      · exact Or.inl hk
      · exact Or.inr (by omega)
    rw [hres.2.2.2 k hk, hS.2.2.2.1 k hk2, eo k (by omega) (by omega)]

theorem heapSortGo_spec (l : List cost) (a b : Nat) (hab : a ≤ b) (hb : b ≤ l.length) :
    sortedSegD (heapSortGo costLess l a b) a b ∧
    (heapSortGo costLess l a b).Perm l ∧
    (heapSortGo costLess l a b).length = l.length ∧
    (∀ k, k < a ∨ b ≤ k → getL (heapSortGo costLess l a b) k = getL l k) := by
  simp only [heapSortGo]
  have hpre0 : heapSeg a l (b - a) ((b - a - 1) / 2 + 1) := by
    intro j h1 h2 h3
    exact absurd h3 (by omega)
  have hInit := heapInit_spec a (b - a) ((b - a - 1) / 2) l (by omega) hpre0
  by_cases hz : b - a = 0
  · rw [if_pos hz]
    refine ⟨?_, hInit.2.1, hInit.2.2.1, ?_⟩
    · intro k hk1 hk2
      omega
    · intro k hk
      refine hInit.2.2.2 k ?_
      rcases hk with hk | hk
      · exact Or.inl hk
      · exact Or.inr (by omega)
  · rw [if_neg hz]
    have hpre : heapSeg a (heapInit costLess (b - a) a ((b - a - 1) / 2) l) (b - a - 1 + 1) 0 := by
      rw [show b - a - 1 + 1 = b - a by omega]
      exact hInit.1
    have hExt := heapExtract_spec a (b - a) (b - a - 1)
      (heapInit costLess (b - a) a ((b - a - 1) / 2) l) (by omega)
      (by rw [hInit.2.2.1]; omega) hpre
      (fun j hj1 hj2 => absurd hj2 (by omega))
      (fun j k2 hj hk2 hk2hi => absurd hk2hi (by omega))
    refine ⟨?_, hExt.2.1.trans hInit.2.1, by rw [hExt.2.2.1, hInit.2.2.1], ?_⟩
    · intro k hk1 hk2
      have hs := hExt.1 (k - a) (by omega)
      rw [show a + (k - a + 1) = k + 1 by omega, show a + (k - a) = k by omega] at hs
      exact hs
    · intro k hk
      have hk2 : k < a ∨ a + (b - a) ≤ k := by
        rcases hk with hk | hk
        · exact Or.inl hk
        · exact Or.inr (by omega)
      rw [hExt.2.2.2 k hk2]
      exact hInit.2.2.2 k hk2

theorem shellPass_loc (b a : Nat) :
    ∀ (fuel : Nat) (l : List cost) (i : Nat), a + 6 ≤ i →
      ∀ k, k < a ∨ b ≤ k → getL (shellPass costLess b fuel l i) k = getL l k := by
  intro fuel
  induction fuel with
  | zero => intro l i hi k hk; rfl
  | succ n ih =>
    intro l i hi k hk
    simp only [shellPass]
    by_cases hib : i < b
    · rw [if_pos hib]
      rw [ih _ (i + 1) (by omega) k hk]
      by_cases hsw : lessAt costLess l i (i - 6) = true
      · rw [if_pos hsw]
        exact getL_swapL_outside l i (i - 6) k (by omega) (by omega)
      · rw [if_neg hsw]
    · rw [if_neg hib]

theorem sortedSegD_glue (l1 : List cost) (a mlo mhi b : Nat) (p : ℚ)
    (h1 : a ≤ mlo) (h2 : mlo ≤ mhi) (h3 : mhi ≤ b)
    (hs1 : sortedSegD l1 a mlo) (hs2 : sortedSegD l1 mhi b)
    (hL : ∀ k, a ≤ k → k < mlo → p ≤ (getL l1 k).amount)
    (hM : ∀ k, mlo ≤ k → k < mhi → (getL l1 k).amount = p)
    (hR : ∀ k, mhi ≤ k → k < b → (getL l1 k).amount ≤ p) :
    sortedSegD l1 a b := by
  intro k hk1 hk2
  by_cases c1 : k + 1 < mlo
  · exact hs1 k hk1 c1
  · by_cases c2 : k < mlo
    · have hRHS := hL k hk1 c2
      have hLHS : (getL l1 (k + 1)).amount ≤ p := by
        by_cases c3 : k + 1 < mhi
        · exact le_of_eq (hM (k + 1) (by omega) c3)
        · exact hR (k + 1) (by omega) hk2
      exact le_trans hLHS hRHS
    · by_cases c3 : k < mhi
      · have hRHS : (getL l1 k).amount = p := hM k (by omega) c3
        have hLHS : (getL l1 (k + 1)).amount ≤ p := by
          by_cases c4 : k + 1 < mhi
          · exact le_of_eq (hM (k + 1) (by omega) c4)
          · exact hR (k + 1) (by omega) hk2
        rw [hRHS]
        exact hLHS
      · exact hs2 k (by omega) hk2

theorem quickSortGo_spec :
    ∀ (fuel : Nat) (l : List cost) (a b maxDepth : Nat),
      b ≤ l.length → b - a ≤ fuel →
      sortedSegD (quickSortGo costLess fuel l a b maxDepth) a b ∧
      (quickSortGo costLess fuel l a b maxDepth).Perm l ∧
      (quickSortGo costLess fuel l a b maxDepth).length = l.length ∧
      (∀ k, k < a ∨ b ≤ k → getL (quickSortGo costLess fuel l a b maxDepth) k = getL l k) := by
  intro fuel
  induction fuel with
  | zero =>
    intro l a b maxDepth hble hfuel
    refine ⟨?_, List.Perm.refl l, rfl, fun k _ => rfl⟩
    intro k hk1 hk2
    omega
  | succ fl ih =>
    intro l a b maxDepth hble hfuel
    simp only [quickSortGo]
    by_cases h12 : b - a > 12
    · rw [if_pos h12]
      by_cases hmd : maxDepth = 0
      · rw [if_pos hmd]
        exact heapSortGo_spec l a b (by omega) hble
      · rw [if_neg hmd]
        have hDP := doPivotGo_spec l a b h12 hble
        set r := doPivotGo costLess l a b with hr
        have hrlen : r.1.length = l.length := hDP.2.1
        have hmlo1 : a ≤ r.2.1 := hDP.2.2.2.1
        have hmlo2 : r.2.1 ≤ b - 1 := hDP.2.2.2.2.1
        have hmhi1 : a < r.2.2 := hDP.2.2.2.2.2.1
        have hmhi2 : r.2.2 ≤ b - 1 := hDP.2.2.2.2.2.2.1
        have hmm : r.2.1 ≤ r.2.2 := hDP.2.2.2.2.2.2.2.1
        obtain ⟨p, hLp, hMp, hRp⟩ := hDP.2.2.2.2.2.2.2.2
        by_cases hbr : r.2.1 - a < b - r.2.2
        · rw [if_pos hbr]
          have hS1 := ih r.1 a r.2.1 (maxDepth - 1) (by omega) (by omega)
          set S1 := quickSortGo costLess fl r.1 a r.2.1 (maxDepth - 1) with hs1def
          have hS1len : S1.length = l.length := by rw [hS1.2.2.1, hrlen]
          have hS2 := ih S1 r.2.2 b (maxDepth - 1) (by rw [hS1len]; exact hble) (by omega)
          have hLstep := seg_all_transport r.1 S1 a r.2.1 (fun x => p ≤ x.amount)
            hmlo1 (by omega) hS1.2.1 hS1.2.2.2 hLp
          have hRbase : ∀ k, r.2.2 ≤ k → k < b → (getL S1 k).amount ≤ p := by
            intro k hk1 hk2
            rw [hS1.2.2.2 k (Or.inr (by omega))]
            exact hRp k hk1 hk2
          have hRstep := seg_all_transport S1
            (quickSortGo costLess fl S1 r.2.2 b (maxDepth - 1)) r.2.2 b
            (fun x => x.amount ≤ p) (by omega) (by rw [hS1len]; exact hble)
            hS2.2.1 hS2.2.2.2 hRbase
          have hsort1 : sortedSegD (quickSortGo costLess fl S1 r.2.2 b (maxDepth - 1)) a r.2.1 := by
            intro k hk1 hk2
            rw [hS2.2.2.2 k (Or.inl (by omega)), hS2.2.2.2 (k + 1) (Or.inl (by omega))]
            exact hS1.1 k hk1 hk2
          have hLfin : ∀ k, a ≤ k → k < r.2.1 →
              p ≤ (getL (quickSortGo costLess fl S1 r.2.2 b (maxDepth - 1)) k).amount := by
            intro k hk1 hk2
            rw [hS2.2.2.2 k (Or.inl (by omega))]
            exact hLstep k hk1 hk2
          have hMfin : ∀ k, r.2.1 ≤ k → k < r.2.2 →
              (getL (quickSortGo costLess fl S1 r.2.2 b (maxDepth - 1)) k).amount = p := by
            intro k hk1 hk2
            rw [hS2.2.2.2 k (Or.inl (by omega)), hS1.2.2.2 k (Or.inr (by omega))]
            exact hMp k hk1 hk2
          refine ⟨sortedSegD_glue _ a r.2.1 r.2.2 b p hmlo1 hmm (by omega)
            hsort1 hS2.1 hLfin hMfin hRstep,
            (hS2.2.1.trans hS1.2.1).trans hDP.1,
            by rw [hS2.2.2.1, hS1len], ?_⟩
          intro k hk
          have hka : k < r.2.2 ∨ b ≤ k := by
            rcases hk with hk | hk
            · exact Or.inl (by omega)
            · exact Or.inr hk
          have hkb : k < a ∨ r.2.1 ≤ k := by
            rcases hk with hk | hk
            · exact Or.inl hk
            · exact Or.inr (by omega)
          rw [hS2.2.2.2 k hka, hS1.2.2.2 k hkb, hDP.2.2.1 k hk]
        · rw [if_neg hbr]
          have hS1 := ih r.1 r.2.2 b (maxDepth - 1) (by rw [hrlen]; exact hble) (by omega)
          set S1 := quickSortGo costLess fl r.1 r.2.2 b (maxDepth - 1) with hs1def
          have hS1len : S1.length = l.length := by rw [hS1.2.2.1, hrlen]
          have hS2 := ih S1 a r.2.1 (maxDepth - 1) (by rw [hS1len]; omega) (by omega)
          have hRstep := seg_all_transport r.1 S1 r.2.2 b (fun x => x.amount ≤ p)
            (by omega) (by rw [hrlen]; exact hble) hS1.2.1 hS1.2.2.2 hRp
          have hLbase : ∀ k, a ≤ k → k < r.2.1 → p ≤ (getL S1 k).amount := by
            intro k hk1 hk2
            rw [hS1.2.2.2 k (Or.inl (by omega))]
            exact hLp k hk1 hk2
          have hLstep := seg_all_transport S1
            (quickSortGo costLess fl S1 a r.2.1 (maxDepth - 1)) a r.2.1
            (fun x => p ≤ x.amount) hmlo1 (by rw [hS1len]; omega)
            hS2.2.1 hS2.2.2.2 hLbase
          have hsort2 : sortedSegD (quickSortGo costLess fl S1 a r.2.1 (maxDepth - 1)) r.2.2 b := by
            intro k hk1 hk2
            rw [hS2.2.2.2 k (Or.inr (by omega)), hS2.2.2.2 (k + 1) (Or.inr (by omega))]
            exact hS1.1 k hk1 hk2
          have hRfin : ∀ k, r.2.2 ≤ k → k < b →
              (getL (quickSortGo costLess fl S1 a r.2.1 (maxDepth - 1)) k).amount ≤ p := by
            intro k hk1 hk2
            rw [hS2.2.2.2 k (Or.inr (by omega))]
            exact hRstep k hk1 hk2
          have hMfin : ∀ k, r.2.1 ≤ k → k < r.2.2 →
              (getL (quickSortGo costLess fl S1 a r.2.1 (maxDepth - 1)) k).amount = p := by
            intro k hk1 hk2
            rw [hS2.2.2.2 k (Or.inr (by omega)), hS1.2.2.2 k (Or.inl (by omega))]
            exact hMp k hk1 hk2
          refine ⟨sortedSegD_glue _ a r.2.1 r.2.2 b p hmlo1 hmm (by omega)
            hS2.1 hsort2 hLstep hMfin hRfin,
            (hS2.2.1.trans hS1.2.1).trans hDP.1,
            by rw [hS2.2.2.1, hS1len], ?_⟩
          intro k hk
          have hka : k < a ∨ r.2.1 ≤ k := by
            rcases hk with hk | hk
            · exact Or.inl hk
            · exact Or.inr (by omega)
          have hkb : k < r.2.2 ∨ b ≤ k := by
            rcases hk with hk | hk
            · exact Or.inl (by omega)
            · exact Or.inr hk
          rw [hS2.2.2.2 k hka, hS1.2.2.2 k hkb, hDP.2.2.1 k hk]
    · rw [if_neg h12]
      by_cases h1 : b - a > 1
      · rw [if_pos h1]
        have hshlen : (shellPass costLess b (b - a) l (a + 6)).length = l.length :=
          (shellPass_perm costLess b (b - a) l (a + 6)).length_eq
        have hIns := insertionSortGo_spec (shellPass costLess b (b - a) l (a + 6)) a b
          (by rw [hshlen]; exact hble)
        refine ⟨hIns.1,
          (insertionSortGo_perm costLess _ a b).trans (shellPass_perm costLess b (b - a) l (a + 6)),
          by rw [hIns.2.2, hshlen], ?_⟩
        intro k hk
        rw [hIns.2.1 k hk, shellPass_loc b a (b - a) l (a + 6) (le_refl _) k hk]
      · rw [if_neg h1]
        refine ⟨?_, List.Perm.refl l, rfl, fun k _ => rfl⟩
        intro k hk1 hk2
        omega

theorem goSortSlice_sorted (l : List cost) : sortedSegD (goSortSlice costLess l) 0 l.length := by
  unfold goSortSlice
  exact (quickSortGo_spec (l.length + 1) l 0 l.length (maxDepthGo l.length)
    (le_refl _) (by omega)).1

/-- C2 (amended): the entries after the Total row are a permutation of the
parsed entries sorted by amount descending; stability fails (see the
counterexample), so only sortedness and permutation hold. -/
theorem claim2_amended (rbt : List ResultByTime) (parsed l : List cost)
    (hp : parseGroups ((rbt.map ResultByTime.groups).flatten) = .ok parsed)
    (hok : getCosts rbt = .ok l) :
    sortedByAmountDesc l.tail ∧ l.tail.Perm parsed := by
  unfold getCosts at hok
  rw [hp] at hok
  simp only [Except.ok.injEq] at hok
  subst hok
  simp only [List.tail_cons]
  constructor
  · apply sortedSegD_chain
    have hlen : (goSortSlice costLess parsed).length = parsed.length :=
      (goSortSlice_perm costLess parsed).length_eq
    rw [hlen]
    exact goSortSlice_sorted parsed
  · exact goSortSlice_perm costLess parsed

/-- Witness for the amended C2 at the seven-group tied input. -/
theorem claim2_amended_witness :
    parseGroups ((exampleGroupsTies.map ResultByTime.groups).flatten) =
      .ok [⟨"A", 1, "u"⟩, ⟨"B", 5, "u"⟩, ⟨"C", 2, "u"⟩, ⟨"D", 2, "u"⟩, ⟨"E", 2, "u"⟩,
        ⟨"F", 2, "u"⟩, ⟨"G", 5, "u"⟩] ∧
    getCosts exampleGroupsTies =
      .ok [⟨"Total", 19, "*"⟩, ⟨"G", 5, "u"⟩, ⟨"B", 5, "u"⟩, ⟨"C", 2, "u"⟩, ⟨"D", 2, "u"⟩,
        ⟨"E", 2, "u"⟩, ⟨"F", 2, "u"⟩, ⟨"A", 1, "u"⟩] ∧
    (sortedByAmountDesc ([⟨"Total", (19 : ℚ), "*"⟩, ⟨"G", 5, "u"⟩, ⟨"B", 5, "u"⟩, ⟨"C", 2, "u"⟩,
        ⟨"D", 2, "u"⟩, ⟨"E", 2, "u"⟩, ⟨"F", 2, "u"⟩, ⟨"A", 1, "u"⟩] : List cost).tail ∧
      ([⟨"Total", (19 : ℚ), "*"⟩, ⟨"G", 5, "u"⟩, ⟨"B", 5, "u"⟩, ⟨"C", 2, "u"⟩, ⟨"D", 2, "u"⟩,
        ⟨"E", 2, "u"⟩, ⟨"F", 2, "u"⟩, ⟨"A", 1, "u"⟩] : List cost).tail.Perm
        [⟨"A", (1 : ℚ), "u"⟩, ⟨"B", 5, "u"⟩, ⟨"C", 2, "u"⟩, ⟨"D", 2, "u"⟩, ⟨"E", 2, "u"⟩,
          ⟨"F", 2, "u"⟩, ⟨"G", 5, "u"⟩]) := by
  have hp : parseGroups ((exampleGroupsTies.map ResultByTime.groups).flatten) =
      .ok [⟨"A", 1, "u"⟩, ⟨"B", 5, "u"⟩, ⟨"C", 2, "u"⟩, ⟨"D", 2, "u"⟩, ⟨"E", 2, "u"⟩,
        ⟨"F", 2, "u"⟩, ⟨"G", 5, "u"⟩] := by with_unfolding_all rfl
  have hok : getCosts exampleGroupsTies =
      .ok [⟨"Total", 19, "*"⟩, ⟨"G", 5, "u"⟩, ⟨"B", 5, "u"⟩, ⟨"C", 2, "u"⟩, ⟨"D", 2, "u"⟩,
        ⟨"E", 2, "u"⟩, ⟨"F", 2, "u"⟩, ⟨"A", 1, "u"⟩] := by with_unfolding_all rfl
  exact ⟨hp, hok, claim2_amended exampleGroupsTies _ _ hp hok⟩


end AwsCostSlack
